import Mathlib

/-! Monster: grammar compiler and generation engine.

A shallow embedding of `src/parse.go` (package `monster`): the data model
(`Terminal`, `NonTerminal`, `Node`, `Context`), the recursive-descent parser
(`parseNT`, `parseRules`, `parseNodes`, `parseContext`, `Parse`), the
reference-resolution pass (`buildAst`) and the generation engine (`Generate`); and of
the built-in `Range` of `src/builtin/range.go` (package `builtin`).

Conventions of the embedding.

* Go maps (`Context`, the symbol table `popts.Nonterminals`) are association lists
  without duplicate keys (`AList`): `m[k] = v` is `insert`, `delete(m, k)` is `erase`,
  a `range` loop is a fold over the entries.  Go leaves the iteration order of a map
  unspecified; the order of the list stands for whichever order the run picks.  The
  working context handed to `Generate` is an allocated map (`make(Context)`); the nil
  map, which Go can read but not write, appears only where the code itself produces it
  (the `context` of the zero `NonTerminal`, in `parseContext`).
* Go slices are references.  The rules of a nonterminal (`any [][]Node`) live in a
  backing store that every copy of the `NonTerminal` struct shares; `buildAst` writes
  into that store in place, which is what makes recursive grammars cyclic.  The store
  is the explicit `Heap`: a `NonTerminal` holds the address of its rule list.
* Code that stops the process (`os.Exit(1)`, a runtime panic) returns `Except.error`
  with the `Failure` that names the cause.
* `Generate` recurses without a bound in Go.  The embedding adds a budget of nested
  calls; `Failure.outOfFuel` means the budget ran out, not that the Go code failed.
-/

namespace Monster

/-! ## Data model -/

/-- Dynamically typed value of a `Context` entry (Go `interface{}`): the parser stores
strings, integers and floats, `Generate` stores strings.  A float is kept as the bit
pattern of its `float64`. -/
inductive Value
  | str (s : String)
  | int (i : Int)
  | float (bits : Nat)
  deriving DecidableEq, Repr

/-- Variable context, Go `type Context map[string]interface{}`. -/
abbrev Context := AList (fun _ : String => Value)

/-- Leaf generator, Go `func(context Context) string`.  The Go function receives
the map by reference, so it may change it: the embedding returns the context it leaves
behind together with the text.  `none` is a generator that panics. -/
abbrev Generator := Context → Option (String × Context)

/-- Leaf value node, Go `type Terminal struct`. -/
structure Terminal where
  name : String
  value : String
  generator : Generator

/-- Nonterminal node, Go `type NonTerminal struct`.  `any` is the address in the `Heap`
of the rule list (`none` is the nil slice).  -/
structure NonTerminal where
  name : String
  value : String := ""
  context : Context
  lrmax : Int
  generator : Option Generator := none
  any : Option Nat

/-- The zero value of `NonTerminal`: what a failed type assertion and a lookup of a
missing map key yield in Go. -/
def NonTerminal.zero : NonTerminal :=
  { name := "", value := "", context := ∅, lrmax := 0, generator := none, any := none }

/-- Node of a rule, Go `type Node interface{}`.  The parser stores a `Terminal` or a bare
`string` (an unresolved reference); `buildAst` replaces the strings by `NonTerminal`s. -/
inductive Node
  | terminal (t : Terminal)
  | nonterminal (nt : NonTerminal)
  | ref (s : String)

/-- Backing store of the rule lists: cell `a` holds the alternatives (each a list of
nodes) of the nonterminals whose `any` is `some a`. -/
abbrev Heap := List (List (List Node))

/-- Contents of the slice `nt.any`. -/
def Heap.rules (heap : Heap) (any : Option Nat) : List (List Node) :=
  match any with
  | none => []
  | some a => heap.getD a []

/-- Symbol table, Go `map[string]NonTerminal` (`popts.Nonterminals`). -/
abbrev Table := AList (fun _ : String => NonTerminal)

/-- Go map read `Nonterminals[name]`: the zero value when the key is missing. -/
def Table.get (Nonterminals : Table) (name : String) : NonTerminal :=
  (Nonterminals.lookup name).getD NonTerminal.zero

/-- Ways in which the code stops without a result. -/
inductive Failure
  | exit (msg : String)
  | indexOutOfRange
  | nilCall
  | nilMap
  | intnEmpty
  | leafPanic
  | outOfFuel
  deriving DecidableEq, Repr

/-! ## Pseudorandom source -/

/-- State of a `*rand.Rand` (library `math/rand`): the stream of raw draws still to come.
Every stream is allowed, so a statement for all `Rand` holds for every seed. -/
abbrev Rand := Nat → Nat

/-- Library call `Rnd.Intn(n)`: panics when `n <= 0`, otherwise returns a value in
`[0, n)` and advances the source. -/
def Rand.Intn (Rnd : Rand) (n : Nat) : Option (Nat × Rand) :=
  if n = 0 then none else some (Rnd 0 % n, fun i => Rnd (i + 1))

/-! ## Generation engine -/

/-- Local variables of the node loop of `Generate` (lines 205-218): the shared context,
the random source, and the two accumulators. -/
structure LoopState where
  context : Context
  Rnd : Rand
  terms : List String
  names : List String

/-- Result of one call of `Generate`: the text, and the context and random source as
the call leaves them. -/
abbrev GenResult := Except Failure (String × Context × Rand)

/-- The `else` branch of the node loop (lines 211-214): expand the nonterminal `nd`
with the recursive call `gen`, bind its text under its name, remember the name. -/
def expandNonTerminal (gen : Context → Rand → NonTerminal → GenResult)
    (st : LoopState) (nd : NonTerminal) : Except Failure LoopState :=
  match gen st.context st.Rnd nd with
  | .error e => .error e
  | .ok (valstr, context, Rnd) =>
    .ok { context := context.insert nd.name (Value.str valstr)
          Rnd := Rnd
          terms := st.terms ++ [valstr]
          names := st.names ++ [nd.name] }

/-- One iteration of the node loop (lines 205-218).  A node that is not a `Terminal` is
asserted to be a `NonTerminal`; when that assertion fails too (an unresolved reference),
Go goes on with the zero `NonTerminal`. -/
def expandNode (gen : Context → Rand → NonTerminal → GenResult)
    (st : LoopState) : Node → Except Failure LoopState
  | .terminal nd =>
    match nd.generator st.context with
    | none => .error .leafPanic
    | some (valstr, context) =>
      .ok { st with context := context, terms := st.terms ++ [valstr] }
  | .nonterminal nd => expandNonTerminal gen st nd
  | .ref _ => expandNonTerminal gen st NonTerminal.zero

/-- The node loop `for _, node := range rule` (lines 205-218). -/
def expandNodes (gen : Context → Rand → NonTerminal → GenResult) :
    List Node → LoopState → Except Failure LoopState
  | [], st => .ok st
  | node :: rest, st =>
    match expandNode gen st node with
    | .error e => .error e
    | .ok st1 => expandNodes gen rest st1

/-- Lines 202-204: copy every entry of the default context into the working context. -/
def mergeDefaults (defaults context : Context) : Context :=
  defaults.entries.foldl (fun c e => c.insert e.1 e.2) context

/-- Lines 219 and 220: delete the listed keys from the context. -/
def deleteKeys (keys : List String) (context : Context) : Context :=
  keys.foldl (fun c k => c.erase k) context

/-- State in which the node loop starts (lines 200-204): both accumulators are made
with length `len(rule)`, so they start as that many empty strings. -/
def initState (defaults context : Context) (Rnd : Rand) (rule : List Node) : LoopState :=
  { context := mergeDefaults defaults context
    Rnd := Rnd
    terms := List.replicate rule.length ""
    names := List.replicate rule.length "" }

/-- Lines 219-221: drop the sibling bindings and the default-context keys, join the
texts. -/
def finish (defaults : Context) (st : LoopState) : String × Context × Rand :=
  (String.join st.terms, deleteKeys defaults.keys (deleteKeys st.names st.context), st.Rnd)

/-- The function `Generate` (lines 197-222).  `heap` is the store the slices point into,
`Nonterminals` is `popts.Nonterminals`, `Rnd` the state of `popts.Rnd`; the first
argument bounds the depth of nested calls. -/
def Generate (heap : Heap) (Nonterminals : Table) :
    Nat → Context → Rand → NonTerminal → GenResult
  | 0, _, _, _ => .error .outOfFuel
  | fuel + 1, context, Rnd, nt =>
    match Rnd.Intn (heap.rules nt.any).length with
    | none => .error .intnEmpty
    | some (i, Rnd1) =>
      match (heap.rules nt.any)[i]? with
      | none => .error .indexOutOfRange
      | some rule =>
        let defaults := (Nonterminals.get nt.name).context
        match expandNodes (Generate heap Nonterminals fuel) rule
            (initState defaults context Rnd1 rule) with
        | .error e => .error e
        | .ok st => .ok (finish defaults st)

/-! ## Tokenizer -/

/-- One token as the parser sees it: `toktype` is `scanner.TokenString` of the token
(`"Ident"`, `"Int"`, `"Float"`, `"Char"`, `"String"`, `"EOF"`, or the quoted character),
`text` is `TokenText()`, and `follow` is the source character right after the token
(`none` at the end of the source), which is what `Peek()` returns once the token has
been scanned. -/
structure Tok where
  toktype : String
  text : String
  follow : Option Char := some ' '

/-- State of the `*scanner.Scanner` (library `text/scanner`): the tokens still to be
scanned and the character at the scanner's position. -/
structure Scanner where
  toks : List Tok
  ch : Option Char := some ' '

/-- Library call `S.Scan()`, with the token read.  At the end of the source it keeps
returning the token `EOF`, whose text is empty. -/
def Scanner.Scan (S : Scanner) : Tok × Scanner :=
  match S.toks with
  | [] => ({ toktype := "EOF", text := "", follow := none }, { toks := [], ch := none })
  | t :: rest => (t, { toks := rest, ch := t.follow })

/-- Library call `S.Peek()`: the next source character, without advancing. -/
def Scanner.Peek (S : Scanner) : Option Char := S.ch

/-- The function `Token` (lines 39-42): scan a token, return its text. -/
def Token (S : Scanner) : String × Scanner :=
  let (t, S1) := S.Scan
  (t.text, S1)

/-- The function `Tokent` (lines 44-46): scan a token, return its category and text. -/
def Tokent (S : Scanner) : (String × String) × Scanner :=
  let (t, S1) := S.Scan
  ((t.toktype, t.text), S1)

/-- The scanner after `n` more tokens have been scanned. -/
def Scanner.skip (S : Scanner) : Nat → Scanner
  | 0 => S
  | n + 1 => (S.Scan.2).skip n

/-! ## Registries and library functions -/

/-- The three global registries (lines 35-37).  They are filled by code outside
`parse.go`, so they are a parameter.  A lookup yields `none` where Go yields a nil
function.  A `Bnfs` constructor receives the parser state and may scan further tokens:
it returns the leaf and the number of tokens it scanned. -/
structure Registries where
  Literals : String → Option (String → Terminal)
  Terminals : String → Option (Unit → Terminal)
  Bnfs : String → Option (Scanner → Terminal × Nat)

/-- Library call `strconv.ParseInt(s, 10, bitSize)` with the error dropped: an optional
sign followed by decimal digits gives the number, clamped to the range of `bitSize` bits;
anything else gives 0. -/
def ParseInt (s : String) (bitSize : Nat) : Int :=
  let body := match s.data with
    | '+' :: r => r
    | '-' :: r => r
    | r => r
  if body = [] ∨ ¬ body.all Char.isDigit then 0
  else
    let n : Int := (body.foldl (fun a d => 10 * a + (d.toNat - 48)) 0 : Nat)
    match s.data with
    | '-' :: _ => max (-n) (-(2 : Int) ^ (bitSize - 1))
    | _ => min n ((2 : Int) ^ (bitSize - 1) - 1)

/-- Library call `strconv.Atoi(s)` with the error dropped (`int` has 64 bits). -/
def Atoi (s : String) : Int := ParseInt s 64

/-! ## Parser -/

/-- The function `parseNT` (lines 79-89): read the name of a nonterminal and, when the
next source character is `!` or `#`, the marker and the recursion-depth hint. -/
def parseNT (S : Scanner) : (String × Int) × Scanner :=
  let ((_, ntname), S1) := Tokent S
  let ch := S1.Peek
  if ch = some '!' ∨ ch = some '#' then
    let (_, S2) := Token S1
    let (tok3, S3) := Token S2
    ((ntname, Atoi tok3), S3)
  else ((ntname, -1), S1)

/-- The body of the loop of `parseNodes` without the store (lines 113-127): the node a
token stands for. -/
def makeNode (reg : Registries) (toktype tok : String) (S : Scanner) :
    Except Failure (Node × Scanner) :=
  match reg.Literals toktype with
  | some litfn => .ok (.terminal (litfn tok), S)
  | none =>
    match reg.Terminals tok with
    | some termfn => .ok (.terminal (termfn ()), S)
    | none =>
      match reg.Bnfs tok with
      | some bnffn => .ok (.terminal (bnffn S).1, S.skip (bnffn S).2)
      | none =>
        if tok = "$" then
          match reg.Literals "Reference" with
          | none => .error .nilCall
          | some reffn => .ok (.terminal (reffn (Token S).1), (Token S).2)
        else .ok (.ref tok, S)

/-- The loop of `parseNodes` (lines 112-129).  `cap` is the number of free slots of
`all [100]Node`, `all` the nodes stored so far, `toktype` and `tok` the current token.
Storing into a full array is an index-out-of-range panic. -/
def parseNodesLoop (reg : Registries) :
    Nat → List Node → String → String → Scanner → Except Failure (List Node × Bool × Scanner)
  | cap, all, toktype, tok, S =>
    if tok ≠ "." ∧ tok ≠ ";" ∧ toktype ≠ "EOF" then
      match makeNode reg toktype tok S with
      | .error e => .error e
      | .ok (node, S1) =>
        match cap with
        | 0 => .error .indexOutOfRange
        | cap1 + 1 =>
          parseNodesLoop reg cap1 (all ++ [node]) (Tokent S1).1.1 (Tokent S1).1.2 (Tokent S1).2
    else .ok (all, tok == ";", S)

/-- The function `parseNodes` (lines 108-131): the nodes of one rule, and whether the
rule ended with `;`. -/
def parseNodes (reg : Registries) (S : Scanner) : Except Failure (List Node × Bool × Scanner) :=
  parseNodesLoop reg 100 [] (Tokent S).1.1 (Tokent S).1.2 (Tokent S).2

/-- The loop of `parseRules` (lines 95-102).  `cap` is the number of free slots of
`any [100][]Node`, `any` the rules stored so far.  The loop runs while `next` is true;
it is entered with `next` true. -/
def parseRulesLoop (reg : Registries) :
    Nat → List (List Node) → Scanner → Except Failure (List (List Node) × Scanner)
  | cap, any, S =>
    if (Token S).1 ≠ ":" ∧ (Token S).1 ≠ "|" then
      .error (.exit "A rule should begin with : or |\n")
    else
      match parseNodes reg (Token S).2 with
      | .error e => .error e
      | .ok (nodes, next, S1) =>
        match cap with
        | 0 => .error .indexOutOfRange
        | cap1 + 1 =>
          if next then parseRulesLoop reg cap1 (any ++ [nodes]) S1
          else .ok (any ++ [nodes], S1)

/-- The function `parseRules` (lines 92-105): the alternatives of the nonterminal
`ntname`.  The rule list is a fresh cell of the heap. -/
def parseRules (reg : Registries) (S : Scanner) (heap : Heap) (ntname : String) :
    Except Failure (NonTerminal × Scanner × Heap) :=
  match parseRulesLoop reg 100 [] S with
  | .error e => .error e
  | .ok (any, S1) =>
    .ok ({ name := ntname, any := some heap.length, context := ∅, lrmax := 0 },
         S1, heap ++ [any])

/-- Line 62, the tuple assignment `nt.lrmax, popts.Nonterminals[ntname] = lrmax, nt`.
Go evaluates the operands on the right first and assigns afterwards, left to right
(language specification, "Assignment statements"): the struct stored in the map is the
value `nt` had before `nt.lrmax` was assigned.  Returns the local `nt` and the table
after the statement. -/
def storeNT (Nonterminals : Table) (ntname : String) (lrmax : Int) (nt : NonTerminal) :
    NonTerminal × Table :=
  let right1 := lrmax
  let right2 := nt
  ({ nt with lrmax := right1 }, Nonterminals.insert ntname right2)

/-- The loop of `Parse` (lines 59-64): one nonterminal per round, until the name read is
empty (end of input) or `Context`.  The first argument bounds the number of rounds. -/
def parseLoop (reg : Registries) :
    Nat → String → Int → Table → Heap → Scanner →
      Except Failure (String × Table × Heap × Scanner)
  | 0, _, _, _, _, _ => .error .outOfFuel
  | fuel + 1, ntname, lrmax, Nonterminals, heap, S =>
    if ntname = "" then .ok (ntname, Nonterminals, heap, S)
    else if ntname = "Context" then .ok (ntname, Nonterminals, heap, S)
    else
      match parseRules reg S heap ntname with
      | .error e => .error e
      | .ok (nt, S1, heap1) =>
        parseLoop reg fuel (parseNT S1).1.1 (parseNT S1).1.2
          (storeNT Nonterminals ntname lrmax nt).2 heap1 (parseNT S1).2

/-- The `switch` of `parseContext` (lines 149-157): the value of a literal.
`ParseFloat` stands for the library call `strconv.ParseFloat(s, 64)`. -/
def contextValue (ParseFloat : String → Nat) (toktype3 tok3 : String) : Except Failure Value :=
  if toktype3 = "String" then .ok (.str tok3)
  else if toktype3 = "Char" then .ok (.int (ParseInt tok3 8))
  else if toktype3 = "Int" then .ok (.int (ParseInt tok3 64))
  else if toktype3 = "Float" then .ok (.float (ParseFloat tok3))
  else .error (.exit "Invalid context\n")

/-- The inner loop of `parseContext` (lines 140-160): the assignments of the nonterminal
`nonterm`.  The map written to is the `context` of the table entry; the entry of an
undeclared name is the zero value, whose map is nil, and writing to it panics. -/
def parseAssignments (ParseFloat : String → Nat) :
    Nat → String → Table → Scanner → Except Failure (Table × Scanner)
  | 0, _, _, _ => .error .outOfFuel
  | fuel + 1, nonterm, Nonterminals, S =>
    let ((toktype1, tok1), S1) := Tokent S
    let ((_, tok2), S2) := Tokent S1
    let ((toktype3, tok3), S3) := Tokent S2
    let ((_, tok4), S4) := Tokent S3
    if toktype1 ≠ "Ident" ∧ tok2 ≠ "=" then
      .error (.exit ("Invalid context for non-terminal " ++ nonterm ++ "\n"))
    else
      match contextValue ParseFloat toktype3 tok3 with
      | .error e => .error e
      | .ok value =>
        match Nonterminals.lookup nonterm with
        | none => .error .nilMap
        | some nt =>
          let Nonterminals1 :=
            Nonterminals.replace nonterm { nt with context := nt.context.insert tok1 value }
          if tok4 = "." then .ok (Nonterminals1, S4)
          else parseAssignments ParseFloat fuel nonterm Nonterminals1 S4

/-- The outer loop of `parseContext` (lines 136-161). -/
def parseContextLoop (ParseFloat : String → Nat) :
    Nat → Table → Scanner → Except Failure (Table × Scanner)
  | 0, _, _ => .error .outOfFuel
  | fuel + 1, Nonterminals, S =>
    let ((toktype1, nonterm), S1) := Tokent S
    let ((_, tok2), S2) := Tokent S1
    if toktype1 ≠ "Ident" ∧ tok2 ≠ ":" then .ok (Nonterminals, S2)
    else
      match parseAssignments ParseFloat (S2.toks.length + 1) nonterm Nonterminals S2 with
      | .error e => .error e
      | .ok (Nonterminals1, S3) => parseContextLoop ParseFloat fuel Nonterminals1 S3

/-- The function `parseContext` (lines 134-162). -/
def parseContext (ParseFloat : String → Nat) (Nonterminals : Table) (S : Scanner) :
    Except Failure (Table × Scanner) :=
  parseContextLoop ParseFloat (S.toks.length + 1) Nonterminals S

/-! ## AST builder -/

/-- The body of the innermost loop of `buildAst` (lines 229-236): a reference is looked
up in the symbol table and replaced by the entry found; an entry without a name is the
zero value of a missing key, and stops the program. -/
def resolveNode (Nonterminals : Table) : Node → Except Failure Node
  | .ref ref =>
    if (Nonterminals.get ref).name = "" then
      .error (.exit ("Unknown reference " ++ ref ++ " \n"))
    else .ok (.nonterminal (Nonterminals.get ref))
  | node => .ok node

/-- The loop over the nodes of a rule (lines 228-237). -/
def resolveRule (Nonterminals : Table) : List Node → Except Failure (List Node)
  | [] => .ok []
  | node :: rest =>
    match resolveNode Nonterminals node with
    | .error e => .error e
    | .ok node1 =>
      match resolveRule Nonterminals rest with
      | .error e => .error e
      | .ok rest1 => .ok (node1 :: rest1)

/-- The loop over the rules of a nonterminal (lines 227-238). -/
def resolveRules (Nonterminals : Table) : List (List Node) → Except Failure (List (List Node))
  | [] => .ok []
  | rule :: rest =>
    match resolveRule Nonterminals rule with
    | .error e => .error e
    | .ok rule1 =>
      match resolveRules Nonterminals rest with
      | .error e => .error e
      | .ok rest1 => .ok (rule1 :: rest1)

/-- One round of the outer loop of `buildAst`: the rules of `nt` are rewritten in place,
in the cell that `nt.any` points to. -/
def resolveNT (Nonterminals : Table) (heap : Heap) (nt : NonTerminal) : Except Failure Heap :=
  match nt.any with
  | none => .ok heap
  | some a =>
    match resolveRules Nonterminals (heap.getD a []) with
    | .error e => .error e
    | .ok rules => .ok (heap.set a rules)

/-- The outer loop of `buildAst` over the entries of the symbol table. -/
def buildAstLoop (Nonterminals : Table) :
    List (Sigma fun _ : String => NonTerminal) → Heap → Except Failure Heap
  | [], heap => .ok heap
  | e :: rest, heap =>
    match resolveNT Nonterminals heap e.2 with
    | .error x => .error x
    | .ok heap1 => buildAstLoop Nonterminals rest heap1

/-- The function `buildAst` (lines 225-240). -/
def buildAst (Nonterminals : Table) (heap : Heap) : Except Failure Heap :=
  buildAstLoop Nonterminals Nonterminals.entries heap

/-- The first part of `Parse` (lines 57-73): the rules of all nonterminals and the
context block, before the references are resolved. -/
def parseGrammar (reg : Registries) (ParseFloat : String → Nat) (S : Scanner) :
    Except Failure (String × Table × Heap × Scanner) :=
  let start := (parseNT S).1.1
  match parseLoop reg ((parseNT S).2.toks.length + 1) (parseNT S).1.1 (parseNT S).1.2
      ∅ [] (parseNT S).2 with
  | .error e => .error e
  | .ok (ntname, Nonterminals, heap, S1) =>
    if ntname = "Context" then
      if (Token S1).1 ≠ "." then .error (.exit "Context statement must end with a Dot(.)\n")
      else
        match parseContext ParseFloat Nonterminals (Token S1).2 with
        | .error e => .error e
        | .ok (Nonterminals1, S2) => .ok (start, Nonterminals1, heap, S2)
    else .ok (start, Nonterminals, heap, S1)

/-- The function `Parse` (lines 48-76), from the opened token source on: parse the
grammar, resolve the references, return the start symbol together with the symbol table
and the heap the parse leaves behind. -/
def Parse (reg : Registries) (ParseFloat : String → Nat) (S : Scanner) :
    Except Failure (String × Table × Heap × Scanner) :=
  match parseGrammar reg ParseFloat S with
  | .error e => .error e
  | .ok (start, Nonterminals, heap, S1) =>
    match buildAst Nonterminals heap with
    | .error e => .error e
    | .ok heap1 => .ok (start, Nonterminals, heap1, S1)

/-! ## The generation algorithm as the specification words it -/

/-- Text of one node as section 4.4, step 3 words it: a leaf yields what its generator
returns for the current context; a nonterminal yields the text of its recursive
`generate`, which is then bound under the nonterminal's name.  The specification knows
no other node: an unresolved reference yields no text. -/
def nodeText (gen : Context → Rand → NonTerminal → GenResult)
    (context : Context) (Rnd : Rand) : Node → Except Failure (String × Context × Rand)
  | .terminal t =>
    match t.generator context with
    | none => .error .leafPanic
    | some (text, context1) => .ok (text, context1, Rnd)
  | .nonterminal nd =>
    match gen context Rnd nd with
    | .error e => .error e
    | .ok (text, context1, Rnd1) => .ok (text, context1.insert nd.name (Value.str text), Rnd1)
  | .ref _ => .error .intnEmpty

/-- Texts of the nodes of a rule, one per node and in rule order, each node working in
the context and with the random source its left neighbour leaves behind. -/
def ruleTexts (gen : Context → Rand → NonTerminal → GenResult) :
    List Node → Context → Rand → Except Failure (List String × Context × Rand)
  | [], context, Rnd => .ok ([], context, Rnd)
  | node :: rest, context, Rnd =>
    match nodeText gen context Rnd node with
    | .error e => .error e
    | .ok (text, context1, Rnd1) =>
      match ruleTexts gen rest context1 Rnd1 with
      | .error e => .error e
      | .ok (texts, context2, Rnd2) => .ok (text :: texts, context2, Rnd2)

/-! ## Example grammars -/

/-- Leaf that always produces `s` and leaves the context alone (a string literal). -/
def lit (s : String) : Terminal :=
  { name := "String", value := s, generator := fun context => some (s, context) }

/-- Leaf that reports how it finds the key `k` bound: the bound string, `<int>` or
`<float>` for a number, `<none>` when `k` is unbound.  It leaves the context alone. -/
def probe (k : String) : Terminal :=
  { name := "Probe", value := k
    generator := fun context =>
      match context.lookup k with
      | some (Value.str s) => some (s, context)
      | some (Value.int _) => some ("<int>", context)
      | some (Value.float _) => some ("<float>", context)
      | none => some ("<none>", context) }

/-- Nonterminal `name` with rule list at address `a` and default context `context`. -/
def mkNT (name : String) (a : Nat) (context : Context := ∅) : NonTerminal :=
  { name := name, context := context, lrmax := 0, any := some a }

/-- Context with the single binding `k = s`. -/
def bind1 (k s : String) : Context := (∅ : Context).insert k (Value.str s)

/-- Random source whose every raw draw is `n`. -/
def constRand (n : Nat) : Rand := fun _ => n

/-- Resolved grammar `A : B "-" "x" | "z" .`, `B : "y" .`: cell 0 holds the rules of `A`,
cell 1 those of `B`. -/
def heapAB : Heap :=
  [ [ [Node.nonterminal (mkNT "B" 1), Node.terminal (lit "-"), Node.terminal (lit "x")],
      [Node.terminal (lit "z")] ],
    [ [Node.terminal (lit "y")] ] ]

/-- Symbol table of `heapAB`. -/
def tableAB : Table :=
  ((∅ : Table).insert "A" (mkNT "A" 0)).insert "B" (mkNT "B" 1)

/-! ## Conditions the claims are stated under -/

/-- The generator does not modify the context: whenever it returns, every key is bound
as it was when the generator was called. -/
def Generator.Pure (g : Generator) : Prop :=
  ∀ c s c1, g c = some (s, c1) → ∀ k, c1.lookup k = c.lookup k

/-- No leaf generator of the grammar modifies the context. -/
def LeavesPure (heap : Heap) : Prop :=
  ∀ cell ∈ heap, ∀ rule ∈ cell, ∀ t, Node.terminal t ∈ rule → Generator.Pure t.generator

/-- The key `k` is one that no expansion of the grammar writes or deletes: it is not the
empty string, not a key of the default context of any nonterminal of the symbol table,
and not the name of any nonterminal node of any rule. -/
def Untouched (heap : Heap) (Nonterminals : Table) (k : String) : Prop :=
  k ≠ ""
  ∧ (∀ e ∈ Nonterminals.entries, k ∉ e.2.context.keys)
  ∧ (∀ cell ∈ heap, ∀ rule ∈ cell, ∀ nd, Node.nonterminal nd ∈ rule → nd.name ≠ k)

/-- Expanding `node` from the loop state `st` (with `gen` for the recursive calls) leaves
the binding of `k` as it finds it: a leaf whose generator, called on the context of `st`,
returns with `k` bound as before, or a nonterminal of another name whose expansion from
`st` returns with `k` bound as before (an unresolved reference counts as the zero
nonterminal the loop expands in its place).  Only the expansion at hand counts: what the
node would do in another context or with another state of the random source does not. -/
def Node.KeepsAt (gen : Context → Rand → NonTerminal → GenResult) (k : String)
    (st : LoopState) : Node → Prop
  | .terminal t =>
    ∀ s c1, t.generator st.context = some (s, c1) → c1.lookup k = st.context.lookup k
  | .nonterminal nd =>
    nd.name ≠ k
      ∧ ∀ s c1 r1, gen st.context st.Rnd nd = .ok (s, c1, r1) →
          c1.lookup k = st.context.lookup k
  | .ref _ =>
    NonTerminal.zero.name ≠ k
      ∧ ∀ s c1 r1, gen st.context st.Rnd NonTerminal.zero = .ok (s, c1, r1) →
          c1.lookup k = st.context.lookup k

/-- No node of `nodes` removes or changes the binding of `k` when the loop expands them
one after the other from the state `st`: the first node keeps `k` when expanded from
`st`, the second when expanded from the state the first leaves behind, and so on. -/
def KeepsAlong (gen : Context → Rand → NonTerminal → GenResult) (k : String) :
    List Node → LoopState → Prop
  | [], _ => True
  | node :: rest, st =>
    Node.KeepsAt gen k st node
      ∧ ∀ st1, expandNode gen st node = .ok st1 → KeepsAlong gen k rest st1

/-- Resolved grammar `A : B .`, `B : "y" .` of the context-isolation property. -/
def heapIso : Heap :=
  [ [ [Node.nonterminal (mkNT "B" 1)] ], [ [Node.terminal (lit "y")] ] ]

/-- Symbol table of `heapIso`. -/
def tableIso : Table :=
  ((∅ : Table).insert "A" (mkNT "A" 0)).insert "B" (mkNT "B" 1)

/-- Context with the two bindings `q = "0"` and `B = "old"`. -/
def ctxQB : Context := (bind1 "q" "0").insert "B" (Value.str "old")

/-- Resolved grammar `A : N M L .`, `M : N .`, `N : "n" .`, where the leaf `L` reports
the binding of `N`: cells 0, 1, 2 hold the rules of `A`, `M`, `N`. -/
def heapNML : Heap :=
  [ [ [Node.nonterminal (mkNT "N" 2), Node.nonterminal (mkNT "M" 1),
       Node.terminal (probe "N")] ],
    [ [Node.nonterminal (mkNT "N" 2)] ],
    [ [Node.terminal (lit "n")] ] ]

/-- Symbol table of `heapNML`. -/
def tableNML : Table :=
  (((∅ : Table).insert "A" (mkNT "A" 0)).insert "M" (mkNT "M" 1)).insert "N" (mkNT "N" 2)

/-- State in which the node loop of `A` in `heapNML` reaches the leaf `L`: the binding
of `N` is gone, only that of `M` is there. -/
def stateNML : LoopState :=
  { context := bind1 "M" "n", Rnd := constRand 0
    terms := ["", "", "", "n", "n"], names := ["", "", "", "N", "M"] }

/-- Resolved grammar `A : "x" L .` with the context block `A : v = "1" .`, where the
leaf `L` reports the binding of `v`. -/
def heapV : Heap :=
  [ [ [Node.terminal (lit "x"), Node.terminal (probe "v")] ] ]

/-- Symbol table of `heapV`. -/
def tableV : Table :=
  (∅ : Table).insert "A" (mkNT "A" 0 (bind1 "v" "1"))

/-- Resolved grammar `A : B L .`, `B : "y" .` with the context block
`A : v = "1" . B : v = "2" .`, where the leaf `L` reports the binding of `v`. -/
def heapVB : Heap :=
  [ [ [Node.nonterminal (mkNT "B" 1 (bind1 "v" "2")), Node.terminal (probe "v")] ],
    [ [Node.terminal (lit "y")] ] ]

/-- Symbol table of `heapVB`. -/
def tableVB : Table :=
  ((∅ : Table).insert "A" (mkNT "A" 0 (bind1 "v" "1"))).insert "B"
    (mkNT "B" 1 (bind1 "v" "2"))

/-- State in which the node loop of `A` in `heapVB` reaches the leaf `L`: the binding of
`v` is gone. -/
def stateVB : LoopState :=
  { context := bind1 "B" "y", Rnd := constRand 0, terms := ["", "", "y"], names := ["", "", "B"] }

/-- Resolved grammar `A : N M L .`, `M : N | "m" .`, `N : "n" .`, where the leaf `L`
reports the binding of `N`: cells 0, 1, 2 hold the rules of `A`, `M`, `N`.  The first
alternative of `M` expands `N`, the second does not. -/
def heapNMm : Heap :=
  [ [ [Node.nonterminal (mkNT "N" 2), Node.nonterminal (mkNT "M" 1),
       Node.terminal (probe "N")] ],
    [ [Node.nonterminal (mkNT "N" 2)], [Node.terminal (lit "m")] ],
    [ [Node.terminal (lit "n")] ] ]

/-- Symbol table of `heapNMm`. -/
def tableNMm : Table :=
  (((∅ : Table).insert "A" (mkNT "A" 0)).insert "M" (mkNT "M" 1)).insert "N" (mkNT "N" 2)

/-- State in which the node loop of `A` in `heapNMm` stands after it has expanded `N`. -/
def stateNMmN : LoopState :=
  { context := bind1 "N" "n", Rnd := constRand 1
    terms := ["", "", "", "n"], names := ["", "", "", "N"] }

/-- State in which the node loop of `A` in `heapNMm` reaches the leaf `L` when `M` draws
its second alternative: `N` is still bound to `"n"`. -/
def stateNMmL : LoopState :=
  { context := (bind1 "N" "n").insert "M" (Value.str "m"), Rnd := constRand 1
    terms := ["", "", "", "n", "m"], names := ["", "", "", "N", "M"] }

/-- Resolved grammar `A : M L .`, `M : B | "m" .`, `B : "y" .` with the context block
`A : v = "1" . B : v = "2" .`, where the leaf `L` reports the binding of `v`.  The first
alternative of `M` expands `B`, the second does not. -/
def heapVMm : Heap :=
  [ [ [Node.nonterminal (mkNT "M" 1), Node.terminal (probe "v")] ],
    [ [Node.nonterminal (mkNT "B" 2 (bind1 "v" "2"))], [Node.terminal (lit "m")] ],
    [ [Node.terminal (lit "y")] ] ]

/-- Symbol table of `heapVMm`. -/
def tableVMm : Table :=
  (((∅ : Table).insert "A" (mkNT "A" 0 (bind1 "v" "1"))).insert "M" (mkNT "M" 1)).insert "B"
    (mkNT "B" 2 (bind1 "v" "2"))

/-- State in which the node loop of `A` in `heapVMm`, started from the context
`v = "0"`, reaches the leaf `L` when `M` draws its second alternative: `v` is bound to
`"1"`. -/
def stateVMm : LoopState :=
  { context := (bind1 "v" "1").insert "M" (Value.str "m"), Rnd := constRand 1
    terms := ["", "", "m"], names := ["", "", "M"] }

/-! ## Example token streams -/

/-- Registries with a single entry: a string literal becomes a leaf that produces the
token text. -/
def regStd : Registries :=
  { Literals := fun toktype => if toktype = "String" then some (fun tok => lit tok) else none
    Terminals := fun _ => none
    Bnfs := fun _ => none }

/-- Stand-in for `strconv.ParseFloat` in the examples. -/
def noFloat : String → Nat := fun _ => 0

/-- Punctuation token. -/
def punct (s : String) : Tok := { toktype := "\"" ++ s ++ "\"", text := s }

/-- String literal token with content `s`; the token text keeps the quotes. -/
def strTok (s : String) : Tok := { toktype := "String", text := "\"" ++ s ++ "\"" }

/-- Identifier token. -/
def ident (s : String) : Tok := { toktype := "Ident", text := s }

/-- Token stream of the rule list `| "x" .`: the first rule starts with `|`. -/
def streamBar : Scanner := { toks := [punct "|", strTok "x", punct "."] }

/-- Token stream of the rule list `: "x" ; : "y" .`: the second rule starts with `:`. -/
def streamColons : Scanner :=
  { toks := [punct ":", strTok "x", punct ";", punct ":", strTok "y", punct "."] }

/-- Token stream of the rule list `"x" .`: the first rule starts with a string. -/
def streamNoColon : Scanner := { toks := [strTok "x", punct "."] }

/-- Token stream of the grammar `A!3 : "x" .`: the name `A` is immediately followed by
the marker `!` and the integer literal 3. -/
def streamHint : Scanner :=
  { toks := [{ toktype := "Ident", text := "A", follow := some '!' }, punct "!",
             { toktype := "Int", text := "3" }, punct ":", strTok "x", punct "."] }

/-- Token stream of the grammar `A : "x" .`: a header without marker. -/
def streamNoHint : Scanner :=
  { toks := [ident "A", punct ":", strTok "x", punct "."] }

/-! ## What the parser hands to `buildAst` -/

/-- Every entry of the symbol table is stored under its own name, which is not empty,
and has `lrmax = 0`. -/
def ParsedEntries (Nonterminals : Table) : Prop :=
  ∀ e ∈ Nonterminals.entries, e.2.name = e.1 ∧ e.1 ≠ "" ∧ e.2.lrmax = 0

/-- No rule of the heap holds a `NonTerminal` node: every node is a leaf or a reference
still to be resolved. -/
def Unresolved (heap : Heap) : Prop :=
  ∀ cell ∈ heap, ∀ rule ∈ cell, ∀ nd, Node.nonterminal nd ∉ rule

/-! ## What `buildAst` is claimed to do -/

/-- The node that `buildAst` leaves at the place of `node` when it succeeds. -/
def resolved (Nonterminals : Table) : Node → Node
  | .ref ref => .nonterminal (Nonterminals.get ref)
  | node => node

/-- The node `new` stands where `old` stood and is what the AST builder is to make of
it: a leaf and an already resolved nonterminal stay as they are, a reference `s` is
replaced by the symbol table entry of `s`, a nonterminal whose name is `s`. -/
def Node.ResolvesTo (Nonterminals : Table) (old new : Node) : Prop :=
  match old with
  | .terminal t => new = .terminal t
  | .nonterminal nd => new = .nonterminal nd
  | .ref s => ∃ nd, Nonterminals.lookup s = some nd ∧ nd.name = s ∧ new = .nonterminal nd

/-- The nodes reachable from the rules of the nonterminals of the symbol table: the nodes
of those rules, and the nodes of the rules of every reachable nonterminal node. -/
inductive Reachable (Nonterminals : Table) (heap : Heap) : Node → Prop
  | root (e : Sigma fun _ : String => NonTerminal) (rule : List Node) (node : Node) :
      e ∈ Nonterminals.entries → rule ∈ heap.rules e.2.any → node ∈ rule →
      Reachable Nonterminals heap node
  | step (nd : NonTerminal) (rule : List Node) (node : Node) :
      Reachable Nonterminals heap (.nonterminal nd) → rule ∈ heap.rules nd.any →
      node ∈ rule → Reachable Nonterminals heap node

/-- Token stream of the grammar `A : B "x" . B : A ; | "y" .`, in which `A` refers
forward to `B` and `B` back to `A`. -/
def streamMutual : Scanner :=
  { toks := [ident "A", punct ":", ident "B", strTok "x", punct ".",
             ident "B", punct ":", ident "A", punct ";", punct "|", strTok "y", punct "."] }

/-- Symbol table the parser builds from `streamMutual`. -/
def tableMutual : Table :=
  ((∅ : Table).insert "A" (mkNT "A" 0)).insert "B" (mkNT "B" 1)

/-- Heap the parser builds from `streamMutual`, before the references are resolved. -/
def heapMutual : Heap :=
  [ [ [Node.ref "B", Node.terminal (lit "\"x\"")] ],
    [ [Node.ref "A"], [Node.terminal (lit "\"y\"")] ] ]

/-- Heap of `streamMutual` after `buildAst`. -/
def heapMutualResolved : Heap :=
  [ [ [Node.nonterminal (mkNT "B" 1), Node.terminal (lit "\"x\"")] ],
    [ [Node.nonterminal (mkNT "A" 0)], [Node.terminal (lit "\"y\"")] ] ]

/-- Token stream of the grammar `A : "x" B .`, in which `B` is never declared. -/
def streamDangling : Scanner :=
  { toks := [ident "A", punct ":", strTok "x", ident "B", punct "."] }

/-- Symbol table the parser builds from `streamDangling`. -/
def tableDangling : Table := (∅ : Table).insert "A" (mkNT "A" 0)

/-- Heap the parser builds from `streamDangling`. -/
def heapDangling : Heap := [ [ [Node.terminal (lit "\"x\""), Node.ref "B"] ] ]

/-- The scanner after `k` rules of a rule list have been read, each introduced by `:` or
`|` and ended by `;`; `none` when the stream does not start with `k` such rules. -/
def afterRules (reg : Registries) : Nat → Scanner → Option Scanner
  | 0, S => some S
  | k + 1, S =>
    if (Token S).1 = ":" ∨ (Token S).1 = "|" then
      match parseNodes reg (Token S).2 with
      | .ok (_, true, S1) => afterRules reg k S1
      | _ => none
    else none

/-- Token stream of the rule list `: "x" ; "y" .`: the second rule starts with a
string. -/
def streamSecondBad : Scanner :=
  { toks := [punct ":", strTok "x", punct ";", strTok "y", punct "."] }

/-! ## Example registries -/

/-- Leaf of the built-in `bag`, which reads two further tokens as its arguments. -/
def bagLeaf : Terminal :=
  { name := "BnfBag", value := "", generator := fun context => some ("bag", context) }

/-- Registries in which names overlap: the category `String` has a literal constructor,
the text `DQ` is registered both as a terminal and as a built-in, the text `bag` is a
built-in that scans two further tokens, and the `Reference` constructor builds the leaf
that reports the binding of the name it is given. -/
def regPri : Registries :=
  { Literals := fun toktype =>
      if toktype = "String" then some (fun tok => lit tok)
      else if toktype = "Reference" then some (fun tok => probe tok)
      else none
    Terminals := fun tok => if tok = "DQ" then some (fun _ => lit "\"") else none
    Bnfs := fun tok =>
      if tok = "DQ" then some (fun _ => (bagLeaf, 0))
      else if tok = "bag" then some (fun _ => (bagLeaf, 2))
      else none }

/-- Token stream of the rule `"DQ" DQ bag a b $ v B .`, after its `:`. -/
def streamPri : Scanner :=
  { toks := [{ toktype := "String", text := "DQ" }, ident "DQ", ident "bag", ident "a",
             ident "b", punct "$", ident "v", ident "B", punct "."] }

/-! ## Rules and nodes as the parser reads them from the stream -/

/-- The first `n` nodes of a rule: starting with the current token `(toktype, tok)`,
`n` tokens in a row are inside the rule (none is `.`, `;` or the end of the stream) and
stand for a node each.  Yields the nodes in the order read, the token that follows them
and the scanner after that token; `none` when the rule has fewer than `n` nodes or the
constructor of one of them fails. -/
def readNodes (reg : Registries) :
    Nat → String → String → Scanner → Option (List Node × String × String × Scanner)
  | 0, toktype, tok, S => some ([], toktype, tok, S)
  | n + 1, toktype, tok, S =>
    if tok ≠ "." ∧ tok ≠ ";" ∧ toktype ≠ "EOF" then
      match makeNode reg toktype tok S with
      | .error _ => none
      | .ok (node, S1) =>
        match readNodes reg n (Tokent S1).1.1 (Tokent S1).1.2 (Tokent S1).2 with
        | none => none
        | some (nodes, toktype1, tok1, S2) => some (node :: nodes, toktype1, tok1, S2)
    else none

/-- The first `k` rules of a rule list, each introduced by `:` or `|` and ended by `;`:
their node sequences in the order read, and the scanner after the last `;`.  `none` when
the stream does not start with `k` such rules. -/
def readRules (reg : Registries) : Nat → Scanner → Option (List (List Node) × Scanner)
  | 0, S => some ([], S)
  | k + 1, S =>
    if (Token S).1 = ":" ∨ (Token S).1 = "|" then
      match parseNodes reg (Token S).2 with
      | .ok (nodes, true, S1) =>
        match readRules reg k S1 with
        | none => none
        | some (rules, S2) => some (nodes :: rules, S2)
      | _ => none
    else none

/-- Token stream of the rule list `: "x" ; | B "y" ; | "z" .` -/
def streamThree : Scanner :=
  { toks := [punct ":", strTok "x", punct ";", punct "|", ident "B", strTok "y", punct ";",
             punct "|", strTok "z", punct "."] }

/-- Token stream of a rule of `n` string literals followed by `.`, after its `:`. -/
def streamNodes (n : Nat) : Scanner :=
  { toks := List.replicate n (strTok "x") ++ [punct "."] }

/-- Token stream of a rule list of `k` rules `: "x" ;` followed by the rule `: "x" .` -/
def streamRules (k : Nat) : Scanner :=
  { toks := (List.replicate k [punct ":", strTok "x", punct ";"]).flatten
      ++ [punct ":", strTok "x", punct "."] }

/-! ## The context block as the parser reads it from the stream -/

/-- The assignment that starts at the scanner `S` is one the parser refuses: its first
token is not an identifier and its second token is not `=`, or the category of its third
token, the literal, is none of `String`, `Char`, `Int`, `Float`. -/
def Refused (S : Scanner) : Prop :=
  ((Tokent S).1.1 ≠ "Ident" ∧ (Tokent (Tokent S).2).1.2 ≠ "=")
    ∨ ((Tokent (Tokent (Tokent S).2).2).1.1 ≠ "String"
      ∧ (Tokent (Tokent (Tokent S).2).2).1.1 ≠ "Char"
      ∧ (Tokent (Tokent (Tokent S).2).2).1.1 ≠ "Int"
      ∧ (Tokent (Tokent (Tokent S).2).2).1.1 ≠ "Float")

/-- The symbol table and the scanner after `k` assignments of the block of `nonterm` have
been read and stored, each followed by a token other than `.`; `none` when the stream
does not go on with `k` such assignments. -/
def afterAssignments (ParseFloat : String → Nat) :
    Nat → String → Table → Scanner → Option (Table × Scanner)
  | 0, _, Nonterminals, S => some (Nonterminals, S)
  | k + 1, nonterm, Nonterminals, S =>
    if (Tokent S).1.1 ≠ "Ident" ∧ (Tokent (Tokent S).2).1.2 ≠ "=" then none
    else
      match contextValue ParseFloat (Tokent (Tokent (Tokent S).2).2).1.1
          (Tokent (Tokent (Tokent S).2).2).1.2 with
      | .error _ => none
      | .ok value =>
        match Nonterminals.lookup nonterm with
        | none => none
        | some nt =>
          if (Tokent (Tokent (Tokent (Tokent S).2).2).2).1.2 = "." then none
          else
            afterAssignments ParseFloat k nonterm
              (Nonterminals.replace nonterm
                { nt with context := nt.context.insert (Tokent S).1.2 value })
              (Tokent (Tokent (Tokent (Tokent S).2).2).2).2

/-- The symbol table and the scanner after `j` blocks of the context section have been
read, each with a header that lets the parser enter the block and with assignments that
are all stored; `none` when the stream does not start with `j` such blocks. -/
def afterBlocks (ParseFloat : String → Nat) : Nat → Table → Scanner → Option (Table × Scanner)
  | 0, Nonterminals, S => some (Nonterminals, S)
  | j + 1, Nonterminals, S =>
    if (Tokent S).1.1 ≠ "Ident" ∧ (Tokent (Tokent S).2).1.2 ≠ ":" then none
    else
      match parseAssignments ParseFloat ((Tokent (Tokent S).2).2.toks.length + 1)
          (Tokent S).1.2 Nonterminals (Tokent (Tokent S).2).2 with
      | .error _ => none
      | .ok (Nonterminals1, S1) => afterBlocks ParseFloat j Nonterminals1 S1

/-- Token stream of the context section `A : v = "1" . B : w = 2 , u = x .`, in which the
literal of the last assignment is an identifier. -/
def streamCtxBad : Scanner :=
  { toks := [ident "A", punct ":", ident "v", punct "=", strTok "1", punct ".",
             ident "B", punct ":", ident "w", punct "=", { toktype := "Int", text := "2" },
             punct ",", ident "u", punct "=", ident "x", punct "."] }

/-- Token stream of the context section `A ; v = "1" .`, in which the name `A` is not
followed by `:`. -/
def streamCtxNoColon : Scanner :=
  { toks := [ident "A", punct ";", ident "v", punct "=", strTok "1", punct "."] }

/-- Token stream of the context section `A : v ; "1" .`, in which the name `v` is not
followed by `=`. -/
def streamCtxNoEq : Scanner :=
  { toks := [ident "A", punct ":", ident "v", punct ";", strTok "1", punct "."] }

/-- Token stream of the context section `A : v = "1" . "x" ; u = "2" .`, in which the
second header is neither an identifier nor followed by `:`. -/
def streamCtxEnds : Scanner :=
  { toks := [ident "A", punct ":", ident "v", punct "=", strTok "1", punct ".",
             strTok "x", punct ";", ident "u", punct "=", strTok "2", punct "."] }

/-! ## Built-in `Range` (`src/builtin/range.go`) -/

/-- Value of a scope entry: the pseudorandom source, held as `*rand.Rand`, or any other
value. -/
inductive ScopeValue
  | rand (Rnd : Rand)
  | other (v : Value)

/-- Modelled from the spec: the type `common.Scope`, whose package `common` is not among
the sources.  Section 6 describes it as the current variable context, which must hold the
pseudorandom source under a reserved key; `Range` reads that key, `"_random"`. -/
abbrev Scope := AList (fun _ : String => ScopeValue)

/-- Ways in which `Range` panics. -/
inductive Panic
  | typeAssertion
  | usage (msg : String)
  | int63n
  deriving DecidableEq, Repr

/-- The least `int64`. -/
def minInt64 : Int := -9223372036854775808

/-- The greatest `int64`. -/
def maxInt64 : Int := 9223372036854775807

/-- The `int64` that Go computes for the exact integer `x`: arithmetic wraps around. -/
def wrap64 (x : Int) : Int :=
  (x + 9223372036854775808) % 18446744073709551616 - 9223372036854775808

/-- Library call `rnd.Int63n(n)`: panics when `n <= 0`, otherwise returns a value in
`[0, n)` and advances the source. -/
def Rand.Int63n (Rnd : Rand) (n : Int) : Option (Int × Rand) :=
  if n ≤ 0 then none else some ((Rnd 0 : Int) % n, fun i => Rnd (i + 1))

/-- The type assertion `v.(int64)`. -/
def asInt64 : Value → Except Panic Int
  | .int v => .ok v
  | _ => .error .typeAssertion

/-- Lines 15-26 of `Range`: `min` and `max` from the argument list. -/
def rangeBounds : List Value → Except Panic (Int × Int)
  | [a0, a1] =>
    match asInt64 a0 with
    | .error e => .error e
    | .ok min =>
      match asInt64 a1 with
      | .error e => .error e
      | .ok max => .ok (min, max)
  | [a0] =>
    match asInt64 a0 with
    | .error e => .error e
    | .ok max => .ok (0, max)
  | _ => .error (.usage "Atleast one argument expected for range-form\n")

/-- The function `Range` (lines 10-28).  It returns the `int64` drawn and the state in
which it leaves the pseudorandom source of the scope. -/
def Range (scope : Scope) (args : List Value) : Except Panic (Int × Rand) :=
  match scope.lookup "_random" with
  | some (.rand rnd) =>
    match rangeBounds args with
    | .error e => .error e
    | .ok (min, max) =>
      match rnd.Int63n (wrap64 (max - min)) with
      | none => .error .int63n
      | some (r, rnd1) => .ok (wrap64 (r + min), rnd1)
  | _ => .error .typeAssertion

/-- Scope that holds the pseudorandom source `Rnd` under the reserved key. -/
def scopeOf (Rnd : Rand) : Scope := (∅ : Scope).insert "_random" (ScopeValue.rand Rnd)

/-! ## Conditions of the claims on alternatives and on failures -/

/-- The leaf produces the constant string `s`: its generator returns `s` for every
context. -/
def ConstLeaf (t : Terminal) (s : String) : Prop :=
  ∀ c, ∃ c1, t.generator c = some (s, c1)

/-- The nonterminals a call of `Generate` on `nt` can come to expand: `nt` itself and, at
any depth, the nonterminal nodes embedded in their rules. -/
inductive Embedded (heap : Heap) (nt : NonTerminal) : NonTerminal → Prop
  | self : Embedded heap nt nt
  | step (nd nd1 : NonTerminal) (rule : List Node) :
      Embedded heap nt nd → rule ∈ heap.rules nd.any → Node.nonterminal nd1 ∈ rule →
      Embedded heap nt nd1

/-- The nonterminal has at least one alternative, and every node of its rules is a leaf or
a resolved nonterminal: none is a reference still to be resolved. -/
def WellFormed (heap : Heap) (nd : NonTerminal) : Prop :=
  heap.rules nd.any ≠ [] ∧ ∀ rule ∈ heap.rules nd.any, ∀ s, Node.ref s ∉ rule

/-- Condition on the symbol table: every nonterminal of the table, and every nonterminal
embedded at any depth in the rules of one, has at least one alternative and only leaves
and resolved nonterminals as rule nodes.  Rule lists that no nonterminal of the table
leads to are not looked at. -/
def ClosedTable (Nonterminals : Table) (heap : Heap) : Prop :=
  ∀ e ∈ Nonterminals.entries, ∀ nd, Embedded heap e.2 nd → WellFormed heap nd

/-- Leaf whose generator panics. -/
def failLeaf : Terminal :=
  { name := "Fail", value := "", generator := fun _ => none }

/-- Resolved grammar `A : "x" F .`, where the generator of the leaf `F` panics. -/
def heapFail : Heap :=
  [ [ [Node.terminal (lit "x"), Node.terminal failLeaf] ] ]

/-- Resolved grammar `A : A .`, whose only rule expands `A` again: it has no leaf. -/
def heapLoop : Heap := [ [ [Node.nonterminal (mkNT "A" 0)] ] ]

/-- Symbol table of `heapLoop` (and of the other grammars with the single nonterminal
`A`). -/
def tableLoop : Table := (∅ : Table).insert "A" (mkNT "A" 0)

/-- Resolved grammar `A : "x" | "y" | "z" .` -/
def heapXYZ : Heap :=
  [ [ [Node.terminal (lit "x")], [Node.terminal (lit "y")], [Node.terminal (lit "z")] ] ]

/-- Resolved grammar `A : "x" .` -/
def heapX : Heap := [ [ [Node.terminal (lit "x")] ] ]

/-! ## Conditions of the claim on determinism -/

/-- The two contexts are the same map: every key is bound alike in both.  Go leaves the
iteration order of a map unspecified, so two runs may hold the same map in lists of
different order. -/
def SameMap (c1 c2 : Context) : Prop := ∀ k, c1.lookup k = c2.lookup k

/-- The generator is a deterministic function of the context: called on the same map it
panics both times or returns the same text both times, leaving the same map behind. -/
def Generator.Deterministic (g : Generator) : Prop :=
  ∀ c1 c2, SameMap c1 c2 →
    match g c1, g c2 with
    | some (s1, d1), some (s2, d2) => s1 = s2 ∧ SameMap d1 d2
    | none, none => True
    | _, _ => False

/-- Every leaf generator of the grammar is a deterministic function of the context. -/
def LeavesDeterministic (heap : Heap) : Prop :=
  ∀ cell ∈ heap, ∀ rule ∈ cell, ∀ t, Node.terminal t ∈ rule →
    Generator.Deterministic t.generator

/-- The two symbol tables give every nonterminal the same default context, as a map. -/
def SameDefaults (Nonterminals1 Nonterminals2 : Table) : Prop :=
  ∀ name, SameMap (Nonterminals1.get name).context (Nonterminals2.get name).context

/-- Two results of `Generate` agree: the same failure, or the same text with the same
context (as a map) and the same state of the random source left behind. -/
def SameResult : GenResult → GenResult → Prop
  | .ok (s1, c1, r1), .ok (s2, c2, r2) => s1 = s2 ∧ SameMap c1 c2 ∧ r1 = r2
  | .error e1, .error e2 => e1 = e2
  | _, _ => False

/-- Two states of the node loop agree. -/
def SameState (st1 st2 : LoopState) : Prop :=
  SameMap st1.context st2.context ∧ st1.Rnd = st2.Rnd ∧ st1.terms = st2.terms
    ∧ st1.names = st2.names

/-- Two results of the node loop agree. -/
def SameLoopResult : Except Failure LoopState → Except Failure LoopState → Prop
  | .ok st1, .ok st2 => SameState st1 st2
  | .error e1, .error e2 => e1 = e2
  | _, _ => False

/-- Leaf that produces the string bound to `a` followed by the string bound to `b`. -/
def probe2 (a b : String) : Terminal :=
  { name := "Probe2", value := ""
    generator := fun context =>
      match (probe a).generator context, (probe b).generator context with
      | some (s1, _), some (s2, _) => some (s1 ++ s2, context)
      | _, _ => none }

/-- Resolved grammar `A : B L | "z" .`, `B : "y" | "w" .`, where the leaf `L` produces
the bindings of `p` and `q`. -/
def heapDet : Heap :=
  [ [ [Node.nonterminal (mkNT "B" 1), Node.terminal (probe2 "p" "q")],
      [Node.terminal (lit "z")] ],
    [ [Node.terminal (lit "y")], [Node.terminal (lit "w")] ] ]

/-- The context `p = "1"`, `q = "2"` with `q` first in the list. -/
def ctxPQ : Context := (bind1 "p" "1").insert "q" (Value.str "2")

/-- The context `p = "1"`, `q = "2"` with `p` first in the list. -/
def ctxQP : Context := (bind1 "q" "2").insert "p" (Value.str "1")

/-- Symbol table of `heapDet` with the default context `p = "1"`, `q = "2"` for `A`, held
with `q` first. -/
def tableDet1 : Table :=
  ((∅ : Table).insert "A" (mkNT "A" 0 ctxPQ)).insert "B" (mkNT "B" 1)

/-- Symbol table of `heapDet` with the same default context for `A`, held with `p`
first. -/
def tableDet2 : Table :=
  ((∅ : Table).insert "A" (mkNT "A" 0 ctxQP)).insert "B" (mkNT "B" 1)

end Monster

/-! # Theorems -/

namespace Monster

/-! ## Maps -/

theorem lookup_deleteKeys (k : String) (keys : List String) (context : Context) :
    (deleteKeys keys context).lookup k = if k ∈ keys then none else context.lookup k := by
  induction keys generalizing context with
  | nil => simp [deleteKeys]
  | cons a rest ih =>
    have h : deleteKeys (a :: rest) context = deleteKeys rest (context.erase a) := rfl
    rw [h, ih]
    by_cases hka : k = a
    · subst hka; simp
    · by_cases hkr : k ∈ rest
      · simp [hkr]
      · simp [hka, hkr, AList.lookup_erase_ne hka]

/-! ## The node loop -/

/-- The zero nonterminal has no rule to draw from: `Generate` fails on it. -/
theorem Generate_zero (heap : Heap) (Nonterminals : Table) (fuel : Nat) (context : Context)
    (Rnd : Rand) : ∃ e, Generate heap Nonterminals fuel context Rnd NonTerminal.zero = .error e := by
  cases fuel with
  | zero => exact ⟨_, rfl⟩
  | succ n => exact ⟨.intnEmpty, by simp [Generate, NonTerminal.zero, Heap.rules, Rand.Intn]⟩

theorem join_replicate_empty (n : Nat) (texts : List String) :
    String.join (List.replicate n "" ++ texts) = String.join texts := by
  apply String.ext
  simp [String.data_join]

/-- The node loop agrees with `ruleTexts`: it appends to `terms` exactly the texts of
the nodes, in rule order, and ends in the same context and random source. -/
theorem expandNodes_texts (heap : Heap) (Nonterminals : Table) (fuel : Nat)
    (rule : List Node) (st st1 : LoopState)
    (h : expandNodes (Generate heap Nonterminals fuel) rule st = .ok st1) :
    ∃ texts, ruleTexts (Generate heap Nonterminals fuel) rule st.context st.Rnd
        = .ok (texts, st1.context, st1.Rnd)
      ∧ st1.terms = st.terms ++ texts ∧ texts.length = rule.length := by
  induction rule generalizing st with
  | nil =>
    simp only [expandNodes, Except.ok.injEq] at h
    subst h
    exact ⟨[], rfl, by simp, rfl⟩
  | cons node rest ih =>
    simp only [expandNodes] at h
    cases hn : expandNode (Generate heap Nonterminals fuel) st node with
    | error e => simp [hn] at h
    | ok st2 =>
      simp only [hn] at h
      obtain ⟨texts, hspec, hterms, hlen⟩ := ih st2 h
      cases node with
      | terminal t =>
        simp only [expandNode] at hn
        cases hg : t.generator st.context with
        | none => simp [hg] at hn
        | some r =>
          obtain ⟨valstr, context⟩ := r
          simp only [hg, Except.ok.injEq] at hn
          subst hn
          refine ⟨valstr :: texts, ?_, ?_, by simp [hlen]⟩
          · simp only [ruleTexts, nodeText, hg]
            simp only [] at hspec
            rw [hspec]
          · simp [hterms]
      | nonterminal nd =>
        simp only [expandNode, expandNonTerminal] at hn
        cases hg : Generate heap Nonterminals fuel st.context st.Rnd nd with
        | error e => simp [hg] at hn
        | ok r =>
          obtain ⟨valstr, context, Rnd⟩ := r
          simp only [hg, Except.ok.injEq] at hn
          subst hn
          refine ⟨valstr :: texts, ?_, ?_, by simp [hlen]⟩
          · simp only [ruleTexts, nodeText, hg]
            simp only [] at hspec
            rw [hspec]
          · simp [hterms]
      | ref s =>
        obtain ⟨e, he⟩ := Generate_zero heap Nonterminals fuel st.context st.Rnd
        simp [expandNode, expandNonTerminal, he] at hn

/-- C1. Whenever `Generate` returns, the string it returns is the concatenation, in rule
order and with nothing added or dropped, of the texts of the nodes of the alternative
`nt.any[i]`, where `i` is the index drawn from the random source, `i < len(nt.any)`:
there is one text per node (`ruleTexts`), a leaf giving its generator's output and a
nonterminal the result of its recursive `Generate`. -/
theorem Generate_concatenates (heap : Heap) (Nonterminals : Table) (fuel : Nat)
    (context : Context) (Rnd : Rand) (nt : NonTerminal)
    (out : String) (context1 : Context) (Rnd1 : Rand)
    (h : Generate heap Nonterminals (fuel + 1) context Rnd nt = .ok (out, context1, Rnd1)) :
    ∃ i Rnd0 rule texts context2,
      Rnd.Intn (heap.rules nt.any).length = some (i, Rnd0)
      ∧ i < (heap.rules nt.any).length
      ∧ (heap.rules nt.any)[i]? = some rule
      ∧ ruleTexts (Generate heap Nonterminals fuel) rule
          (mergeDefaults (Nonterminals.get nt.name).context context) Rnd0
          = .ok (texts, context2, Rnd1)
      ∧ texts.length = rule.length
      ∧ out = String.join texts := by
  simp only [Generate] at h
  cases hi : Rnd.Intn (heap.rules nt.any).length with
  | none => simp [hi] at h
  | some p =>
    obtain ⟨i, Rnd0⟩ := p
    simp only [hi] at h
    cases hr : (heap.rules nt.any)[i]? with
    | none => simp [hr] at h
    | some rule =>
      simp only [hr] at h
      cases hl : expandNodes (Generate heap Nonterminals fuel) rule
          (initState (Nonterminals.get nt.name).context context Rnd0 rule) with
      | error e => simp [hl] at h
      | ok st =>
        simp only [hl, Except.ok.injEq, finish, Prod.mk.injEq] at h
        obtain ⟨hout, -, hrnd⟩ := h
        obtain ⟨texts, hspec, hterms, hlen⟩ := expandNodes_texts heap Nonterminals fuel rule _ st hl
        have hlt : i < (heap.rules nt.any).length := by
          rcases List.getElem?_eq_some_iff.mp hr with ⟨hlt, -⟩
          exact hlt
        refine ⟨i, Rnd0, rule, texts, st.context, rfl, hlt, hr, ?_, hlen, ?_⟩
        · rw [← hrnd]; exact hspec
        · rw [← hout, hterms]
          exact join_replicate_empty _ _

/-- C1, witness: `A : B "-" "x" | "z" .`, `B : "y" .` with a source that draws 0. -/
theorem Generate_concatenates_witness :
    ∃ i Rnd0 rule texts context2,
      (constRand 0).Intn (heapAB.rules (mkNT "A" 0).any).length = some (i, Rnd0)
      ∧ i < (heapAB.rules (mkNT "A" 0).any).length
      ∧ (heapAB.rules (mkNT "A" 0).any)[i]? = some rule
      ∧ ruleTexts (Generate heapAB tableAB 1) rule
          (mergeDefaults (tableAB.get (mkNT "A" 0).name).context ∅) Rnd0
          = .ok (texts, context2, constRand 0)
      ∧ texts.length = rule.length
      ∧ "y-x" = String.join texts :=
  Generate_concatenates heapAB tableAB 1 ∅ (constRand 0) (mkNT "A" 0) "y-x" ∅ (constRand 0)
    (by rfl)

theorem lookup_foldl_insert_of_not_mem (k : String) (l : List (Sigma fun _ : String => Value))
    (context : Context) (hk : k ∉ l.keys) :
    (l.foldl (fun c e => c.insert e.1 e.2) context).lookup k = context.lookup k := by
  induction l generalizing context with
  | nil => rfl
  | cons e rest ih =>
    simp only [List.keys_cons, List.mem_cons, not_or] at hk
    simp only [List.foldl_cons]
    rw [ih _ hk.2, AList.lookup_insert_ne hk.1]

theorem lookup_foldl_insert_of_mem (k : String) (v : Value)
    (l : List (Sigma fun _ : String => Value)) (context : Context)
    (hnd : l.NodupKeys) (hk : (⟨k, v⟩ : Sigma fun _ : String => Value) ∈ l) :
    (l.foldl (fun c e => c.insert e.1 e.2) context).lookup k = some v := by
  induction l generalizing context with
  | nil => simp at hk
  | cons e rest ih =>
    simp only [List.foldl_cons]
    rw [List.nodupKeys_cons] at hnd
    rcases List.mem_cons.mp hk with he | hr
    · subst he
      rw [lookup_foldl_insert_of_not_mem _ _ _ hnd.1, AList.lookup_insert]
    · exact ih _ hnd.2 hr

/-- A key outside the default context is bound after the merge as it was before. -/
theorem lookup_mergeDefaults_of_not_mem (k : String) (defaults context : Context)
    (hk : k ∉ defaults.keys) :
    (mergeDefaults defaults context).lookup k = context.lookup k :=
  lookup_foldl_insert_of_not_mem k defaults.entries context hk

/-- A key of the default context is bound after the merge to its default value. -/
theorem lookup_mergeDefaults_of_mem (k : String) (v : Value) (defaults context : Context)
    (hk : defaults.lookup k = some v) :
    (mergeDefaults defaults context).lookup k = some v :=
  lookup_foldl_insert_of_mem k v defaults.entries context defaults.nodupKeys
    (AList.mem_lookup_iff.mp hk)

theorem mem_heap_of_mem_rules (heap : Heap) (any : Option Nat) (rule : List Node)
    (h : rule ∈ heap.rules any) : ∃ cell ∈ heap, rule ∈ cell := by
  cases any with
  | none => simp [Heap.rules] at h
  | some a =>
    simp only [Heap.rules, List.getD_eq_getElem?_getD] at h
    cases hc : heap[a]? with
    | none => simp [hc] at h
    | some cell =>
      simp only [hc, Option.getD_some] at h
      exact ⟨cell, List.getElem?_mem hc, h⟩

/-- The default context `Generate` reads for `name` is empty or that of a table entry. -/
theorem get_context_cases (Nonterminals : Table) (name : String) :
    (Nonterminals.get name).context = ∅
      ∨ ∃ e ∈ Nonterminals.entries, (Nonterminals.get name).context = e.2.context := by
  unfold Table.get
  cases h : Nonterminals.lookup name with
  | none => left; rfl
  | some nt =>
    right
    exact ⟨⟨name, nt⟩, AList.mem_lookup_iff.mp h, rfl⟩

/-- Unfolding of a call of `Generate` that returns. -/
theorem Generate_ok_inv (heap : Heap) (Nonterminals : Table) (fuel : Nat)
    (context : Context) (Rnd : Rand) (nt : NonTerminal) (res : String × Context × Rand)
    (h : Generate heap Nonterminals (fuel + 1) context Rnd nt = .ok res) :
    ∃ i Rnd0 rule st,
      Rnd.Intn (heap.rules nt.any).length = some (i, Rnd0)
      ∧ (heap.rules nt.any)[i]? = some rule
      ∧ expandNodes (Generate heap Nonterminals fuel) rule
          (initState (Nonterminals.get nt.name).context context Rnd0 rule) = .ok st
      ∧ res = finish (Nonterminals.get nt.name).context st := by
  simp only [Generate] at h
  cases hi : Rnd.Intn (heap.rules nt.any).length with
  | none => simp [hi] at h
  | some p =>
    obtain ⟨i, Rnd0⟩ := p
    simp only [hi] at h
    cases hr : (heap.rules nt.any)[i]? with
    | none => simp [hr] at h
    | some rule =>
      simp only [hr] at h
      cases hl : expandNodes (Generate heap Nonterminals fuel) rule
          (initState (Nonterminals.get nt.name).context context Rnd0 rule) with
      | error e => simp [hl] at h
      | ok st =>
        simp only [hl, Except.ok.injEq] at h
        exact ⟨i, Rnd0, rule, st, rfl, hr, hl, h.symm⟩

/-- Loop invariant behind the context theorems.  Let every nested call return a context
whose bindings were all there when it was called.  Then every binding the loop ends
with was there when the loop started, or its key is among the names the loop noted. -/
theorem expandNodes_bindings (gen : Context → Rand → NonTerminal → GenResult)
    (hgen : ∀ c r nd s c1 r1, gen c r nd = .ok (s, c1, r1) →
      ∀ k v, c1.lookup k = some v → c.lookup k = some v)
    (rule : List Node) (hpure : ∀ t, Node.terminal t ∈ rule → Generator.Pure t.generator)
    (st st1 : LoopState) (h : expandNodes gen rule st = .ok st1) :
    (∀ k v, st1.context.lookup k = some v → st.context.lookup k = some v ∨ k ∈ st1.names)
      ∧ (∀ k, k ∈ st.names → k ∈ st1.names) := by
  induction rule generalizing st with
  | nil =>
    simp only [expandNodes, Except.ok.injEq] at h
    subst h
    exact ⟨fun k v hk => Or.inl hk, fun k hk => hk⟩
  | cons node rest ih =>
    simp only [expandNodes] at h
    cases hn : expandNode gen st node with
    | error e => simp [hn] at h
    | ok st2 =>
      simp only [hn] at h
      obtain ⟨hb, hnames⟩ := ih (fun t ht => hpure t (List.mem_cons_of_mem _ ht)) st2 h
      have key : (∀ k v, st2.context.lookup k = some v →
            st.context.lookup k = some v ∨ k ∈ st2.names)
          ∧ (∀ k, k ∈ st.names → k ∈ st2.names) := by
        cases node with
        | terminal t =>
          simp only [expandNode] at hn
          cases hg : t.generator st.context with
          | none => simp [hg] at hn
          | some r =>
            obtain ⟨valstr, c⟩ := r
            simp only [hg, Except.ok.injEq] at hn
            subst hn
            have hp := hpure t (List.mem_cons_self _ _) _ _ _ hg
            exact ⟨fun k v hk => Or.inl (by rw [← hp k]; exact hk), fun k hk => hk⟩
        | nonterminal nd =>
          simp only [expandNode, expandNonTerminal] at hn
          cases hg : gen st.context st.Rnd nd with
          | error e => simp [hg] at hn
          | ok r =>
            obtain ⟨valstr, c, r1⟩ := r
            simp only [hg, Except.ok.injEq] at hn
            subst hn
            refine ⟨fun k v hk => ?_, fun k hk => by simp [hk]⟩
            by_cases hkn : k = nd.name
            · right; simp [hkn]
            · left
              simp only [AList.lookup_insert_ne hkn] at hk
              exact hgen _ _ _ _ _ _ hg k v hk
        | ref s =>
          simp only [expandNode, expandNonTerminal] at hn
          cases hg : gen st.context st.Rnd NonTerminal.zero with
          | error e => simp [hg] at hn
          | ok r =>
            obtain ⟨valstr, c, r1⟩ := r
            simp only [hg, Except.ok.injEq] at hn
            subst hn
            refine ⟨fun k v hk => ?_, fun k hk => by simp [hk]⟩
            by_cases hkn : k = NonTerminal.zero.name
            · right; simp [hkn]
            · left
              simp only [AList.lookup_insert_ne hkn] at hk
              exact hgen _ _ _ _ _ _ hg k v hk
      refine ⟨fun k v hk => ?_, fun k hk => hnames k (key.2 k hk)⟩
      rcases hb k v hk with h2 | h2
      · rcases key.1 k v h2 with h3 | h3
        · exact Or.inl h3
        · exact Or.inr (hnames k h3)
      · exact Or.inr h2

/-- Every binding of the context `Generate` returns was in the context it was called
with: the call adds no key and changes no value. -/
theorem Generate_bindings (heap : Heap) (Nonterminals : Table) (hpure : LeavesPure heap)
    (fuel : Nat) : ∀ (context : Context) (Rnd : Rand) (nt : NonTerminal)
      (out : String) (context1 : Context) (Rnd1 : Rand),
      Generate heap Nonterminals fuel context Rnd nt = .ok (out, context1, Rnd1) →
      ∀ k v, context1.lookup k = some v → context.lookup k = some v := by
  induction fuel with
  | zero => intro context Rnd nt out context1 Rnd1 h; simp [Generate] at h
  | succ n ih =>
    intro context Rnd nt out context1 Rnd1 h k v hk
    obtain ⟨i, Rnd0, rule, st, -, hr, hl, hres⟩ :=
      Generate_ok_inv heap Nonterminals n context Rnd nt _ h
    simp only [finish, Prod.mk.injEq] at hres
    obtain ⟨-, hc, -⟩ := hres
    subst hc
    obtain ⟨cell, hcell, hrule⟩ :=
      mem_heap_of_mem_rules heap nt.any rule (List.getElem?_mem hr)
    obtain ⟨hb, -⟩ := expandNodes_bindings (Generate heap Nonterminals n) ih rule
      (fun t ht => hpure cell hcell rule hrule t ht) _ st hl
    rw [lookup_deleteKeys] at hk
    split at hk
    · simp at hk
    · rename_i hkd
      rw [lookup_deleteKeys] at hk
      split at hk
      · simp at hk
      · rename_i hkn
        rcases hb k v hk with h1 | h1
        · simp only [initState] at h1
          rw [lookup_mergeDefaults_of_not_mem k _ _ hkd] at h1
          exact h1
        · exact absurd h1 hkn

/-- One iteration of the node loop on a node that keeps `k` when expanded from `st`
leaves `k` bound as it was, and notes at most the name of the node. -/
theorem expandNode_keeps (gen : Context → Rand → NonTerminal → GenResult) (k : String)
    (node : Node) (st st1 : LoopState) (hkeep : Node.KeepsAt gen k st node)
    (h : expandNode gen st node = .ok st1) :
    st1.context.lookup k = st.context.lookup k ∧ (k ∉ st.names → k ∉ st1.names) := by
  cases node with
  | terminal t =>
    simp only [expandNode] at h
    cases hg : t.generator st.context with
    | none => simp [hg] at h
    | some r =>
      obtain ⟨valstr, c⟩ := r
      simp only [hg, Except.ok.injEq] at h
      subst h
      exact ⟨hkeep _ _ hg, fun hk => hk⟩
  | nonterminal nd =>
    simp only [expandNode, expandNonTerminal] at h
    cases hg : gen st.context st.Rnd nd with
    | error e => simp [hg] at h
    | ok r =>
      obtain ⟨valstr, c, r1⟩ := r
      simp only [hg, Except.ok.injEq] at h
      subst h
      obtain ⟨hne, hk⟩ := hkeep
      refine ⟨?_, fun hk1 => ?_⟩
      · simp only [AList.lookup_insert_ne (Ne.symm hne)]
        exact hk _ _ _ hg
      · simp [hk1, Ne.symm hne]
  | ref s =>
    simp only [expandNode, expandNonTerminal] at h
    cases hg : gen st.context st.Rnd NonTerminal.zero with
    | error e => simp [hg] at h
    | ok r =>
      obtain ⟨valstr, c, r1⟩ := r
      simp only [hg, Except.ok.injEq] at h
      subst h
      obtain ⟨hne, hk⟩ := hkeep
      refine ⟨?_, fun hk1 => ?_⟩
      · simp only [AList.lookup_insert_ne (Ne.symm hne)]
        exact hk _ _ _ hg
      · simp [hk1, Ne.symm hne]

/-- The node loop over nodes that keep `k` along the run leaves `k` bound as it was. -/
theorem expandNodes_keeps (gen : Context → Rand → NonTerminal → GenResult) (k : String)
    (rule : List Node) (st st1 : LoopState) (hkeep : KeepsAlong gen k rule st)
    (h : expandNodes gen rule st = .ok st1) :
    st1.context.lookup k = st.context.lookup k ∧ (k ∉ st.names → k ∉ st1.names) := by
  induction rule generalizing st with
  | nil =>
    simp only [expandNodes, Except.ok.injEq] at h
    subst h
    exact ⟨rfl, fun hk => hk⟩
  | cons node rest ih =>
    simp only [expandNodes] at h
    cases hn : expandNode gen st node with
    | error e => simp [hn] at h
    | ok st2 =>
      simp only [hn] at h
      obtain ⟨hk0, hk1⟩ := hkeep
      obtain ⟨h1, h2⟩ := expandNode_keeps gen k node st st2 hk0 hn
      obtain ⟨h3, h4⟩ := ih st2 (hk1 st2 hn) h
      exact ⟨h3.trans h1, fun hk => h4 (h2 hk)⟩

/-- Nodes that keep `k` from whatever state they are expanded keep it along every run. -/
theorem keepsAlong_of_forall (gen : Context → Rand → NonTerminal → GenResult) (k : String)
    (rule : List Node) (hkeep : ∀ node ∈ rule, ∀ st, Node.KeepsAt gen k st node) :
    ∀ st, KeepsAlong gen k rule st := by
  induction rule with
  | nil => intro st; exact trivial
  | cons node rest ih =>
    intro st
    exact ⟨hkeep node (List.mem_cons_self _ _) st,
      fun st1 _ => ih (fun n hn => hkeep n (List.mem_cons_of_mem _ hn)) st1⟩

/-- The node loop drops no name it has noted, and notes the name of every nonterminal
node of the rule. -/
theorem expandNodes_names (gen : Context → Rand → NonTerminal → GenResult)
    (rule : List Node) (st st1 : LoopState) (h : expandNodes gen rule st = .ok st1) :
    (∀ k, k ∈ st.names → k ∈ st1.names)
      ∧ (∀ nd, Node.nonterminal nd ∈ rule → nd.name ∈ st1.names) := by
  induction rule generalizing st with
  | nil =>
    simp only [expandNodes, Except.ok.injEq] at h
    subst h
    exact ⟨fun k hk => hk, fun nd hnd => by simp at hnd⟩
  | cons node rest ih =>
    simp only [expandNodes] at h
    cases hn : expandNode gen st node with
    | error e => simp [hn] at h
    | ok st2 =>
      simp only [hn] at h
      obtain ⟨h1, h2⟩ := ih st2 h
      have key : (∀ k, k ∈ st.names → k ∈ st2.names)
          ∧ (∀ nd, node = Node.nonterminal nd → nd.name ∈ st2.names) := by
        cases node with
        | terminal t =>
          simp only [expandNode] at hn
          cases hg : t.generator st.context with
          | none => simp [hg] at hn
          | some r =>
            obtain ⟨valstr, c⟩ := r
            simp only [hg, Except.ok.injEq] at hn
            subst hn
            exact ⟨fun k hk => hk, fun nd hnd => by simp at hnd⟩
        | nonterminal nd0 =>
          simp only [expandNode, expandNonTerminal] at hn
          cases hg : gen st.context st.Rnd nd0 with
          | error e => simp [hg] at hn
          | ok r =>
            obtain ⟨valstr, c, r1⟩ := r
            simp only [hg, Except.ok.injEq] at hn
            subst hn
            refine ⟨fun k hk => by simp [hk], fun nd hnd => ?_⟩
            simp only [Node.nonterminal.injEq] at hnd
            subst hnd
            simp
        | ref s =>
          simp only [expandNode, expandNonTerminal] at hn
          cases hg : gen st.context st.Rnd NonTerminal.zero with
          | error e => simp [hg] at hn
          | ok r =>
            obtain ⟨valstr, c, r1⟩ := r
            simp only [hg, Except.ok.injEq] at hn
            subst hn
            exact ⟨fun k hk => by simp [hk], fun nd hnd => by simp at hnd⟩
      refine ⟨fun k hk => h1 k (key.1 k hk), fun nd hnd => ?_⟩
      rcases List.mem_cons.mp hnd with h3 | h3
      · exact h1 _ (key.2 nd h3.symm)
      · exact h2 nd h3

/-- The loop on `pre ++ post` is the loop on `pre` followed by the loop on `post`. -/
theorem expandNodes_append (gen : Context → Rand → NonTerminal → GenResult)
    (pre post : List Node) (st : LoopState) :
    expandNodes gen (pre ++ post) st =
      match expandNodes gen pre st with
      | .error e => .error e
      | .ok st1 => expandNodes gen post st1 := by
  induction pre generalizing st with
  | nil => rfl
  | cons node rest ih =>
    simp only [List.cons_append, expandNodes]
    cases expandNode gen st node with
    | error e => rfl
    | ok st2 => exact ih st2

/-- A key that no expansion touches is bound after `Generate` as it was before. -/
theorem Generate_untouched (heap : Heap) (Nonterminals : Table) (hpure : LeavesPure heap)
    (k : String) (hk : Untouched heap Nonterminals k) (fuel : Nat) :
    ∀ (context : Context) (Rnd : Rand) (nt : NonTerminal)
      (out : String) (context1 : Context) (Rnd1 : Rand),
      Generate heap Nonterminals fuel context Rnd nt = .ok (out, context1, Rnd1) →
      context1.lookup k = context.lookup k := by
  induction fuel with
  | zero => intro context Rnd nt out context1 Rnd1 h; simp [Generate] at h
  | succ n ih =>
    intro context Rnd nt out context1 Rnd1 h
    obtain ⟨i, Rnd0, rule, st, -, hr, hl, hres⟩ :=
      Generate_ok_inv heap Nonterminals n context Rnd nt _ h
    simp only [finish, Prod.mk.injEq] at hres
    obtain ⟨-, hc, -⟩ := hres
    subst hc
    obtain ⟨cell, hcell, hrule⟩ :=
      mem_heap_of_mem_rules heap nt.any rule (List.getElem?_mem hr)
    obtain ⟨hk0, hkd, hkn⟩ := hk
    have hkeep : ∀ node ∈ rule, ∀ st0, Node.KeepsAt (Generate heap Nonterminals n) k st0 node := by
      intro node hnode st0
      cases node with
      | terminal t => exact fun s c1 hg => hpure cell hcell rule hrule t hnode _ s c1 hg k
      | nonterminal nd =>
        exact ⟨hkn cell hcell rule hrule nd hnode, fun s c1 r1 hg => ih _ _ nd s c1 r1 hg⟩
      | ref s =>
        exact ⟨fun h0 => hk0 h0.symm, fun s c1 r1 hg => ih _ _ _ s c1 r1 hg⟩
    have hdef : k ∉ (Nonterminals.get nt.name).context.keys := by
      rcases get_context_cases Nonterminals nt.name with h0 | ⟨e, he, h0⟩
      · rw [h0]; simp
      · rw [h0]; exact hkd e he
    obtain ⟨h1, h2⟩ := expandNodes_keeps _ k rule _ st
      (keepsAlong_of_forall _ k rule hkeep _) hl
    have h3 : k ∉ st.names := by
      apply h2
      simp only [initState, List.mem_replicate, not_and]
      exact fun _ => hk0
    rw [lookup_deleteKeys, if_neg hdef, lookup_deleteKeys, if_neg h3, h1]
    exact lookup_mergeDefaults_of_not_mem k _ _ hdef

/-- C2 (as amended). When `Generate` returns and no leaf generator modifies the context,
the context after the call is the context before the call with some bindings removed:
every binding present after the call was present before it (same key, same value); every
key that is not the empty string, not a key of a default context of the symbol table and
not the name of a nonterminal node of the grammar is bound after the call exactly as
before; and no key of the default context of `nt` (that of the symbol table entry of
`nt`'s name), no name of a nonterminal node of the selected rule and, when that rule has
a node, not the empty string either is bound after the call, whatever the context bound
it to before: such a binding is deleted, not restored. -/
theorem Generate_context_after (heap : Heap) (Nonterminals : Table) (fuel : Nat)
    (context : Context) (Rnd : Rand) (nt : NonTerminal)
    (out : String) (context1 : Context) (Rnd1 : Rand)
    (hpure : LeavesPure heap)
    (h : Generate heap Nonterminals fuel context Rnd nt = .ok (out, context1, Rnd1)) :
    (∀ k v, context1.lookup k = some v → context.lookup k = some v)
      ∧ (∀ k, Untouched heap Nonterminals k → context1.lookup k = context.lookup k)
      ∧ (∀ k ∈ (Nonterminals.get nt.name).context.keys, context1.lookup k = none)
      ∧ ∃ i Rnd0 rule,
          Rnd.Intn (heap.rules nt.any).length = some (i, Rnd0)
            ∧ (heap.rules nt.any)[i]? = some rule
            ∧ (∀ nd, Node.nonterminal nd ∈ rule → context1.lookup nd.name = none)
            ∧ (rule ≠ [] → context1.lookup "" = none) := by
  refine ⟨Generate_bindings heap Nonterminals hpure fuel context Rnd nt out context1 Rnd1 h,
    fun k hk => Generate_untouched heap Nonterminals hpure k hk fuel context Rnd nt out
      context1 Rnd1 h, ?_⟩
  cases fuel with
  | zero => simp [Generate] at h
  | succ n =>
    obtain ⟨i, Rnd0, rule, st, hi, hr, hl, hres⟩ :=
      Generate_ok_inv heap Nonterminals n context Rnd nt _ h
    simp only [finish, Prod.mk.injEq] at hres
    obtain ⟨-, hc, -⟩ := hres
    subst hc
    obtain ⟨hkept, hnoted⟩ := expandNodes_names _ rule _ st hl
    have hdel : ∀ k, k ∈ st.names →
        (deleteKeys (Nonterminals.get nt.name).context.keys
          (deleteKeys st.names st.context)).lookup k = none := by
      intro k hk
      rw [lookup_deleteKeys]
      split
      · rfl
      · rw [lookup_deleteKeys, if_pos hk]
    refine ⟨fun k hk => by rw [lookup_deleteKeys, if_pos hk], i, Rnd0, rule, hi, hr,
      fun nd hnd => hdel _ (hnoted nd hnd), fun hne => hdel _ (hkept _ ?_)⟩
    simp only [initState, List.mem_replicate, and_true]
    exact fun h0 => hne (List.length_eq_zero.mp h0)

/-- C3. When `Generate` returns and no leaf generator modifies the context, a key that
was not bound before the call is not bound after it. -/
theorem Generate_adds_no_key (heap : Heap) (Nonterminals : Table) (fuel : Nat)
    (context : Context) (Rnd : Rand) (nt : NonTerminal)
    (out : String) (context1 : Context) (Rnd1 : Rand)
    (hpure : LeavesPure heap)
    (h : Generate heap Nonterminals fuel context Rnd nt = .ok (out, context1, Rnd1)) :
    ∀ k, context.lookup k = none → context1.lookup k = none := by
  intro k hk
  cases hk1 : context1.lookup k with
  | none => rfl
  | some v =>
    have := Generate_bindings heap Nonterminals hpure fuel context Rnd nt out context1 Rnd1 h k v hk1
    rw [hk] at this
    exact absurd this (by simp)

/-- C6. When `Generate` returns, no key of the default context of `nt` (the one
`Generate` reads: that of the symbol table entry of `nt`'s name, which for a parsed
grammar is `nt`'s own) is bound in the context the call leaves behind. -/
theorem Generate_removes_defaults (heap : Heap) (Nonterminals : Table) (fuel : Nat)
    (context : Context) (Rnd : Rand) (nt : NonTerminal)
    (out : String) (context1 : Context) (Rnd1 : Rand)
    (h : Generate heap Nonterminals fuel context Rnd nt = .ok (out, context1, Rnd1)) :
    (∀ k ∈ (Nonterminals.get nt.name).context.keys, context1.lookup k = none)
      ∧ ((Nonterminals.get nt.name).context = nt.context →
          ∀ k ∈ nt.context.keys, context1.lookup k = none) := by
  have main : ∀ k ∈ (Nonterminals.get nt.name).context.keys, context1.lookup k = none := by
    intro k hk
    cases fuel with
    | zero => simp [Generate] at h
    | succ n =>
      obtain ⟨i, Rnd0, rule, st, -, -, -, hres⟩ :=
        Generate_ok_inv heap Nonterminals n context Rnd nt _ h
      simp only [finish, Prod.mk.injEq] at hres
      obtain ⟨-, hc, -⟩ := hres
      subst hc
      rw [lookup_deleteKeys, if_pos hk]
  exact ⟨main, fun heq k hk => main k (by rw [heq]; exact hk)⟩

/-! ## Example grammars: their leaves do not modify the context -/

theorem lit_pure (s : String) : Generator.Pure (lit s).generator := by
  intro c t c1 h k
  simp only [lit, Option.some.injEq, Prod.mk.injEq] at h
  rw [← h.2]

theorem probe_pure (x : String) : Generator.Pure (probe x).generator := by
  intro c t c1 h k
  simp only [probe] at h
  split at h <;> simp only [Option.some.injEq, Prod.mk.injEq] at h <;> rw [← h.2]

theorem leavesPure_heapAB : LeavesPure heapAB := by
  intro cell hc rule hr t ht
  simp only [heapAB, List.mem_cons, List.mem_singleton, List.not_mem_nil, or_false] at hc
  rcases hc with rfl | rfl
  · simp only [List.mem_cons, List.mem_singleton, List.not_mem_nil, or_false] at hr
    rcases hr with rfl | rfl
    · simp only [List.mem_cons, List.mem_singleton, List.not_mem_nil, or_false,
        Node.terminal.injEq, false_or, reduceCtorEq] at ht
      rcases ht with rfl | rfl <;> exact lit_pure _
    · simp only [List.mem_singleton, Node.terminal.injEq] at ht
      subst ht; exact lit_pure _
  · simp only [List.mem_singleton] at hr
    subst hr
    simp only [List.mem_singleton, Node.terminal.injEq] at ht
    subst ht; exact lit_pure _

theorem leavesPure_heapIso : LeavesPure heapIso := by
  intro cell hc rule hr t ht
  simp only [heapIso, List.mem_cons, List.mem_singleton, List.not_mem_nil, or_false] at hc
  rcases hc with rfl | rfl
  · simp only [List.mem_singleton] at hr
    subst hr
    simp at ht
  · simp only [List.mem_singleton] at hr
    subst hr
    simp only [List.mem_singleton, Node.terminal.injEq] at ht
    subst ht; exact lit_pure _

/-! ## Claims on the context -/

/-- C2, counterexample. In the grammar `A : B "-" "x" | "z" .`, `B : "y" .`, whose leaves
do not modify the context, `Generate` called on `A` with the context `q = "0"`,
`B = "old"` returns `"y-x"` and leaves the context `q = "0"`: the binding of `B` that was
there before the call is gone after it. -/
theorem Generate_context_not_restored :
    LeavesPure heapAB
      ∧ Generate heapAB tableAB 2 ctxQB (constRand 0) (mkNT "A" 0)
          = .ok ("y-x", bind1 "q" "0", constRand 0)
      ∧ ctxQB.lookup "B" = some (Value.str "old")
      ∧ (bind1 "q" "0").lookup "B" = none :=
  ⟨leavesPure_heapAB, by rfl, by rfl, by rfl⟩

/-- C2 (as amended), witness: the call of the counterexample; the selected rule is
`B "-" "x"`, and the binding of `B` is among those deleted. -/
theorem Generate_context_after_witness :
    LeavesPure heapAB
      ∧ Generate heapAB tableAB 2 ctxQB (constRand 0) (mkNT "A" 0)
          = .ok ("y-x", bind1 "q" "0", constRand 0)
      ∧ (∀ k v, (bind1 "q" "0").lookup k = some v → ctxQB.lookup k = some v)
      ∧ (∀ k, Untouched heapAB tableAB k → (bind1 "q" "0").lookup k = ctxQB.lookup k)
      ∧ (∀ k ∈ (tableAB.get (mkNT "A" 0).name).context.keys, (bind1 "q" "0").lookup k = none)
      ∧ ∃ i Rnd0 rule,
          (constRand 0).Intn (heapAB.rules (mkNT "A" 0).any).length = some (i, Rnd0)
            ∧ (heapAB.rules (mkNT "A" 0).any)[i]? = some rule
            ∧ (∀ nd, Node.nonterminal nd ∈ rule → (bind1 "q" "0").lookup nd.name = none)
            ∧ (rule ≠ [] → (bind1 "q" "0").lookup "" = none) :=
  ⟨leavesPure_heapAB, by rfl,
   Generate_context_after heapAB tableAB 2 ctxQB (constRand 0) (mkNT "A" 0) "y-x"
     (bind1 "q" "0") (constRand 0) leavesPure_heapAB (by rfl)⟩

/-- C3, witness: after generating `A` from `A : B .`, `B : "y" .` in the context
`q = "0"`, which has no `B`, no key that was unbound is bound, `B` in particular. -/
theorem Generate_adds_no_key_witness :
    (bind1 "q" "0").lookup "B" = none
      ∧ ∃ context1, Generate heapIso tableIso 2 (bind1 "q" "0") (constRand 0) (mkNT "A" 0)
            = .ok ("y", context1, constRand 0)
          ∧ (∀ k, (bind1 "q" "0").lookup k = none → context1.lookup k = none)
          ∧ context1.lookup "B" = none :=
  ⟨by rfl, bind1 "q" "0", by rfl,
   Generate_adds_no_key heapIso tableIso 2 (bind1 "q" "0") (constRand 0) (mkNT "A" 0) "y"
     (bind1 "q" "0") (constRand 0) leavesPure_heapIso (by rfl),
   by rfl⟩

/-- C6, witness: `A : "x" L .` with default context `v = "1"`, called with `v = "0"`. -/
theorem Generate_removes_defaults_witness :
    ∃ context1, Generate heapV tableV 1 (bind1 "v" "0") (constRand 0) (mkNT "A" 0 (bind1 "v" "1"))
          = .ok ("x1", context1, constRand 0)
      ∧ (∀ k ∈ (tableV.get "A").context.keys, context1.lookup k = none)
      ∧ ((tableV.get "A").context = bind1 "v" "1" →
          ∀ k ∈ (bind1 "v" "1").keys, context1.lookup k = none) :=
  ⟨∅, by rfl,
   Generate_removes_defaults heapV tableV 1 (bind1 "v" "0") (constRand 0)
     (mkNT "A" 0 (bind1 "v" "1")) "x1" ∅ (constRand 0) (by rfl)⟩

/-- C4 (as amended). Let a rule be `pre ++ N :: mid ++ L :: post` with `N` a nonterminal
node and `L` a leaf.  Let `Generate` expand the rule: the loop stands at `st0` after
`pre`, the expansion of `N` there produces `text` and brings the loop to `stN`, and the
loop over `mid` goes from `stN` to `st1`.  Let no node of `mid` remove or change the
binding of `N`'s name in this expansion (each is a leaf whose generator returns with that
key bound as it found it, or a nonterminal of another name whose expansion returns with
the key bound as before).  Then the context of `st1` binds `N`'s name to `text`, and it
is with that context that `L`'s generator is invoked. -/
theorem sibling_binding_visible (heap : Heap) (Nonterminals : Table) (fuel : Nat)
    (pre mid post : List Node) (N : NonTerminal) (L : Terminal)
    (st st0 stN st1 : LoopState) (text : String) (c : Context) (r : Rand)
    (h0 : expandNodes (Generate heap Nonterminals fuel) pre st = .ok st0)
    (hN : Generate heap Nonterminals fuel st0.context st0.Rnd N = .ok (text, c, r))
    (hNst : expandNode (Generate heap Nonterminals fuel) st0 (Node.nonterminal N) = .ok stN)
    (hmid : KeepsAlong (Generate heap Nonterminals fuel) N.name mid stN)
    (h1 : expandNodes (Generate heap Nonterminals fuel) mid stN = .ok st1) :
    st1.context.lookup N.name = some (Value.str text)
      ∧ expandNodes (Generate heap Nonterminals fuel)
          (pre ++ Node.nonterminal N :: (mid ++ Node.terminal L :: post)) st
        = match L.generator st1.context with
          | none => .error .leafPanic
          | some (valstr, c1) =>
            expandNodes (Generate heap Nonterminals fuel) post
              { st1 with context := c1, terms := st1.terms ++ [valstr] } := by
  constructor
  · obtain ⟨hk, -⟩ := expandNodes_keeps _ N.name mid stN st1 hmid h1
    rw [hk]
    simp only [expandNode, expandNonTerminal, hN, Except.ok.injEq] at hNst
    subst hNst
    exact AList.lookup_insert _
  · rw [expandNodes_append, h0]
    simp only [expandNodes, hNst]
    rw [expandNodes_append, h1]
    simp only [expandNodes, expandNode]
    cases L.generator st1.context with
    | none => rfl
    | some p => rfl

/-- C4, witness: `A : N M L .`, `M : N | "m" .`, `N : "n" .` with a source that makes `M`
draw its second alternative.  The nonterminal `M` lies between `N` and `L`; in this
expansion it returns with `N` bound as before, the leaf `L` is reached with `N = "n"`,
and `Generate` returns `"nmn"`. -/
theorem sibling_binding_visible_witness :
    Generate heapNMm tableNMm 3 ∅ (constRand 1) (mkNT "A" 0) = .ok ("nmn", ∅, constRand 1)
      ∧ stateNMmL.context.lookup "N" = some (Value.str "n")
      ∧ expandNodes (Generate heapNMm tableNMm 2)
          ([] ++ Node.nonterminal (mkNT "N" 2)
            :: ([Node.nonterminal (mkNT "M" 1)] ++ Node.terminal (probe "N") :: []))
          (initState ∅ ∅ (constRand 1) [Node.nonterminal (mkNT "N" 2),
            Node.nonterminal (mkNT "M" 1), Node.terminal (probe "N")])
        = match (probe "N").generator stateNMmL.context with
          | none => .error .leafPanic
          | some (valstr, c1) =>
            expandNodes (Generate heapNMm tableNMm 2) []
              { stateNMmL with context := c1, terms := stateNMmL.terms ++ [valstr] } :=
  ⟨by rfl,
   sibling_binding_visible heapNMm tableNMm 2 [] [Node.nonterminal (mkNT "M" 1)] []
    (mkNT "N" 2) (probe "N") _ _ stateNMmN stateNMmL "n" ∅ (constRand 1)
    (by rfl) (by rfl) (by rfl)
    ⟨⟨by decide, fun s c1 r1 hg => by
        have e : Generate heapNMm tableNMm 2 stateNMmN.context stateNMmN.Rnd (mkNT "M" 1)
            = .ok ("m", bind1 "N" "n", constRand 1) := by rfl
        have e1 := e.symm.trans hg
        simp only [Except.ok.injEq, Prod.mk.injEq] at e1
        rw [← e1.2.1]
        rfl⟩,
     fun _ _ => trivial⟩
    (by rfl)⟩

/-- C4, counterexample. In `A : N M L .`, `M : N .`, `N : "n" .` the nonterminal `N`
occurs before the leaf `L` in the rule of `A` and expands to `"n"`, but `M`, which lies
between them, expands `N` itself and deletes the binding of `N` when it returns: the loop
reaches `L` in a state whose context has no binding for `N`, and `Generate` returns
`"nn<none>"`, the last part being what `L` reports of the binding of `N`. -/
theorem sibling_binding_lost :
    Generate heapNML tableNML 2 (initState ∅ ∅ (constRand 0) []).context (constRand 0)
        (mkNT "N" 2) = .ok ("n", ∅, constRand 0)
      ∧ expandNodes (Generate heapNML tableNML 2)
          [Node.nonterminal (mkNT "N" 2), Node.nonterminal (mkNT "M" 1)]
          (initState ∅ ∅ (constRand 0) [Node.nonterminal (mkNT "N" 2),
            Node.nonterminal (mkNT "M" 1), Node.terminal (probe "N")])
        = .ok stateNML
      ∧ stateNML.context.lookup "N" = none
      ∧ Generate heapNML tableNML 3 ∅ (constRand 0) (mkNT "A" 0)
        = .ok ("nn<none>", ∅, constRand 0) :=
  ⟨by rfl, by rfl, by rfl, by rfl⟩

/-- C5 (as amended). Let the symbol table entry of `nt`'s name, from which `Generate`
takes the default context of `nt`, bind `k` to `v`, let the selected rule be
`pre ++ L :: post` with `L` a leaf, and let no node of `pre` remove or change the
binding of `k` in this expansion (each is a leaf whose generator returns with `k` bound
as it found it, or a nonterminal of another name whose expansion returns with `k` bound
as before).  Whatever the initial context binds `k` to, the loop reaches `L` in a state
`st1` whose context binds `k` to `v`, and `Generate` invokes `L`'s generator with that
context. -/
theorem default_binding_visible (heap : Heap) (Nonterminals : Table) (fuel : Nat)
    (context : Context) (Rnd Rnd0 : Rand) (nt : NonTerminal) (i : Nat)
    (pre post : List Node) (L : Terminal) (k : String) (v : Value) (st1 : LoopState)
    (hi : Rnd.Intn (heap.rules nt.any).length = some (i, Rnd0))
    (hr : (heap.rules nt.any)[i]? = some (pre ++ Node.terminal L :: post))
    (hk : (Nonterminals.get nt.name).context.lookup k = some v)
    (hpre : KeepsAlong (Generate heap Nonterminals fuel) k pre
        (initState (Nonterminals.get nt.name).context context Rnd0
          (pre ++ Node.terminal L :: post)))
    (h1 : expandNodes (Generate heap Nonterminals fuel) pre
        (initState (Nonterminals.get nt.name).context context Rnd0
          (pre ++ Node.terminal L :: post)) = .ok st1) :
    st1.context.lookup k = some v
      ∧ Generate heap Nonterminals (fuel + 1) context Rnd nt
        = match L.generator st1.context with
          | none => .error .leafPanic
          | some (valstr, c1) =>
            match expandNodes (Generate heap Nonterminals fuel) post
                { st1 with context := c1, terms := st1.terms ++ [valstr] } with
            | .error e => .error e
            | .ok st => .ok (finish (Nonterminals.get nt.name).context st) := by
  constructor
  · obtain ⟨h2, -⟩ := expandNodes_keeps _ k pre _ st1 hpre h1
    rw [h2]
    exact lookup_mergeDefaults_of_mem k v _ _ hk
  · simp only [Generate, hi, hr]
    rw [expandNodes_append, h1]
    simp only [expandNodes, expandNode]
    cases L.generator st1.context with
    | none => rfl
    | some p => rfl

/-- C5, witness: `A : M L .`, `M : B | "m" .`, `B : "y" .` with default contexts
`v = "1"` for `A` and `v = "2"` for `B`, called with `v = "0"` and a source that makes
`M` draw its second alternative.  The nonterminal `M` comes before `L`; in this expansion
it returns with `v` bound as before, the leaf `L` is reached with `v = "1"`, and
`Generate` returns `"m1"`. -/
theorem default_binding_visible_witness :
    Generate heapVMm tableVMm 2 (bind1 "v" "0") (constRand 1) (mkNT "A" 0 (bind1 "v" "1"))
        = .ok ("m1", ∅, constRand 1)
      ∧ stateVMm.context.lookup "v" = some (Value.str "1")
      ∧ Generate heapVMm tableVMm (1 + 1) (bind1 "v" "0") (constRand 1)
          (mkNT "A" 0 (bind1 "v" "1"))
        = match (probe "v").generator stateVMm.context with
          | none => .error .leafPanic
          | some (valstr, c1) =>
            match expandNodes (Generate heapVMm tableVMm 1) []
                { stateVMm with context := c1, terms := stateVMm.terms ++ [valstr] } with
            | .error e => .error e
            | .ok st => .ok (finish (tableVMm.get (mkNT "A" 0 (bind1 "v" "1")).name).context st) :=
  ⟨by rfl,
   default_binding_visible heapVMm tableVMm 1 (bind1 "v" "0") (constRand 1) (constRand 1)
    (mkNT "A" 0 (bind1 "v" "1")) 0 [Node.nonterminal (mkNT "M" 1)] [] (probe "v") "v"
    (Value.str "1") stateVMm (by rfl) (by rfl) (by rfl)
    ⟨⟨by decide, fun s c1 r1 hg => by
        have e : Generate heapVMm tableVMm 1
            (initState (tableVMm.get (mkNT "A" 0 (bind1 "v" "1")).name).context
              (bind1 "v" "0") (constRand 1)
              ([Node.nonterminal (mkNT "M" 1)] ++ Node.terminal (probe "v") :: [])).context
            (constRand 1) (mkNT "M" 1)
            = .ok ("m", bind1 "v" "1", constRand 1) := by rfl
        have e1 := e.symm.trans hg
        simp only [Except.ok.injEq, Prod.mk.injEq] at e1
        rw [← e1.2.1]
        rfl⟩,
     fun _ _ => trivial⟩
    (by rfl)⟩

/-- C5, counterexample. In `A : B L .`, `B : "y" .` with default contexts `v = "1"` for
`A` and `v = "2"` for `B`, the default context of `A` binds `v` to `"1"`, but `B`, which
is expanded before the leaf `L`, deletes `v` when it returns: the loop of `A` reaches `L`
in a state whose context has no binding for `v`, and `Generate` returns `"y<none>"`, the
last part being what `L` reports of the binding of `v`. -/
theorem default_binding_lost :
    (tableVB.get "A").context.lookup "v" = some (Value.str "1")
      ∧ expandNodes (Generate heapVB tableVB 1) [Node.nonterminal (mkNT "B" 1 (bind1 "v" "2"))]
          (initState (tableVB.get "A").context ∅ (constRand 0)
            [Node.nonterminal (mkNT "B" 1 (bind1 "v" "2")), Node.terminal (probe "v")])
        = .ok stateVB
      ∧ stateVB.context.lookup "v" = none
      ∧ Generate heapVB tableVB 2 ∅ (constRand 0) (mkNT "A" 0 (bind1 "v" "1"))
        = .ok ("y<none>", ∅, constRand 0) :=
  ⟨by rfl, by rfl, by rfl, by rfl⟩

/-! ## Parser: rule delimiters -/

/-- The rule loop after `k` well-formed rules, each ended by `;`: a next token that is
neither `:` nor `|` makes the loop fail, with the fatal error of line 98 as long as the
`k` rules fit into the room that is left. -/
theorem parseRulesLoop_delimiter (reg : Registries) (k : Nat) :
    ∀ (cap : Nat) (any : List (List Node)) (S S1 : Scanner),
      afterRules reg k S = some S1 → (Token S1).1 ≠ ":" → (Token S1).1 ≠ "|" →
      ∃ e, parseRulesLoop reg cap any S = .error e
        ∧ (k ≤ cap → e = .exit "A rule should begin with : or |\n") := by
  induction k with
  | zero =>
    intro cap any S S1 hk h1 h2
    simp only [afterRules, Option.some.injEq] at hk
    subst hk
    refine ⟨_, ?_, fun _ => rfl⟩
    unfold parseRulesLoop
    rw [if_pos ⟨h1, h2⟩]
  | succ n ih =>
    intro cap any S S1 hk h1 h2
    simp only [afterRules] at hk
    split at hk
    · rename_i htok
      have hcond : ¬ ((Token S).1 ≠ ":" ∧ (Token S).1 ≠ "|") := by
        rintro ⟨ha, hb⟩
        rcases htok with h | h
        · exact ha h
        · exact hb h
      split at hk
      · rename_i nodes S2 hn
        cases cap with
        | zero =>
          refine ⟨.indexOutOfRange, ?_, fun h => absurd h (by omega)⟩
          unfold parseRulesLoop
          rw [if_neg hcond, hn]
        | succ c =>
          obtain ⟨e, he, hmsg⟩ := ih c (any ++ [nodes]) S2 S1 hk h1 h2
          refine ⟨e, ?_, fun h => hmsg (by omega)⟩
          unfold parseRulesLoop
          rw [if_neg hcond, hn]
          simpa using he
      · simp at hk
    · simp at hk

/-- C9 (as amended). Every rule of a rule list, the first as well as a later one, must be
introduced by `:` or by `|`, and either token is accepted at either place.  For every
token stream that starts with `k` rules, each introduced by `:` or `|` and ended by `;`
(`k = 0` for the first rule), and goes on with a token that is neither `:` nor `|`,
`parseRules` fails; when the `k` rules fit into the 100 slots of the parser, it fails
with the fatal error "A rule should begin with : or |". -/
theorem parseRules_delimiter (reg : Registries) (k : Nat) (S S1 : Scanner) (heap : Heap)
    (ntname : String) (hk : afterRules reg k S = some S1)
    (h1 : (Token S1).1 ≠ ":") (h2 : (Token S1).1 ≠ "|") :
    ∃ e, parseRules reg S heap ntname = .error e
      ∧ (k ≤ 100 → e = .exit "A rule should begin with : or |\n") := by
  obtain ⟨e, he, hmsg⟩ := parseRulesLoop_delimiter reg k 100 [] S S1 hk h1 h2
  exact ⟨e, by simp only [parseRules, he], hmsg⟩

/-- C9, witness: in `"x" .` the first rule starts with a string, in `: "x" ; "y" .` the
second rule does. -/
theorem parseRules_delimiter_witness :
    (∃ e, parseRules regStd streamNoColon [] "A" = .error e
        ∧ (0 ≤ 100 → e = .exit "A rule should begin with : or |\n"))
      ∧ afterRules regStd 1 streamSecondBad = some { toks := [strTok "y", punct "."] }
      ∧ ∃ e, parseRules regStd streamSecondBad [] "A" = .error e
          ∧ (1 ≤ 100 → e = .exit "A rule should begin with : or |\n") :=
  ⟨parseRules_delimiter regStd 0 streamNoColon streamNoColon [] "A" (by rfl) (by decide)
     (by decide),
   by rfl,
   parseRules_delimiter regStd 1 streamSecondBad { toks := [strTok "y", punct "."] } [] "A"
     (by rfl) (by decide) (by decide)⟩

/-- C9, counterexample. `parseRules` accepts the rule list `| "x" .`, whose first rule
is introduced by `|`, and the rule list `: "x" ; : "y" .`, whose second rule is
introduced by `:`. -/
theorem parseRules_accepts_either_delimiter :
    parseRules regStd streamBar [] "A"
        = .ok ({ name := "A", any := some 0, context := ∅, lrmax := 0 },
               { toks := [] }, [[[Node.terminal (lit "\"x\"")]]])
      ∧ parseRules regStd streamColons [] "A"
        = .ok ({ name := "A", any := some 0, context := ∅, lrmax := 0 },
               { toks := [] },
               [[[Node.terminal (lit "\"x\"")], [Node.terminal (lit "\"y\"")]]]) :=
  ⟨by rfl, by rfl⟩

/-! ## Parser: the recursion-depth hint -/

/-- C10, the code at the failing inputs. For the grammar `A!3 : "x" .` the function
`parseNT` reads the hint 3, and for `A : "x" .` it reads the unset value -1; in both
cases the `NonTerminal` that `Parse` leaves in the symbol table under `A` has
`lrmax = 0`. -/
theorem Parse_stores_lrmax_zero :
    (parseNT streamHint).1 = ("A", 3)
      ∧ (∃ Nonterminals heap S1,
          Parse regStd noFloat streamHint = .ok ("A", Nonterminals, heap, S1)
          ∧ (Nonterminals.lookup "A").map (fun nt => (nt.name, nt.lrmax)) = some ("A", 0))
      ∧ (parseNT streamNoHint).1 = ("A", -1)
      ∧ (∃ Nonterminals heap S1,
          Parse regStd noFloat streamNoHint = .ok ("A", Nonterminals, heap, S1)
          ∧ (Nonterminals.lookup "A").map (fun nt => (nt.name, nt.lrmax)) = some ("A", 0)) :=
  ⟨by rfl, ⟨_, _, _, by rfl, by rfl⟩, by rfl, ⟨_, _, _, by rfl, by rfl⟩⟩

/-! ## Parser: what it hands to `buildAst` -/

theorem makeNode_kind (reg : Registries) (toktype tok : String) (S S1 : Scanner) (node : Node)
    (h : makeNode reg toktype tok S = .ok (node, S1)) : ∀ nd, node ≠ Node.nonterminal nd := by
  intro nd hnd
  subst hnd
  unfold makeNode at h
  repeat' split at h
  all_goals simp at h

theorem parseNodesLoop_kind (reg : Registries) (cap : Nat) :
    ∀ (all : List Node) (toktype tok : String) (S : Scanner) (nodes : List Node) (next : Bool)
      (S1 : Scanner), (∀ nd, Node.nonterminal nd ∉ all) →
      parseNodesLoop reg cap all toktype tok S = .ok (nodes, next, S1) →
      ∀ nd, Node.nonterminal nd ∉ nodes := by
  induction cap with
  | zero =>
    intro all toktype tok S nodes next S1 hall h
    rw [parseNodesLoop] at h
    split at h
    · split at h
      · simp at h
      · simp at h
    · simp only [Except.ok.injEq, Prod.mk.injEq] at h
      rw [← h.1]; exact hall
  | succ n ih =>
    intro all toktype tok S nodes next S1 hall h
    rw [parseNodesLoop] at h
    split at h
    · split at h
      · simp at h
      · rename_i node S2 hm
        refine ih _ _ _ _ _ _ _ ?_ h
        intro nd hnd
        rcases List.mem_append.mp hnd with h1 | h1
        · exact hall nd h1
        · simp only [List.mem_singleton] at h1
          exact makeNode_kind reg _ _ _ _ _ hm nd h1.symm
    · simp only [Except.ok.injEq, Prod.mk.injEq] at h
      rw [← h.1]; exact hall

theorem parseRulesLoop_kind (reg : Registries) (cap : Nat) :
    ∀ (any : List (List Node)) (S : Scanner) (any1 : List (List Node)) (S1 : Scanner),
      (∀ rule ∈ any, ∀ nd, Node.nonterminal nd ∉ rule) →
      parseRulesLoop reg cap any S = .ok (any1, S1) →
      ∀ rule ∈ any1, ∀ nd, Node.nonterminal nd ∉ rule := by
  induction cap with
  | zero =>
    intro any S any1 S1 hany h
    rw [parseRulesLoop] at h
    split at h
    · simp at h
    · split at h
      · simp at h
      · simp at h
  | succ n ih =>
    intro any S any1 S1 hany h
    rw [parseRulesLoop] at h
    split at h
    · simp at h
    · split at h
      · simp at h
      · rename_i nodes next S2 hn
        have hall : ∀ rule ∈ any ++ [nodes], ∀ nd, Node.nonterminal nd ∉ rule := by
          intro rule hrule
          rcases List.mem_append.mp hrule with h1 | h1
          · exact hany rule h1
          · simp only [List.mem_singleton] at h1
            subst h1
            exact parseNodesLoop_kind reg 100 [] _ _ _ _ _ _ (by simp) hn
        simp only [] at h
        split at h
        · exact ih _ _ _ _ hall h
        · simp only [Except.ok.injEq, Prod.mk.injEq] at h
          rw [← h.1]; exact hall

/-- What `parseRules` returns: a nonterminal of the given name with `lrmax = 0`, whose
rules are a new cell of the heap without `NonTerminal` nodes. -/
theorem parseRules_ok (reg : Registries) (S S1 : Scanner) (heap heap1 : Heap) (ntname : String)
    (nt : NonTerminal) (h : parseRules reg S heap ntname = .ok (nt, S1, heap1)) :
    nt.name = ntname ∧ nt.lrmax = 0 ∧ (Unresolved heap → Unresolved heap1) := by
  unfold parseRules at h
  split at h
  · simp at h
  · rename_i rules0 S2 hl
    simp only [Except.ok.injEq, Prod.mk.injEq] at h
    obtain ⟨hnt, -, hheap⟩ := h
    subst hnt hheap
    refine ⟨rfl, rfl, fun hu cell hcell => ?_⟩
    rcases List.mem_append.mp hcell with h1 | h1
    · exact hu cell h1
    · simp only [List.mem_singleton] at h1
      subst h1
      exact parseRulesLoop_kind reg 100 [] S _ S2 (by simp) hl

theorem mem_kreplace (a : String) (b : NonTerminal)
    (l : List (Sigma fun _ : String => NonTerminal)) (e : Sigma fun _ : String => NonTerminal)
    (h : e ∈ List.kreplace a b l) : e = ⟨a, b⟩ ∨ e ∈ l := by
  induction l with
  | nil => simp [List.kreplace] at h
  | cons x rest ih =>
    unfold List.kreplace at h ih
    by_cases hx : a = x.1
    · rw [List.lookmap_cons_some _ _ (by simp [hx] :
        (if a = x.1 then some (⟨a, b⟩ : Sigma fun _ : String => NonTerminal) else none)
          = some ⟨a, b⟩)] at h
      rcases List.mem_cons.mp h with h | h
      · exact Or.inl h
      · exact Or.inr (List.mem_cons_of_mem _ h)
    · rw [List.lookmap_cons_none _ _ (by simp [hx])] at h
      rcases List.mem_cons.mp h with h | h
      · exact Or.inr (h ▸ List.mem_cons_self _ _)
      · rcases ih h with h | h
        · exact Or.inl h
        · exact Or.inr (List.mem_cons_of_mem _ h)

theorem mem_insert_entries (Nonterminals : Table) (k : String) (v : NonTerminal)
    (e : Sigma fun _ : String => NonTerminal) (h : e ∈ (Nonterminals.insert k v).entries) :
    e = ⟨k, v⟩ ∨ e ∈ Nonterminals.entries := by
  rw [AList.insert_entries] at h
  rcases List.mem_cons.mp h with h | h
  · exact Or.inl h
  · exact Or.inr ((List.kerase_sublist k _).subset h)

theorem parseLoop_parsed (reg : Registries) (fuel : Nat) :
    ∀ (ntname : String) (lrmax : Int) (Nonterminals : Table) (heap : Heap) (S : Scanner)
      (ntname1 : String) (Nonterminals1 : Table) (heap1 : Heap) (S1 : Scanner),
      ParsedEntries Nonterminals → Unresolved heap →
      parseLoop reg fuel ntname lrmax Nonterminals heap S
        = .ok (ntname1, Nonterminals1, heap1, S1) →
      ParsedEntries Nonterminals1 ∧ Unresolved heap1 := by
  induction fuel with
  | zero => intro _ _ _ _ _ _ _ _ _ _ _ h; simp [parseLoop] at h
  | succ n ih =>
    intro ntname lrmax Nonterminals heap S ntname1 Nonterminals1 heap1 S1 hT hH h
    rw [parseLoop] at h
    split at h
    · simp only [Except.ok.injEq, Prod.mk.injEq] at h
      obtain ⟨-, h1, h2, -⟩ := h
      subst h1 h2
      exact ⟨hT, hH⟩
    · rename_i hne
      split at h
      · simp only [Except.ok.injEq, Prod.mk.injEq] at h
        obtain ⟨-, h1, h2, -⟩ := h
        subst h1 h2
        exact ⟨hT, hH⟩
      · split at h
        · simp at h
        · rename_i nt S2 heap2 hr
          obtain ⟨hname, hlr, hheap⟩ := parseRules_ok reg _ _ _ _ _ _ hr
          refine ih _ _ _ _ _ _ _ _ _ ?_ (hheap hH) h
          intro e he
          rcases mem_insert_entries _ _ _ _ he with h1 | h1
          · subst h1
            exact ⟨hname, hne, hlr⟩
          · exact hT e h1

theorem parseAssignments_parsed (ParseFloat : String → Nat) (fuel : Nat) :
    ∀ (nonterm : String) (Nonterminals : Table) (S : Scanner) (Nonterminals1 : Table)
      (S1 : Scanner), ParsedEntries Nonterminals →
      parseAssignments ParseFloat fuel nonterm Nonterminals S = .ok (Nonterminals1, S1) →
      ParsedEntries Nonterminals1 := by
  induction fuel with
  | zero => intro _ _ _ _ _ _ h; simp [parseAssignments] at h
  | succ n ih =>
    intro nonterm Nonterminals S Nonterminals1 S1 hT h
    rw [parseAssignments] at h
    simp only [] at h
    split at h
    · simp at h
    · split at h
      · simp at h
      · split at h
        · simp at h
        · rename_i value hv _ nt hl
          have hT1 : ParsedEntries (Nonterminals.replace nonterm
              { nt with context := nt.context.insert (Tokent S).1.2 value }) := by
            intro e he
            rcases mem_kreplace _ _ _ _ he with h1 | h1
            · subst h1
              exact hT ⟨nonterm, nt⟩ (AList.mem_lookup_iff.mp hl)
            · exact hT e h1
          split at h
          · simp only [Except.ok.injEq, Prod.mk.injEq] at h
            rw [← h.1]; exact hT1
          · exact ih _ _ _ _ _ hT1 h

theorem parseContextLoop_parsed (ParseFloat : String → Nat) (fuel : Nat) :
    ∀ (Nonterminals : Table) (S : Scanner) (Nonterminals1 : Table) (S1 : Scanner),
      ParsedEntries Nonterminals →
      parseContextLoop ParseFloat fuel Nonterminals S = .ok (Nonterminals1, S1) →
      ParsedEntries Nonterminals1 := by
  induction fuel with
  | zero => intro _ _ _ _ _ h; simp [parseContextLoop] at h
  | succ n ih =>
    intro Nonterminals S Nonterminals1 S1 hT h
    rw [parseContextLoop] at h
    simp only [] at h
    split at h
    · simp only [Except.ok.injEq, Prod.mk.injEq] at h
      rw [← h.1]; exact hT
    · split at h
      · simp at h
      · rename_i T2 S3 ha
        exact ih _ _ _ _ (parseAssignments_parsed ParseFloat _ _ _ _ _ _ hT ha) h

/-- The symbol table and the heap that the parser hands to `buildAst`: every entry is
stored under its own non-empty name and has `lrmax = 0`, and the rules hold leaves and
unresolved references only. -/
theorem parseGrammar_parsed (reg : Registries) (ParseFloat : String → Nat) (S S1 : Scanner)
    (start : String) (Nonterminals : Table) (heap : Heap)
    (h : parseGrammar reg ParseFloat S = .ok (start, Nonterminals, heap, S1)) :
    ParsedEntries Nonterminals ∧ Unresolved heap := by
  unfold parseGrammar at h
  simp only [] at h
  split at h
  · simp at h
  · rename_i ntname T0 heap0 S0 hl
    have h0 : ParsedEntries T0 ∧ Unresolved heap0 :=
      parseLoop_parsed reg _ _ _ _ _ _ _ _ _ _
        (by intro e he; simp at he) (by intro cell hc; simp at hc) hl
    split at h
    · split at h
      · simp at h
      · split at h
        · simp at h
        · rename_i T1 S2 hc
          simp only [Except.ok.injEq, Prod.mk.injEq] at h
          obtain ⟨-, h1, h2, -⟩ := h
          subst h1 h2
          exact ⟨parseContextLoop_parsed ParseFloat _ _ _ _ _ h0.1 hc, h0.2⟩
    · simp only [Except.ok.injEq, Prod.mk.injEq] at h
      obtain ⟨-, h1, h2, -⟩ := h
      subst h1 h2
      exact h0

/-! ## AST builder -/

/-- Resolving one node either stops with the fatal error for an undeclared reference, or
yields the resolved node. -/
theorem resolveNode_cases (Nonterminals : Table) (node : Node) :
    (∃ ref, node = .ref ref ∧ (Nonterminals.get ref).name = ""
        ∧ resolveNode Nonterminals node = .error (.exit ("Unknown reference " ++ ref ++ " \n")))
      ∨ (resolveNode Nonterminals node = .ok (resolved Nonterminals node)
        ∧ ∀ ref, node = .ref ref → (Nonterminals.get ref).name ≠ "") := by
  cases node with
  | terminal t => right; exact ⟨rfl, fun ref h => by simp at h⟩
  | nonterminal nd => right; exact ⟨rfl, fun ref h => by simp at h⟩
  | ref s =>
    by_cases hs : (Nonterminals.get s).name = ""
    · left; exact ⟨s, rfl, hs, by simp [resolveNode, hs]⟩
    · right
      refine ⟨by simp [resolveNode, hs, resolved], fun ref h => ?_⟩
      simp only [Node.ref.injEq] at h
      subst h; exact hs

theorem resolveRule_cases (Nonterminals : Table) (rule : List Node) :
    (∃ ref, Node.ref ref ∈ rule ∧ (Nonterminals.get ref).name = ""
        ∧ resolveRule Nonterminals rule = .error (.exit ("Unknown reference " ++ ref ++ " \n")))
      ∨ (resolveRule Nonterminals rule = .ok (rule.map (resolved Nonterminals))
        ∧ ∀ ref, Node.ref ref ∈ rule → (Nonterminals.get ref).name ≠ "") := by
  induction rule with
  | nil => right; exact ⟨rfl, fun ref h => by simp at h⟩
  | cons node rest ih =>
    rcases resolveNode_cases Nonterminals node with ⟨ref, hn, hu, he⟩ | ⟨hok, hk⟩
    · left
      exact ⟨ref, by simp [hn], hu, by simp [resolveRule, he]⟩
    · rcases ih with ⟨ref, hm, hu, he⟩ | ⟨hok1, hk1⟩
      · left
        exact ⟨ref, List.mem_cons_of_mem _ hm, hu, by simp [resolveRule, hok, he]⟩
      · right
        refine ⟨by simp [resolveRule, hok, hok1], fun ref h => ?_⟩
        rcases List.mem_cons.mp h with h1 | h1
        · exact hk ref h1.symm
        · exact hk1 ref h1

theorem resolveRules_cases (Nonterminals : Table) (rules : List (List Node)) :
    (∃ ref, (∃ rule ∈ rules, Node.ref ref ∈ rule) ∧ (Nonterminals.get ref).name = ""
        ∧ resolveRules Nonterminals rules
          = .error (.exit ("Unknown reference " ++ ref ++ " \n")))
      ∨ (resolveRules Nonterminals rules = .ok (rules.map (List.map (resolved Nonterminals)))
        ∧ ∀ rule ∈ rules, ∀ ref, Node.ref ref ∈ rule → (Nonterminals.get ref).name ≠ "") := by
  induction rules with
  | nil => right; exact ⟨rfl, fun rule h => by simp at h⟩
  | cons rule rest ih =>
    rcases resolveRule_cases Nonterminals rule with ⟨ref, hm, hu, he⟩ | ⟨hok, hk⟩
    · left
      exact ⟨ref, ⟨rule, List.mem_cons_self _ _, hm⟩, hu, by simp [resolveRules, he]⟩
    · rcases ih with ⟨ref, ⟨r, hr, hm⟩, hu, he⟩ | ⟨hok1, hk1⟩
      · left
        exact ⟨ref, ⟨r, List.mem_cons_of_mem _ hr, hm⟩, hu, by simp [resolveRules, hok, he]⟩
      · right
        refine ⟨by simp [resolveRules, hok, hok1], fun r h => ?_⟩
        rcases List.mem_cons.mp h with h1 | h1
        · subst h1; exact hk
        · exact hk1 r h1

theorem resolved_idem (Nonterminals : Table) (node : Node) :
    resolved Nonterminals (resolved Nonterminals node) = resolved Nonterminals node := by
  cases node <;> rfl

theorem resolved_map_idem (Nonterminals : Table) (rules : List (List Node)) :
    (rules.map (List.map (resolved Nonterminals))).map (List.map (resolved Nonterminals))
      = rules.map (List.map (resolved Nonterminals)) := by
  simp only [List.map_map]
  congr 1
  funext rule
  simp only [Function.comp, List.map_map]
  congr 1
  funext node
  exact resolved_idem Nonterminals node

theorem not_ref_mem_resolved (Nonterminals : Table) (rules : List (List Node))
    (rule : List Node) (hr : rule ∈ rules.map (List.map (resolved Nonterminals)))
    (ref : String) : Node.ref ref ∉ rule := by
  intro h
  obtain ⟨r0, -, rfl⟩ := List.mem_map.mp hr
  obtain ⟨n0, -, hn⟩ := List.mem_map.mp h
  cases n0 <;> simp [resolved] at hn

/-- Reading a cell of the heap after a cell was overwritten with the resolved form of
its content. -/
theorem rules_set_resolved (Nonterminals : Table) (heap : Heap) (a b : Nat) :
    Heap.rules (heap.set a ((heap.getD a []).map (List.map (resolved Nonterminals)))) (some b)
      = if b = a then (heap.rules (some b)).map (List.map (resolved Nonterminals))
        else heap.rules (some b) := by
  simp only [Heap.rules, List.getD_eq_getElem?_getD]
  by_cases hba : b = a
  · subst hba
    simp only [if_true]
    by_cases hlt : b < heap.length
    · simp [List.getElem?_set_self hlt, List.getElem?_eq_getElem hlt]
    · have hge : heap.length ≤ b := Nat.le_of_not_lt hlt
      have hset : (heap.set b ([] : List (List Node)))[b]? = none :=
        List.getElem?_eq_none (by simpa using hge)
      simp [List.getElem?_eq_none hge, hset]
  · simp only [if_neg hba]
    rw [List.getElem?_set_ne (Ne.symm hba)]

/-- One round of the outer loop of `buildAst`: it stops with the fatal error for an
undeclared reference of the nonterminal's rules, or it overwrites the nonterminal's cell
with the resolved form of its content and leaves the other cells alone. -/
theorem resolveNT_cases (Nonterminals : Table) (heap : Heap) (nt : NonTerminal) :
    (∃ ref, (∃ rule ∈ heap.rules nt.any, Node.ref ref ∈ rule)
        ∧ (Nonterminals.get ref).name = ""
        ∧ resolveNT Nonterminals heap nt
          = .error (.exit ("Unknown reference " ++ ref ++ " \n")))
      ∨ (∃ heap1, resolveNT Nonterminals heap nt = .ok heap1
        ∧ (∀ rule ∈ heap.rules nt.any, ∀ ref, Node.ref ref ∈ rule →
            (Nonterminals.get ref).name ≠ "")
        ∧ ∀ b, Heap.rules heap1 (some b)
            = if nt.any = some b
              then (heap.rules (some b)).map (List.map (resolved Nonterminals))
              else heap.rules (some b)) := by
  cases hany : nt.any with
  | none =>
    right
    exact ⟨heap, by simp [resolveNT, hany], fun rule h => by simp [Heap.rules] at h,
      fun b => by simp⟩
  | some a =>
    rcases resolveRules_cases Nonterminals (heap.getD a []) with ⟨ref, hm, hu, he⟩ | ⟨hok, hk⟩
    · left
      exact ⟨ref, hm, hu, by simp only [resolveNT, hany, he]⟩
    · right
      refine ⟨heap.set a ((heap.getD a []).map (List.map (resolved Nonterminals))),
        by simp only [resolveNT, hany, hok], hk, fun b => ?_⟩
      rw [rules_set_resolved]
      by_cases hba : b = a
      · simp [hba]
      · have : ¬ (a = b) := fun h => hba h.symm
        simp [hba, this]

/-- The outer loop of `buildAst` over the entries `es`: it stops with the fatal error for
an undeclared reference in a rule of one of the entries, or no entry has such a
reference and the loop ends with every cell of an entry in resolved form and every
other cell as it was. -/
theorem buildAstLoop_cases (Nonterminals : Table)
    (es : List (Sigma fun _ : String => NonTerminal)) :
    ∀ heap : Heap,
    (∃ ref, (∃ e ∈ es, ∃ rule ∈ heap.rules e.2.any, Node.ref ref ∈ rule)
        ∧ (Nonterminals.get ref).name = ""
        ∧ buildAstLoop Nonterminals es heap
          = .error (.exit ("Unknown reference " ++ ref ++ " \n")))
      ∨ (∃ heap1, buildAstLoop Nonterminals es heap = .ok heap1
        ∧ (∀ e ∈ es, ∀ rule ∈ heap.rules e.2.any, ∀ ref, Node.ref ref ∈ rule →
            (Nonterminals.get ref).name ≠ "")
        ∧ (∀ b, (∃ e ∈ es, e.2.any = some b) →
            Heap.rules heap1 (some b)
              = (heap.rules (some b)).map (List.map (resolved Nonterminals)))
        ∧ (∀ b, (¬ ∃ e ∈ es, e.2.any = some b) →
            Heap.rules heap1 (some b) = heap.rules (some b))) := by
  induction es with
  | nil =>
    intro heap
    right
    exact ⟨heap, rfl, fun e h => by simp at h, fun b h => by simp at h, fun b _ => rfl⟩
  | cons e rest ih =>
    intro heap
    rcases resolveNT_cases Nonterminals heap e.2 with ⟨ref, hm, hu, he⟩ | ⟨heap2, hok, hk, hc⟩
    · left
      exact ⟨ref, ⟨e, List.mem_cons_self _ _, hm⟩, hu, by simp [buildAstLoop, he]⟩
    · have hloop : buildAstLoop Nonterminals (e :: rest) heap
          = buildAstLoop Nonterminals rest heap2 := by
        simp only [buildAstLoop, hok]
      -- a rule of `heap2` that holds a reference is a rule of `heap` at the same address
      have hback : ∀ (any : Option Nat) (rule : List Node) (ref : String),
          rule ∈ Heap.rules heap2 any → Node.ref ref ∈ rule → rule ∈ heap.rules any := by
        intro any rule ref hr hm
        cases any with
        | none => simp [Heap.rules] at hr
        | some b =>
          rw [hc b] at hr
          split at hr
          · exact absurd hm (not_ref_mem_resolved Nonterminals _ rule hr ref)
          · exact hr
      rcases ih heap2 with ⟨ref, ⟨e1, he1, rule, hr, hm⟩, hu, he⟩ | ⟨heap1, hok1, hk1, hc1, hc2⟩
      · left
        exact ⟨ref, ⟨e1, List.mem_cons_of_mem _ he1, rule, hback _ rule ref hr hm, hm⟩, hu,
          by rw [hloop, he]⟩
      · right
        refine ⟨heap1, by rw [hloop, hok1], ?_, ?_, ?_⟩
        · intro e1 he1 rule hr ref hm
          rcases List.mem_cons.mp he1 with h1 | h1
          · subst h1; exact hk rule hr ref hm
          · cases hany : e1.2.any with
            | none => rw [hany] at hr; simp [Heap.rules] at hr
            | some b =>
              rw [hany] at hr
              by_cases hb : e.2.any = some b
              · exact hk rule (by rw [hb]; exact hr) ref hm
              · refine hk1 e1 h1 rule ?_ ref hm
                rw [hany, hc b, if_neg hb]; exact hr
        · intro b hb
          by_cases hrest : ∃ e1 ∈ rest, e1.2.any = some b
          · rw [hc1 b hrest, hc b]
            split
            · exact resolved_map_idem Nonterminals _
            · rfl
          · rw [hc2 b hrest, hc b]
            obtain ⟨e1, he1, h1⟩ := hb
            rcases List.mem_cons.mp he1 with h2 | h2
            · subst h2; rw [if_pos h1]
            · exact absurd ⟨e1, h2, h1⟩ hrest
        · intro b hb
          have hrest : ¬ ∃ e1 ∈ rest, e1.2.any = some b :=
            fun ⟨e1, he1, h1⟩ => hb ⟨e1, List.mem_cons_of_mem _ he1, h1⟩
          have he : ¬ e.2.any = some b := fun h1 => hb ⟨e, List.mem_cons_self _ _, h1⟩
          rw [hc2 b hrest, hc b, if_neg he]

/-- In a symbol table of the parser, the entry read for a name has an empty name exactly
when the name is not declared. -/
theorem get_name_eq_empty_iff (Nonterminals : Table) (hT : ParsedEntries Nonterminals)
    (ref : String) : (Nonterminals.get ref).name = "" ↔ Nonterminals.lookup ref = none := by
  unfold Table.get
  cases h : Nonterminals.lookup ref with
  | none => simp [NonTerminal.zero]
  | some nt =>
    have := hT ⟨ref, nt⟩ (AList.mem_lookup_iff.mp h)
    simp only [Option.getD_some, reduceCtorEq, iff_false]
    rw [this.1]; exact this.2.1

/-- C7. For every symbol table and heap that the parser hands to `buildAst`:
`buildAst` fails if and only if some rule of some nonterminal of the table holds a
reference whose name is not declared in the table; when it fails, the fatal error
reports such a name ("Unknown reference" followed by the name); and when it succeeds no
reference at all is left in the rules of the nonterminals of the table. -/
theorem buildAst_fails_iff_unknown (reg : Registries) (ParseFloat : String → Nat)
    (S S1 : Scanner) (start : String) (Nonterminals : Table) (heap : Heap)
    (hp : parseGrammar reg ParseFloat S = .ok (start, Nonterminals, heap, S1)) :
    ((∃ x, buildAst Nonterminals heap = .error x) ↔
        ∃ e ∈ Nonterminals.entries, ∃ rule ∈ heap.rules e.2.any, ∃ ref,
          Node.ref ref ∈ rule ∧ Nonterminals.lookup ref = none)
      ∧ (∀ x, buildAst Nonterminals heap = .error x →
          ∃ ref, x = .exit ("Unknown reference " ++ ref ++ " \n")
            ∧ Nonterminals.lookup ref = none
            ∧ ∃ e ∈ Nonterminals.entries, ∃ rule ∈ heap.rules e.2.any, Node.ref ref ∈ rule)
      ∧ (∀ heap1, buildAst Nonterminals heap = .ok heap1 →
          ∀ e ∈ Nonterminals.entries, ∀ rule ∈ Heap.rules heap1 e.2.any, ∀ ref,
            Node.ref ref ∉ rule) := by
  obtain ⟨hT, -⟩ := parseGrammar_parsed reg ParseFloat S S1 start Nonterminals heap hp
  unfold buildAst
  rcases buildAstLoop_cases Nonterminals Nonterminals.entries heap with
    ⟨ref, ⟨e, he, rule, hr, hm⟩, hu, herr⟩ | ⟨heap1, hok, hk, hc, -⟩
  · have hnone := (get_name_eq_empty_iff Nonterminals hT ref).mp hu
    refine ⟨⟨fun _ => ⟨e, he, rule, hr, ref, hm, hnone⟩, fun _ => ⟨_, herr⟩⟩, ?_, ?_⟩
    · intro x hx
      rw [herr] at hx
      simp only [Except.error.injEq] at hx
      exact ⟨ref, hx.symm, hnone, e, he, rule, hr, hm⟩
    · intro heap1 h1
      rw [herr] at h1
      simp at h1
  · refine ⟨⟨fun ⟨x, hx⟩ => by rw [hok] at hx; simp at hx, ?_⟩, ?_, ?_⟩
    · rintro ⟨e, he, rule, hr, ref, hm, hnone⟩
      exact absurd ((get_name_eq_empty_iff Nonterminals hT ref).mpr hnone) (hk e he rule hr ref hm)
    · intro x hx
      rw [hok] at hx
      simp at hx
    · intro heap2 h2 e he rule hr ref
      rw [hok] at h2
      simp only [Except.ok.injEq] at h2
      subst h2
      cases hany : e.2.any with
      | none => rw [hany] at hr; simp [Heap.rules] at hr
      | some b =>
        rw [hany, hc b ⟨e, he, hany⟩] at hr
        exact not_ref_mem_resolved Nonterminals _ rule hr ref

/-- C7, witness: in `A : "x" B .` the name `B` is not declared, and `buildAst` stops
with "Unknown reference B". -/
theorem buildAst_fails_iff_unknown_witness :
    buildAst tableDangling heapDangling = .error (.exit "Unknown reference B \n")
      ∧ ((∃ x, buildAst tableDangling heapDangling = .error x) ↔
        ∃ e ∈ tableDangling.entries, ∃ rule ∈ heapDangling.rules e.2.any, ∃ ref,
          Node.ref ref ∈ rule ∧ tableDangling.lookup ref = none)
      ∧ (∀ x, buildAst tableDangling heapDangling = .error x →
          ∃ ref, x = .exit ("Unknown reference " ++ ref ++ " \n")
            ∧ tableDangling.lookup ref = none
            ∧ ∃ e ∈ tableDangling.entries, ∃ rule ∈ heapDangling.rules e.2.any,
                Node.ref ref ∈ rule)
      ∧ (∀ heap1, buildAst tableDangling heapDangling = .ok heap1 →
          ∀ e ∈ tableDangling.entries, ∀ rule ∈ Heap.rules heap1 e.2.any, ∀ ref,
            Node.ref ref ∉ rule) :=
  ⟨by rfl,
   buildAst_fails_iff_unknown regStd noFloat streamDangling { toks := [], ch := none } "A"
     tableDangling heapDangling (by rfl)⟩

theorem forall2_resolved (Nonterminals : Table) (hT : ParsedEntries Nonterminals)
    (rules : List (List Node))
    (hk : ∀ rule ∈ rules, ∀ ref, Node.ref ref ∈ rule → (Nonterminals.get ref).name ≠ "") :
    List.Forall₂ (List.Forall₂ (Node.ResolvesTo Nonterminals)) rules
      (rules.map (List.map (resolved Nonterminals))) := by
  rw [List.forall₂_map_right_iff, List.forall₂_same]
  intro rule hrule
  rw [List.forall₂_map_right_iff, List.forall₂_same]
  intro node hnode
  cases node with
  | terminal t => rfl
  | nonterminal nd => rfl
  | ref s =>
    have hne := hk rule hrule s hnode
    cases hl : Nonterminals.lookup s with
    | none => exact absurd ((get_name_eq_empty_iff Nonterminals hT s).mpr hl) hne
    | some nd =>
      have := hT ⟨s, nd⟩ (AList.mem_lookup_iff.mp hl)
      exact ⟨nd, hl, this.1, by simp [resolved, Table.get, hl]⟩

/-- C8. After `buildAst` succeeds on the symbol table and heap that the parser hands to
it: the rule list of every nonterminal of the table has the rules it had, each with the
nodes it had in the same order, a leaf unchanged and a reference replaced by the
nonterminal the table declares under that name, whose name is the text of the
reference; and every node reachable from a rule of a nonterminal of the table is a leaf
or a nonterminal of the table, none is a reference. -/
theorem buildAst_resolves (reg : Registries) (ParseFloat : String → Nat)
    (S S1 : Scanner) (start : String) (Nonterminals : Table) (heap heap1 : Heap)
    (hp : parseGrammar reg ParseFloat S = .ok (start, Nonterminals, heap, S1))
    (hb : buildAst Nonterminals heap = .ok heap1) :
    (∀ e ∈ Nonterminals.entries,
        List.Forall₂ (List.Forall₂ (Node.ResolvesTo Nonterminals))
          (heap.rules e.2.any) (Heap.rules heap1 e.2.any))
      ∧ (∀ node, Reachable Nonterminals heap1 node →
          (∃ t, node = .terminal t)
            ∨ ∃ nd, node = .nonterminal nd ∧ Nonterminals.lookup nd.name = some nd)
      ∧ (∀ ref, ¬ Reachable Nonterminals heap1 (.ref ref)) := by
  obtain ⟨hT, hU⟩ := parseGrammar_parsed reg ParseFloat S S1 start Nonterminals heap hp
  unfold buildAst at hb
  rcases buildAstLoop_cases Nonterminals Nonterminals.entries heap with
    ⟨ref, -, -, herr⟩ | ⟨heap2, hok, hk, hc, -⟩
  · rw [herr] at hb; simp at hb
  rw [hok] at hb
  simp only [Except.ok.injEq] at hb
  subst hb
  have hrel : ∀ e ∈ Nonterminals.entries,
      List.Forall₂ (List.Forall₂ (Node.ResolvesTo Nonterminals))
        (heap.rules e.2.any) (Heap.rules heap2 e.2.any) := by
    intro e he
    cases hany : e.2.any with
    | none => simp [Heap.rules]
    | some b =>
      rw [hc b ⟨e, he, hany⟩]
      exact forall2_resolved Nonterminals hT _ (fun rule hr => hk e he rule (by rw [hany]; exact hr))
  -- the nodes of the rules of an entry
  have hcell : ∀ e ∈ Nonterminals.entries, ∀ rule ∈ Heap.rules heap2 e.2.any, ∀ node ∈ rule,
      (∃ t, node = .terminal t)
        ∨ ∃ nd, node = .nonterminal nd ∧ Nonterminals.lookup nd.name = some nd := by
    intro e he rule hr node hnode
    cases hany : e.2.any with
    | none => rw [hany] at hr; simp [Heap.rules] at hr
    | some b =>
      rw [hany, hc b ⟨e, he, hany⟩] at hr
      obtain ⟨rule0, hrule0, rfl⟩ := List.mem_map.mp hr
      obtain ⟨node0, hnode0, rfl⟩ := List.mem_map.mp hnode
      obtain ⟨cell, hcellmem, hrc⟩ := mem_heap_of_mem_rules heap (some b) rule0 hrule0
      cases node0 with
      | terminal t => exact Or.inl ⟨t, rfl⟩
      | nonterminal nd => exact absurd hnode0 (hU cell hcellmem rule0 hrc nd)
      | ref s =>
        right
        have hne := hk e he rule0 (by rw [hany]; exact hrule0) s hnode0
        cases hl : Nonterminals.lookup s with
        | none => exact absurd ((get_name_eq_empty_iff Nonterminals hT s).mpr hl) hne
        | some nd =>
          have := hT ⟨s, nd⟩ (AList.mem_lookup_iff.mp hl)
          refine ⟨nd, by simp [resolved, Table.get, hl], ?_⟩
          rw [this.1]; exact hl
  have hreach : ∀ node, Reachable Nonterminals heap2 node →
      (∃ t, node = .terminal t)
        ∨ ∃ nd, node = .nonterminal nd ∧ Nonterminals.lookup nd.name = some nd := by
    intro node h
    induction h with
    | root e rule node he hr hnode => exact hcell e he rule hr node hnode
    | step nd rule node _ hr hnode ih =>
      rcases ih with ⟨t, ht⟩ | ⟨nd1, hnd, hl⟩
      · simp at ht
      · simp only [Node.nonterminal.injEq] at hnd
        subst hnd
        exact hcell ⟨nd.name, nd⟩ (AList.mem_lookup_iff.mp hl) rule hr node hnode
  refine ⟨hrel, hreach, fun ref h => ?_⟩
  rcases hreach _ h with ⟨t, ht⟩ | ⟨nd, hnd, -⟩
  · simp at ht
  · simp at hnd

/-- C8, witness: the grammar `A : B "x" . B : A ; | "y" .`, with a forward reference
and mutual recursion. -/
theorem buildAst_resolves_witness :
    parseGrammar regStd noFloat streamMutual
        = .ok ("A", tableMutual, heapMutual, { toks := [], ch := none })
      ∧ buildAst tableMutual heapMutual = .ok heapMutualResolved
      ∧ (∀ e ∈ tableMutual.entries,
          List.Forall₂ (List.Forall₂ (Node.ResolvesTo tableMutual))
            (heapMutual.rules e.2.any) (Heap.rules heapMutualResolved e.2.any))
      ∧ (∀ node, Reachable tableMutual heapMutualResolved node →
          (∃ t, node = .terminal t)
            ∨ ∃ nd, node = .nonterminal nd ∧ tableMutual.lookup nd.name = some nd)
      ∧ (∀ ref, ¬ Reachable tableMutual heapMutualResolved (.ref ref)) :=
  ⟨by rfl, by rfl,
   buildAst_resolves regStd noFloat streamMutual { toks := [], ch := none } "A"
     tableMutual heapMutual heapMutualResolved (by rfl) (by rfl)⟩

/-! ## The budget of nested calls -/

theorem expandNonTerminal_mono (gen gen1 : Context → Rand → NonTerminal → GenResult)
    (hmono : ∀ c r nd res, gen c r nd = .ok res → gen1 c r nd = .ok res)
    (st st1 : LoopState) (nd : NonTerminal) (h : expandNonTerminal gen st nd = .ok st1) :
    expandNonTerminal gen1 st nd = .ok st1 := by
  unfold expandNonTerminal at h ⊢
  cases hg : gen st.context st.Rnd nd with
  | error e => simp [hg] at h
  | ok res =>
    rw [hmono _ _ _ _ hg]
    rw [hg] at h
    exact h

theorem expandNodes_mono (gen gen1 : Context → Rand → NonTerminal → GenResult)
    (hmono : ∀ c r nd res, gen c r nd = .ok res → gen1 c r nd = .ok res)
    (rule : List Node) : ∀ (st st1 : LoopState),
      expandNodes gen rule st = .ok st1 → expandNodes gen1 rule st = .ok st1 := by
  induction rule with
  | nil => intro st st1 h; exact h
  | cons node rest ih =>
    intro st st1 h
    simp only [expandNodes] at h ⊢
    cases hn : expandNode gen st node with
    | error e => simp [hn] at h
    | ok st2 =>
      have hn1 : expandNode gen1 st node = .ok st2 := by
        cases node with
        | terminal t => exact hn
        | nonterminal nd => exact expandNonTerminal_mono gen gen1 hmono st st2 nd hn
        | ref s => exact expandNonTerminal_mono gen gen1 hmono st st2 _ hn
      rw [hn] at h
      rw [hn1]
      exact ih st2 st1 h

/-- A call of `Generate` that returns within a budget of nested calls returns the same
with every larger budget: the budget only cuts off calls that nest deeper. -/
theorem Generate_fuel_mono (heap : Heap) (Nonterminals : Table) (fuel : Nat) :
    ∀ (fuel1 : Nat) (context : Context) (Rnd : Rand) (nt : NonTerminal)
      (res : String × Context × Rand), fuel ≤ fuel1 →
      Generate heap Nonterminals fuel context Rnd nt = .ok res →
      Generate heap Nonterminals fuel1 context Rnd nt = .ok res := by
  induction fuel with
  | zero => intro fuel1 context Rnd nt res _ h; simp [Generate] at h
  | succ n ih =>
    intro fuel1 context Rnd nt res hle h
    obtain ⟨m, rfl⟩ : ∃ m, fuel1 = m + 1 := ⟨fuel1 - 1, by omega⟩
    obtain ⟨i, Rnd0, rule, st, hi, hr, hl, hres⟩ :=
      Generate_ok_inv heap Nonterminals n context Rnd nt res h
    have hl1 := expandNodes_mono (Generate heap Nonterminals n) (Generate heap Nonterminals m)
      (fun c r nd res1 hg => ih m c r nd res1 (by omega) hg) rule _ st hl
    simp only [Generate, hi, hr, hl1, hres]

/-! ## Parser: the stored recursion-depth hint -/

/-- Every nonterminal that `Parse` leaves in the symbol table has `lrmax = 0`, whatever
its header. -/
theorem Parse_lrmax (reg : Registries) (ParseFloat : String → Nat) (S S1 : Scanner)
    (start : String) (Nonterminals : Table) (heap : Heap)
    (h : Parse reg ParseFloat S = .ok (start, Nonterminals, heap, S1)) :
    ∀ name nt, Nonterminals.lookup name = some nt → nt.lrmax = 0 := by
  unfold Parse at h
  split at h
  · simp at h
  · rename_i start0 T0 heap0 S0 hg
    split at h
    · simp at h
    · simp only [Except.ok.injEq, Prod.mk.injEq] at h
      obtain ⟨-, hT, -, -⟩ := h
      subst hT
      obtain ⟨hp, -⟩ := parseGrammar_parsed reg ParseFloat S S0 start0 T0 heap0 hg
      intro name nt hl
      exact (hp ⟨name, nt⟩ (AList.mem_lookup_iff.mp hl)).2.2

/-! ## Parser: the budget of rounds is never exhausted -/

theorem Scan_length_le (S : Scanner) : S.Scan.2.toks.length ≤ S.toks.length := by
  unfold Scanner.Scan
  cases S.toks with
  | nil => simp
  | cons t rest => simp

theorem Scan_length_lt (S : Scanner) (h : S.Scan.1.text ≠ "") :
    S.Scan.2.toks.length < S.toks.length := by
  unfold Scanner.Scan at h ⊢
  cases hS : S.toks with
  | nil => simp [hS] at h
  | cons t rest => simp

theorem Scan_length_lt_of_toktype (S : Scanner) (h : S.Scan.1.toktype = "Ident") :
    S.Scan.2.toks.length < S.toks.length := by
  unfold Scanner.Scan at h ⊢
  cases hS : S.toks with
  | nil => simp [hS] at h
  | cons t rest => simp

theorem skip_length_le (n : Nat) : ∀ S : Scanner, (S.skip n).toks.length ≤ S.toks.length := by
  induction n with
  | zero => intro S; exact Nat.le_refl _
  | succ m ih => intro S; exact Nat.le_trans (ih _) (Scan_length_le S)

theorem Token_length_le (S : Scanner) : (Token S).2.toks.length ≤ S.toks.length :=
  Scan_length_le S

theorem Tokent_length_le (S : Scanner) : (Tokent S).2.toks.length ≤ S.toks.length :=
  Scan_length_le S

theorem makeNode_length_le (reg : Registries) (toktype tok : String) (S S1 : Scanner)
    (node : Node) (h : makeNode reg toktype tok S = .ok (node, S1)) :
    S1.toks.length ≤ S.toks.length := by
  unfold makeNode at h
  repeat' split at h
  all_goals simp only [Except.ok.injEq, Prod.mk.injEq, reduceCtorEq] at h
  all_goals
    rw [← h.2]
    first
      | done
      | exact skip_length_le _ _
      | exact Token_length_le _

theorem parseNodesLoop_length_le (reg : Registries) (cap : Nat) :
    ∀ (all : List Node) (toktype tok : String) (S : Scanner) (nodes : List Node) (next : Bool)
      (S1 : Scanner), parseNodesLoop reg cap all toktype tok S = .ok (nodes, next, S1) →
      S1.toks.length ≤ S.toks.length := by
  induction cap with
  | zero =>
    intro all toktype tok S nodes next S1 h
    rw [parseNodesLoop] at h
    split at h
    · split at h
      · simp at h
      · simp at h
    · simp only [Except.ok.injEq, Prod.mk.injEq] at h
      rw [← h.2.2]
  | succ n ih =>
    intro all toktype tok S nodes next S1 h
    rw [parseNodesLoop] at h
    split at h
    · split at h
      · simp at h
      · rename_i node S2 hm
        exact Nat.le_trans (ih _ _ _ _ _ _ _ h)
          (Nat.le_trans (Tokent_length_le _) (makeNode_length_le reg _ _ _ _ _ hm))
    · simp only [Except.ok.injEq, Prod.mk.injEq] at h
      rw [← h.2.2]

theorem parseNodes_length_le (reg : Registries) (S S1 : Scanner) (nodes : List Node)
    (next : Bool) (h : parseNodes reg S = .ok (nodes, next, S1)) :
    S1.toks.length ≤ S.toks.length :=
  Nat.le_trans (parseNodesLoop_length_le reg 100 _ _ _ _ _ _ _ h) (Tokent_length_le S)

theorem parseRulesLoop_length_lt (reg : Registries) (cap : Nat) :
    ∀ (any : List (List Node)) (S : Scanner) (any1 : List (List Node)) (S1 : Scanner),
      parseRulesLoop reg cap any S = .ok (any1, S1) → S1.toks.length < S.toks.length := by
  induction cap with
  | zero =>
    intro any S any1 S1 h
    rw [parseRulesLoop] at h
    split at h
    · simp at h
    · split at h
      · simp at h
      · simp at h
  | succ n ih =>
    intro any S any1 S1 h
    rw [parseRulesLoop] at h
    split at h
    · simp at h
    · rename_i hcond
      have htok : (Token S).1 ≠ "" := by
        intro h0
        apply hcond
        rw [h0]
        exact ⟨by decide, by decide⟩
      have hlt : (Token S).2.toks.length < S.toks.length := Scan_length_lt S htok
      split at h
      · simp at h
      · rename_i nodes next S2 hn
        have hle := parseNodes_length_le reg _ _ _ _ hn
        simp only [] at h
        split at h
        · exact Nat.lt_trans (ih _ _ _ _ h) (Nat.lt_of_le_of_lt hle hlt)
        · simp only [Except.ok.injEq, Prod.mk.injEq] at h
          rw [← h.2]
          exact Nat.lt_of_le_of_lt hle hlt

theorem parseNT_length_le (S : Scanner) : (parseNT S).2.toks.length ≤ S.toks.length := by
  unfold parseNT
  simp only []
  split
  · exact Nat.le_trans (Token_length_le _) (Nat.le_trans (Token_length_le _) (Tokent_length_le S))
  · exact Tokent_length_le S

theorem makeNode_budget (reg : Registries) (toktype tok : String) (S : Scanner) :
    makeNode reg toktype tok S ≠ .error .outOfFuel := by
  intro h
  unfold makeNode at h
  repeat' split at h
  all_goals simp at h

theorem parseNodesLoop_budget (reg : Registries) (cap : Nat) :
    ∀ (all : List Node) (toktype tok : String) (S : Scanner),
      parseNodesLoop reg cap all toktype tok S ≠ .error .outOfFuel := by
  induction cap with
  | zero =>
    intro all toktype tok S h
    rw [parseNodesLoop] at h
    split at h
    · split at h
      · rename_i e hm
        simp only [Except.error.injEq] at h
        subst h
        exact makeNode_budget reg _ _ _ hm
      · simp at h
    · simp at h
  | succ n ih =>
    intro all toktype tok S h
    rw [parseNodesLoop] at h
    split at h
    · split at h
      · rename_i e hm
        simp only [Except.error.injEq] at h
        subst h
        exact makeNode_budget reg _ _ _ hm
      · exact ih _ _ _ _ h
    · simp at h

theorem parseRulesLoop_budget (reg : Registries) (cap : Nat) :
    ∀ (any : List (List Node)) (S : Scanner),
      parseRulesLoop reg cap any S ≠ .error .outOfFuel := by
  induction cap with
  | zero =>
    intro any S h
    rw [parseRulesLoop] at h
    split at h
    · simp at h
    · split at h
      · rename_i e hn
        simp only [Except.error.injEq] at h
        subst h
        exact parseNodesLoop_budget reg 100 _ _ _ _ hn
      · simp at h
  | succ n ih =>
    intro any S h
    rw [parseRulesLoop] at h
    split at h
    · simp at h
    · split at h
      · rename_i e hn
        simp only [Except.error.injEq] at h
        subst h
        exact parseNodesLoop_budget reg 100 _ _ _ _ hn
      · simp only [] at h
        split at h
        · exact ih _ _ h
        · simp at h

/-- The loop of `Parse` ends within as many rounds as there are tokens, plus one: the
budget of rounds is never what stops it. -/
theorem parseLoop_budget (reg : Registries) (fuel : Nat) :
    ∀ (ntname : String) (lrmax : Int) (Nonterminals : Table) (heap : Heap) (S : Scanner),
      S.toks.length < fuel →
      parseLoop reg fuel ntname lrmax Nonterminals heap S ≠ .error .outOfFuel := by
  induction fuel with
  | zero => intro _ _ _ _ S h; exact absurd h (Nat.not_lt_zero _)
  | succ n ih =>
    intro ntname lrmax Nonterminals heap S hlt
    rw [parseLoop]
    split
    · simp
    · split
      · simp
      · split
        · rename_i e hr
          unfold parseRules at hr
          split at hr
          · rename_i e1 hl
            simp only [Except.error.injEq] at hr
            subst hr
            intro he
            simp only [Except.error.injEq] at he
            subst he
            exact parseRulesLoop_budget reg 100 [] S hl
          · simp at hr
        · rename_i nt S2 heap2 hr
          apply ih
          have h2 : S2.toks.length < S.toks.length := by
            unfold parseRules at hr
            split at hr
            · simp at hr
            · rename_i any0 S3 hl
              simp only [Except.ok.injEq, Prod.mk.injEq] at hr
              rw [← hr.2.1]
              exact parseRulesLoop_length_lt reg 100 [] S _ S3 hl
          have h3 := parseNT_length_le S2
          omega

theorem Tokent_length_lt_of_text (S : Scanner) (h : (Tokent S).1.2 ≠ "") :
    (Tokent S).2.toks.length < S.toks.length :=
  Scan_length_lt S h

theorem Tokent_length_lt_of_toktype (S : Scanner) (h : (Tokent S).1.1 = "Ident") :
    (Tokent S).2.toks.length < S.toks.length :=
  Scan_length_lt_of_toktype S h

/-- Two tokens read, of which the first is an identifier or the second has the text
`tok`: the scanner has advanced. -/
theorem two_tokens_advance (S : Scanner) (tok : String) (htok : tok ≠ "")
    (h : ¬ ((Tokent S).1.1 ≠ "Ident" ∧ (Tokent (Tokent S).2).1.2 ≠ tok)) :
    (Tokent (Tokent S).2).2.toks.length < S.toks.length := by
  by_cases h1 : (Tokent S).1.1 = "Ident"
  · exact Nat.lt_of_le_of_lt (Tokent_length_le _) (Tokent_length_lt_of_toktype S h1)
  · have h2 : (Tokent (Tokent S).2).1.2 = tok := by
      by_contra h2
      exact h ⟨h1, h2⟩
    have h3 : (Tokent (Tokent S).2).1.2 ≠ "" := by rw [h2]; exact htok
    exact Nat.lt_of_lt_of_le (Tokent_length_lt_of_text _ h3) (Tokent_length_le S)

theorem contextValue_budget (ParseFloat : String → Nat) (toktype3 tok3 : String) :
    contextValue ParseFloat toktype3 tok3 ≠ .error .outOfFuel := by
  unfold contextValue
  repeat' split
  all_goals simp

/-- The inner loop of `parseContext` ends within as many rounds as there are tokens,
plus one, and hands back a scanner that has not gone backwards. -/
theorem parseAssignments_budget (ParseFloat : String → Nat) (fuel : Nat) :
    ∀ (nonterm : String) (Nonterminals : Table) (S : Scanner), S.toks.length < fuel →
      parseAssignments ParseFloat fuel nonterm Nonterminals S ≠ .error .outOfFuel
        ∧ ∀ Nonterminals1 S1,
            parseAssignments ParseFloat fuel nonterm Nonterminals S = .ok (Nonterminals1, S1) →
            S1.toks.length ≤ S.toks.length := by
  induction fuel with
  | zero => intro _ _ S h; exact absurd h (Nat.not_lt_zero _)
  | succ n ih =>
    intro nonterm Nonterminals S hlt
    rw [parseAssignments]
    simp only []
    split
    · exact ⟨by simp, fun _ _ h => by simp at h⟩
    · rename_i hcond
      have hadv := two_tokens_advance S "=" (by decide) hcond
      have h4 : (Tokent (Tokent (Tokent (Tokent S).2).2).2).2.toks.length < S.toks.length :=
        Nat.lt_of_le_of_lt (Nat.le_trans (Tokent_length_le _) (Tokent_length_le _)) hadv
      split
      · rename_i e hv
        refine ⟨?_, fun _ _ h => by simp at h⟩
        intro he
        simp only [Except.error.injEq] at he
        subst he
        exact contextValue_budget ParseFloat _ _ hv
      · split
        · exact ⟨by simp, fun _ _ h => by simp at h⟩
        · split
          · refine ⟨by simp, fun T1 S1 h => ?_⟩
            simp only [Except.ok.injEq, Prod.mk.injEq] at h
            rw [← h.2]
            exact Nat.le_of_lt h4
          · obtain ⟨hb, hle⟩ := ih nonterm _ _ (by omega :
              (Tokent (Tokent (Tokent (Tokent S).2).2).2).2.toks.length < n)
            exact ⟨hb, fun T1 S1 h => Nat.le_trans (hle T1 S1 h) (Nat.le_of_lt h4)⟩

/-- The outer loop of `parseContext` ends within as many rounds as there are tokens,
plus one. -/
theorem parseContextLoop_budget (ParseFloat : String → Nat) (fuel : Nat) :
    ∀ (Nonterminals : Table) (S : Scanner), S.toks.length < fuel →
      parseContextLoop ParseFloat fuel Nonterminals S ≠ .error .outOfFuel := by
  induction fuel with
  | zero => intro _ S h; exact absurd h (Nat.not_lt_zero _)
  | succ n ih =>
    intro Nonterminals S hlt
    rw [parseContextLoop]
    simp only []
    split
    · simp
    · rename_i hcond
      have hadv := two_tokens_advance S ":" (by decide) hcond
      obtain ⟨hb, hle⟩ := parseAssignments_budget ParseFloat
        ((Tokent (Tokent S).2).2.toks.length + 1) (Tokent S).1.2 Nonterminals
        (Tokent (Tokent S).2).2 (Nat.lt_succ_self _)
      split
      · rename_i e ha
        intro he
        simp only [Except.error.injEq] at he
        subst he
        exact hb ha
      · rename_i T1 S3 ha
        have := hle T1 S3 ha
        exact ih _ _ (by omega)

/-- The budgets of rounds in the embedding of the parser are never what stops it: every
run of the Go parser on a finite token stream is a run of `parseGrammar`. -/
theorem parseGrammar_budget (reg : Registries) (ParseFloat : String → Nat) (S : Scanner) :
    parseGrammar reg ParseFloat S ≠ .error .outOfFuel := by
  unfold parseGrammar
  simp only []
  split
  · rename_i e hl
    intro he
    simp only [Except.error.injEq] at he
    subst he
    exact parseLoop_budget reg _ _ _ _ _ _ (Nat.lt_succ_self _) hl
  · split
    · split
      · simp
      · split
        · rename_i e hc
          intro he
          simp only [Except.error.injEq] at he
          subst he
          exact parseContextLoop_budget ParseFloat _ _ _ (Nat.lt_succ_self _) hc
        · simp
    · simp

/-! ## Parser: node resolution priority -/

/-- C11. For every token `(toktype, tok)` inside a rule and every content of the three
registries, the node that the loop of `parseNodes` stores for the token is built by the
first applicable case, in this order: the `Literals` constructor registered for the
category, called with the text; else the `Terminals` constructor registered for the
text; else the `Bnfs` constructor registered for the text, called with the parser state;
else, for the text `$`, the `Reference` constructor of `Literals` applied to the text of
the following token; else the raw text as an unresolved reference. -/
theorem parseNodes_priority (reg : Registries) (cap : Nat) (all : List Node)
    (toktype tok : String) (S : Scanner)
    (hin : tok ≠ "." ∧ tok ≠ ";" ∧ toktype ≠ "EOF") :
    (parseNodesLoop reg (cap + 1) all toktype tok S
        = match makeNode reg toktype tok S with
          | .error e => .error e
          | .ok (node, S1) =>
            parseNodesLoop reg cap (all ++ [node]) (Tokent S1).1.1 (Tokent S1).1.2 (Tokent S1).2)
      ∧ (∀ litfn, reg.Literals toktype = some litfn →
          makeNode reg toktype tok S = .ok (.terminal (litfn tok), S))
      ∧ (reg.Literals toktype = none → ∀ termfn, reg.Terminals tok = some termfn →
          makeNode reg toktype tok S = .ok (.terminal (termfn ()), S))
      ∧ (reg.Literals toktype = none → reg.Terminals tok = none →
          ∀ bnffn, reg.Bnfs tok = some bnffn →
          makeNode reg toktype tok S = .ok (.terminal (bnffn S).1, S.skip (bnffn S).2))
      ∧ (reg.Literals toktype = none → reg.Terminals tok = none → reg.Bnfs tok = none →
          tok = "$" → ∀ reffn, reg.Literals "Reference" = some reffn →
          makeNode reg toktype tok S = .ok (.terminal (reffn (Token S).1), (Token S).2))
      ∧ (reg.Literals toktype = none → reg.Terminals tok = none → reg.Bnfs tok = none →
          tok ≠ "$" → makeNode reg toktype tok S = .ok (.ref tok, S)) := by
  refine ⟨?_, ?_, ?_, ?_, ?_, ?_⟩
  · rw [parseNodesLoop, if_pos hin]
  · intro litfn h
    simp only [makeNode, h]
  · intro h1 termfn h2
    simp only [makeNode, h1, h2]
  · intro h1 h2 bnffn h3
    simp only [makeNode, h1, h2, h3]
  · intro h1 h2 h3 h4 reffn h5
    subst h4
    simp only [makeNode, h1, h2, h3, h5, if_true]
  · intro h1 h2 h3 h4
    simp only [makeNode, h1, h2, h3, h4, if_false]

/-- C11, witness: with the registries `regPri`, in which `DQ` is both a terminal and a
built-in, the rule `"DQ" DQ bag a b $ v B .` is read as five leaves and one reference:
the string literal, the terminal `DQ` (not the built-in), the built-in `bag` with its two
argument tokens, the reference leaf for `v`, and the unresolved reference `B`. -/
theorem parseNodes_priority_witness :
    parseNodes regPri streamPri
        = .ok ([Node.terminal (lit "DQ"), Node.terminal (lit "\""), Node.terminal bagLeaf,
                Node.terminal (probe "v"), Node.ref "B"], false, { toks := [] })
      ∧ (parseNodesLoop regPri (99 + 1) [] "Ident" "DQ" streamPri
        = match makeNode regPri "Ident" "DQ" streamPri with
          | .error e => .error e
          | .ok (node, S1) =>
            parseNodesLoop regPri 99 ([] ++ [node]) (Tokent S1).1.1 (Tokent S1).1.2
              (Tokent S1).2)
      ∧ (regPri.Literals "Ident" = none → ∀ termfn, regPri.Terminals "DQ" = some termfn →
          makeNode regPri "Ident" "DQ" streamPri = .ok (.terminal (termfn ()), streamPri)) :=
  ⟨by rfl,
   (parseNodes_priority regPri 99 [] "Ident" "DQ" streamPri
     ⟨by decide, by decide, by decide⟩).1,
   (parseNodes_priority regPri 99 [] "Ident" "DQ" streamPri
     ⟨by decide, by decide, by decide⟩).2.2.1⟩

/-! ## Parser: the list of alternatives -/

/-- The rule loop, entered with the rules `any` already stored, returns those rules
followed by the rules it reads: some number `k` of rules ended by `;`, then one rule that
is not ended by `;`. -/
theorem parseRulesLoop_reads (reg : Registries) (cap : Nat) :
    ∀ (any : List (List Node)) (S : Scanner) (any1 : List (List Node)) (S1 : Scanner),
      parseRulesLoop reg cap any S = .ok (any1, S1) →
      ∃ k rules Sk nodes,
        readRules reg k S = some (rules, Sk)
          ∧ rules.length = k
          ∧ k < cap
          ∧ ((Token Sk).1 = ":" ∨ (Token Sk).1 = "|")
          ∧ parseNodes reg (Token Sk).2 = .ok (nodes, false, S1)
          ∧ any1 = any ++ (rules ++ [nodes]) := by
  induction cap with
  | zero =>
    intro any S any1 S1 h
    rw [parseRulesLoop] at h
    split at h
    · simp at h
    · split at h
      · simp at h
      · simp at h
  | succ n ih =>
    intro any S any1 S1 h
    rw [parseRulesLoop] at h
    split at h
    · simp at h
    · rename_i hcond
      have htok : (Token S).1 = ":" ∨ (Token S).1 = "|" := by
        by_contra hc
        exact hcond ⟨fun h1 => hc (Or.inl h1), fun h2 => hc (Or.inr h2)⟩
      split at h
      · simp at h
      · rename_i nodes next S2 hn
        simp only [] at h
        cases next with
        | true =>
          simp only [if_true] at h
          obtain ⟨k, rules, Sk, last, hk, hlen, hlt, htk, hlast, hany⟩ := ih _ _ _ _ h
          refine ⟨k + 1, nodes :: rules, Sk, last, ?_, by simp [hlen], by omega, htk, hlast, ?_⟩
          · simp only [readRules, if_pos htok, hn, hk]
          · rw [hany]; simp
        | false =>
          simp only [Bool.false_eq_true, if_false, Except.ok.injEq, Prod.mk.injEq] at h
          obtain ⟨h1, h2⟩ := h
          subst h1 h2
          exact ⟨0, [], S, nodes, rfl, rfl, by omega, htok, hn, by simp⟩

/-- The node loop, entered with the nodes `all` already stored, returns those nodes
followed by the nodes it reads, up to the first token that is `.`, `;` or the end of the
stream; the flag it returns tells whether that token is `;`. -/
theorem parseNodesLoop_reads (reg : Registries) (cap : Nat) :
    ∀ (all : List Node) (toktype tok : String) (S : Scanner) (nodes1 : List Node) (next : Bool)
      (S1 : Scanner), parseNodesLoop reg cap all toktype tok S = .ok (nodes1, next, S1) →
      ∃ n nodes toktype1 tok1,
        readNodes reg n toktype tok S = some (nodes, toktype1, tok1, S1)
          ∧ n ≤ cap
          ∧ (tok1 = "." ∨ tok1 = ";" ∨ toktype1 = "EOF")
          ∧ next = (tok1 == ";")
          ∧ nodes1 = all ++ nodes := by
  induction cap with
  | zero =>
    intro all toktype tok S nodes1 next S1 h
    rw [parseNodesLoop] at h
    split at h
    · split at h
      · simp at h
      · simp at h
    · rename_i hcond
      simp only [Except.ok.injEq, Prod.mk.injEq] at h
      obtain ⟨h1, h2, h3⟩ := h
      subst h1 h2 h3
      refine ⟨0, [], toktype, tok, rfl, Nat.le_refl _, ?_, rfl, by simp⟩
      by_contra hc
      simp only [not_or] at hc
      exact hcond ⟨hc.1, hc.2.1, hc.2.2⟩
  | succ c ih =>
    intro all toktype tok S nodes1 next S1 h
    rw [parseNodesLoop] at h
    split at h
    · rename_i hin
      split at h
      · simp at h
      · rename_i node S2 hm
        obtain ⟨n, nodes, tt1, tk1, hr, hle, hend, hnext, hall⟩ := ih _ _ _ _ _ _ _ h
        refine ⟨n + 1, node :: nodes, tt1, tk1, ?_, by omega, hend, hnext, ?_⟩
        · simp only [readNodes, if_pos hin, hm, hr]
        · rw [hall]; simp
    · rename_i hcond
      simp only [Except.ok.injEq, Prod.mk.injEq] at h
      obtain ⟨h1, h2, h3⟩ := h
      subst h1 h2 h3
      refine ⟨0, [], toktype, tok, rfl, Nat.zero_le _, ?_, rfl, by simp⟩
      by_contra hc
      simp only [not_or] at hc
      exact hcond ⟨hc.1, hc.2.1, hc.2.2⟩

/-- C19. Whenever `parseRules` returns, the rule list of the nonterminal it returns is
what the stream holds, in source order: the node sequences of `k` rules that are each
ended by `;` and followed by another rule, and after them the node sequence of the first
rule that is not ended by `;`, a rule of some `n` nodes ended by `.` or by the end of the
stream.  The list is not empty and has `k + 1` alternatives, one more than the number of
rules ended by `;`. -/
theorem parseRules_alternatives (reg : Registries) (S S1 : Scanner) (heap heap1 : Heap)
    (ntname : String) (nt : NonTerminal)
    (h : parseRules reg S heap ntname = .ok (nt, S1, heap1)) :
    ∃ k rules Sk n nodes toktype tok,
      readRules reg k S = some (rules, Sk)
        ∧ rules.length = k
        ∧ ((Token Sk).1 = ":" ∨ (Token Sk).1 = "|")
        ∧ readNodes reg n (Tokent (Token Sk).2).1.1 (Tokent (Token Sk).2).1.2
            (Tokent (Token Sk).2).2 = some (nodes, toktype, tok, S1)
        ∧ (tok = "." ∨ toktype = "EOF")
        ∧ Heap.rules heap1 nt.any = rules ++ [nodes]
        ∧ (Heap.rules heap1 nt.any).length = k + 1
        ∧ Heap.rules heap1 nt.any ≠ [] := by
  unfold parseRules at h
  split at h
  · simp at h
  · rename_i any0 S2 hl
    simp only [Except.ok.injEq, Prod.mk.injEq] at h
    obtain ⟨hnt, hS, hheap⟩ := h
    subst hnt hS hheap
    obtain ⟨k, rules, Sk, nodes, hk, hlen, -, htk, hlast, hany⟩ :=
      parseRulesLoop_reads reg 100 [] S _ _ hl
    obtain ⟨n, nodes0, toktype, tok, hr, -, hend, hnext, hnodes⟩ :=
      parseNodesLoop_reads reg 100 [] _ _ _ _ _ _ hlast
    simp only [List.nil_append] at hnodes
    subst hnodes
    have hsemi : tok ≠ ";" := by
      intro hs
      rw [hs] at hnext
      simp at hnext
    have hdot : tok = "." ∨ toktype = "EOF" := by
      rcases hend with h1 | h1 | h1
      · exact Or.inl h1
      · exact absurd h1 hsemi
      · exact Or.inr h1
    have hrules : Heap.rules (heap ++ [any0]) (some heap.length) = rules ++ [nodes] := by
      simp [Heap.rules, hany]
    refine ⟨k, rules, Sk, n, nodes, toktype, tok, hk, hlen, htk, hr, hdot, hrules, ?_, ?_⟩
    · rw [hrules]; simp [hlen]
    · rw [hrules]; simp

/-- C19, witness: the rule list `: "x" ; | B "y" ; | "z" .` gives three alternatives. -/
theorem parseRules_alternatives_witness :
    parseRules regStd streamThree [] "A"
        = .ok (mkNT "A" 0, { toks := [] },
            [[[Node.terminal (lit "\"x\"")],
              [Node.ref "B", Node.terminal (lit "\"y\"")],
              [Node.terminal (lit "\"z\"")]]])
      ∧ ∃ k rules Sk n nodes toktype tok,
          readRules regStd k streamThree = some (rules, Sk)
            ∧ rules.length = k
            ∧ ((Token Sk).1 = ":" ∨ (Token Sk).1 = "|")
            ∧ readNodes regStd n (Tokent (Token Sk).2).1.1 (Tokent (Token Sk).2).1.2
                (Tokent (Token Sk).2).2 = some (nodes, toktype, tok, { toks := [] })
            ∧ (tok = "." ∨ toktype = "EOF")
            ∧ Heap.rules [[[Node.terminal (lit "\"x\"")],
                  [Node.ref "B", Node.terminal (lit "\"y\"")],
                  [Node.terminal (lit "\"z\"")]]] (mkNT "A" 0).any = rules ++ [nodes]
            ∧ (Heap.rules [[[Node.terminal (lit "\"x\"")],
                  [Node.ref "B", Node.terminal (lit "\"y\"")],
                  [Node.terminal (lit "\"z\"")]]] (mkNT "A" 0).any).length = k + 1
            ∧ Heap.rules [[[Node.terminal (lit "\"x\"")],
                  [Node.ref "B", Node.terminal (lit "\"y\"")],
                  [Node.terminal (lit "\"z\"")]]] (mkNT "A" 0).any ≠ [] :=
  ⟨by rfl,
   parseRules_alternatives regStd streamThree { toks := [] } [] _ "A" (mkNT "A" 0) (by rfl)⟩

/-! ## Parser: the capacity of 100 -/

/-- The node loop on a rule that starts with `n` nodes: when `n` slots are free it stores
them and goes on with the token after them, with fewer free slots it stops with an
index-out-of-range failure. -/
theorem parseNodesLoop_readNodes (reg : Registries) (n : Nat) :
    ∀ (cap : Nat) (all : List Node) (toktype tok : String) (S : Scanner)
      (nodes : List Node) (toktype1 tok1 : String) (S1 : Scanner),
      readNodes reg n toktype tok S = some (nodes, toktype1, tok1, S1) →
      nodes.length = n
        ∧ parseNodesLoop reg cap all toktype tok S
          = if n ≤ cap then parseNodesLoop reg (cap - n) (all ++ nodes) toktype1 tok1 S1
            else .error .indexOutOfRange := by
  induction n with
  | zero =>
    intro cap all toktype tok S nodes toktype1 tok1 S1 h
    simp only [readNodes, Option.some.injEq, Prod.mk.injEq] at h
    obtain ⟨h1, h2, h3, h4⟩ := h
    subst h1 h2 h3 h4
    simp
  | succ m ih =>
    intro cap all toktype tok S nodes toktype1 tok1 S1 h
    simp only [readNodes] at h
    split at h
    · rename_i hin
      split at h
      · simp at h
      · rename_i node S2 hm
        split at h
        · simp at h
        · rename_i rest tt2 tk2 S3 hr
          simp only [Option.some.injEq, Prod.mk.injEq] at h
          obtain ⟨h1, h2, h3, h4⟩ := h
          subst h1 h2 h3 h4
          cases cap with
          | zero =>
            refine ⟨by simp [(ih 0 [] _ _ _ _ _ _ _ hr).1], ?_⟩
            rw [parseNodesLoop, if_pos hin, hm]
            simp
          | succ c =>
            obtain ⟨hlen, hloop⟩ := ih c (all ++ [node]) _ _ _ _ _ _ _ hr
            refine ⟨by simp [hlen], ?_⟩
            rw [parseNodesLoop, if_pos hin, hm]
            simp only []
            rw [hloop]
            simp [List.append_assoc]
    · simp at h

/-- The node loop at a token that ends the rule returns the nodes stored so far. -/
theorem parseNodesLoop_at_end (reg : Registries) (cap : Nat) (all : List Node)
    (toktype tok : String) (S : Scanner) (hend : tok = "." ∨ tok = ";" ∨ toktype = "EOF") :
    parseNodesLoop reg cap all toktype tok S = .ok (all, tok == ";", S) := by
  have hcond : ¬ (tok ≠ "." ∧ tok ≠ ";" ∧ toktype ≠ "EOF") := by
    rintro ⟨h1, h2, h3⟩
    rcases hend with h | h | h
    · exact h1 h
    · exact h2 h
    · exact h3 h
  rw [parseNodesLoop, if_neg hcond]

/-- The rule loop on a rule list that starts with `k` rules ended by `;`: when `k` slots
are free it stores them and goes on with the rule after them, with fewer free slots it
stops with an index-out-of-range failure. -/
theorem parseRulesLoop_readRules (reg : Registries) (k : Nat) :
    ∀ (cap : Nat) (any : List (List Node)) (S : Scanner) (rules : List (List Node))
      (Sk : Scanner), readRules reg k S = some (rules, Sk) →
      parseRulesLoop reg cap any S
        = if k ≤ cap then parseRulesLoop reg (cap - k) (any ++ rules) Sk
          else .error .indexOutOfRange := by
  induction k with
  | zero =>
    intro cap any S rules Sk h
    simp only [readRules, Option.some.injEq, Prod.mk.injEq] at h
    obtain ⟨h1, h2⟩ := h
    subst h1 h2
    simp
  | succ m ih =>
    intro cap any S rules Sk h
    simp only [readRules] at h
    split at h
    · rename_i htok
      have hcond : ¬ ((Token S).1 ≠ ":" ∧ (Token S).1 ≠ "|") := by
        rintro ⟨ha, hb⟩
        rcases htok with h1 | h1
        · exact ha h1
        · exact hb h1
      split at h
      · rename_i nodes S2 hn
        split at h
        · simp at h
        · rename_i rest S3 hr
          simp only [Option.some.injEq, Prod.mk.injEq] at h
          obtain ⟨h1, h2⟩ := h
          subst h1 h2
          cases cap with
          | zero =>
            rw [parseRulesLoop, if_neg hcond, hn]
            simp
          | succ c =>
            rw [parseRulesLoop, if_neg hcond, hn]
            simp only [if_true]
            rw [ih c (any ++ [nodes]) _ _ _ hr]
            simp [List.append_assoc]
      · simp at h
    · simp at h

/-- C20. The parser has a fixed capacity of 100 nodes per rule and 100 rules per
nonterminal.  A rule of `n ≤ 100` nodes is returned by `parseNodes` with all its nodes,
and a rule list of `k + 1 ≤ 100` rules is returned by `parseRules` with all its rules.
A rule that has a 101st node makes `parseNodes`, and with it `parseRules`, stop with an
index-out-of-range failure, and so does a rule list that has a 101st rule: no grammar is
produced. -/
theorem parser_capacity (reg : Registries) (S : Scanner) (heap : Heap) (ntname : String) :
    (∀ n nodes toktype tok S1, n ≤ 100 →
        readNodes reg n (Tokent S).1.1 (Tokent S).1.2 (Tokent S).2
          = some (nodes, toktype, tok, S1) →
        (tok = "." ∨ tok = ";" ∨ toktype = "EOF") →
        nodes.length = n ∧ parseNodes reg S = .ok (nodes, tok == ";", S1))
      ∧ (∀ x, readNodes reg 101 (Tokent S).1.1 (Tokent S).1.2 (Tokent S).2 = some x →
          parseNodes reg S = .error .indexOutOfRange)
      ∧ (∀ k rules Sk nodes S1, k + 1 ≤ 100 →
          readRules reg k S = some (rules, Sk) →
          ((Token Sk).1 = ":" ∨ (Token Sk).1 = "|") →
          parseNodes reg (Token Sk).2 = .ok (nodes, false, S1) →
          parseRules reg S heap ntname
            = .ok ({ name := ntname, any := some heap.length, context := ∅, lrmax := 0 },
                   S1, heap ++ [rules ++ [nodes]]))
      ∧ (∀ rules Sk nodes next S1,
          readRules reg 100 S = some (rules, Sk) →
          ((Token Sk).1 = ":" ∨ (Token Sk).1 = "|") →
          parseNodes reg (Token Sk).2 = .ok (nodes, next, S1) →
          parseRules reg S heap ntname = .error .indexOutOfRange)
      ∧ (∀ k rules Sk x,
          readRules reg k S = some (rules, Sk) →
          ((Token Sk).1 = ":" ∨ (Token Sk).1 = "|") →
          readNodes reg 101 (Tokent (Token Sk).2).1.1 (Tokent (Token Sk).2).1.2
            (Tokent (Token Sk).2).2 = some x →
          parseRules reg S heap ntname = .error .indexOutOfRange) := by
  have hnodes : ∀ (S0 : Scanner) x,
      readNodes reg 101 (Tokent S0).1.1 (Tokent S0).1.2 (Tokent S0).2 = some x →
      parseNodes reg S0 = .error .indexOutOfRange := by
    intro S0 x hx
    obtain ⟨nodes, toktype, tok, S1⟩ := x
    obtain ⟨-, hloop⟩ := parseNodesLoop_readNodes reg 101 100 [] _ _ _ _ _ _ _ hx
    unfold parseNodes
    rw [hloop]
    simp
  have hcondOf : ∀ Sk : Scanner, ((Token Sk).1 = ":" ∨ (Token Sk).1 = "|") →
      ¬ ((Token Sk).1 ≠ ":" ∧ (Token Sk).1 ≠ "|") := by
    rintro Sk htok ⟨ha, hb⟩
    rcases htok with h1 | h1
    · exact ha h1
    · exact hb h1
  refine ⟨?_, hnodes S, ?_, ?_, ?_⟩
  · intro n nodes toktype tok S1 hn hr hend
    obtain ⟨hlen, hloop⟩ := parseNodesLoop_readNodes reg n 100 [] _ _ _ _ _ _ _ hr
    refine ⟨hlen, ?_⟩
    unfold parseNodes
    rw [hloop, if_pos hn, parseNodesLoop_at_end reg _ _ _ _ _ hend]
    simp
  · intro k rules Sk nodes S1 hk hr htok hlast
    unfold parseRules
    rw [parseRulesLoop_readRules reg k 100 [] S rules Sk hr, if_pos (by omega)]
    obtain ⟨c, hc⟩ : ∃ c, 100 - k = c + 1 := ⟨100 - k - 1, by omega⟩
    rw [hc, parseRulesLoop, if_neg (hcondOf Sk htok), hlast]
    simp
  · intro rules Sk nodes next S1 hr htok hlast
    unfold parseRules
    rw [parseRulesLoop_readRules reg 100 100 [] S rules Sk hr, if_pos (Nat.le_refl _)]
    simp only [Nat.sub_self]
    rw [parseRulesLoop, if_neg (hcondOf Sk htok), hlast]
  · intro k rules Sk x hr htok hx
    unfold parseRules
    rw [parseRulesLoop_readRules reg k 100 [] S rules Sk hr]
    by_cases hk : k ≤ 100
    · rw [if_pos hk]
      generalize 100 - k = c
      cases c with
      | zero => rw [parseRulesLoop, if_neg (hcondOf Sk htok), hnodes _ x hx]
      | succ c1 => rw [parseRulesLoop, if_neg (hcondOf Sk htok), hnodes _ x hx]
    · rw [if_neg hk]

/-- C20, witness: a rule of 100 string literals is read, a rule of 101 is not; a rule
list of 100 rules is read, a rule list of 101 is not, nor is a rule list whose first
rule has 101 nodes. -/
theorem parser_capacity_witness :
    parseNodes regStd (streamNodes 100)
        = .ok (List.replicate 100 (Node.terminal (lit "\"x\"")), "." == ";", { toks := [] })
      ∧ parseNodes regStd (streamNodes 101) = .error .indexOutOfRange
      ∧ parseRules regStd (streamRules 99) [] "A"
        = .ok ({ name := "A", any := some 0, context := ∅, lrmax := 0 }, { toks := [] },
               [] ++ [List.replicate 99 [Node.terminal (lit "\"x\"")]
                 ++ [[Node.terminal (lit "\"x\"")]]])
      ∧ parseRules regStd (streamRules 100) [] "A" = .error .indexOutOfRange
      ∧ parseRules regStd { toks := punct ":" :: (streamNodes 101).toks } [] "A"
        = .error .indexOutOfRange :=
  ⟨((parser_capacity regStd (streamNodes 100) [] "A").1 100
      (List.replicate 100 (Node.terminal (lit "\"x\""))) "\".\"" "." { toks := [] }
      (Nat.le_refl _) (by rfl) (Or.inl rfl)).2,
   (parser_capacity regStd (streamNodes 101) [] "A").2.1
      (List.replicate 101 (Node.terminal (lit "\"x\"")), "\".\"", ".", { toks := [] })
      (by rfl),
   (parser_capacity regStd (streamRules 99) [] "A").2.2.1 99
      (List.replicate 99 [Node.terminal (lit "\"x\"")])
      { toks := [punct ":", strTok "x", punct "."] } [Node.terminal (lit "\"x\"")]
      { toks := [] } (by decide) (by rfl) (Or.inl (by rfl)) (by rfl),
   (parser_capacity regStd (streamRules 100) [] "A").2.2.2.1
      (List.replicate 100 [Node.terminal (lit "\"x\"")])
      { toks := [punct ":", strTok "x", punct "."] } [Node.terminal (lit "\"x\"")] false
      { toks := [] } (by rfl) (Or.inl (by rfl)) (by rfl),
   (parser_capacity regStd { toks := punct ":" :: (streamNodes 101).toks } [] "A").2.2.2.2 0 []
      { toks := punct ":" :: (streamNodes 101).toks }
      (List.replicate 101 (Node.terminal (lit "\"x\"")), "\".\"", ".", { toks := [] })
      (by rfl) (Or.inl (by rfl)) (by rfl)⟩

/-! ## Parser: malformed context blocks -/

/-- One round of the assignment loop on an assignment the parser refuses: a fatal
error, nothing is stored. -/
theorem parseAssignments_refused (ParseFloat : String → Nat) (fuel : Nat) (nonterm : String)
    (Nonterminals : Table) (S : Scanner) (h : Refused S) :
    parseAssignments ParseFloat (fuel + 1) nonterm Nonterminals S
        = .error (.exit ("Invalid context for non-terminal " ++ nonterm ++ "\n"))
      ∨ parseAssignments ParseFloat (fuel + 1) nonterm Nonterminals S
        = .error (.exit "Invalid context\n") := by
  rw [parseAssignments]
  simp only []
  by_cases hc : (Tokent S).1.1 ≠ "Ident" ∧ (Tokent (Tokent S).2).1.2 ≠ "="
  · left
    rw [if_pos hc]
  · right
    rw [if_neg hc]
    rcases h with h | ⟨h1, h2, h3, h4⟩
    · exact absurd h hc
    · simp only [contextValue, if_neg h1, if_neg h2, if_neg h3, if_neg h4]

/-- The assignment loop on a block that starts with `k` assignments that are stored:
it goes on after them. -/
theorem parseAssignments_afterAssignments (ParseFloat : String → Nat) (k : Nat) :
    ∀ (fuel : Nat) (nonterm : String) (Nonterminals : Table) (S : Scanner)
      (Nonterminals1 : Table) (S1 : Scanner),
      afterAssignments ParseFloat k nonterm Nonterminals S = some (Nonterminals1, S1) →
      S.toks.length < fuel →
      S1.toks.length + k ≤ S.toks.length
        ∧ parseAssignments ParseFloat fuel nonterm Nonterminals S
          = parseAssignments ParseFloat (fuel - k) nonterm Nonterminals1 S1 := by
  induction k with
  | zero =>
    intro fuel nonterm Nonterminals S Nonterminals1 S1 h _
    simp only [afterAssignments, Option.some.injEq, Prod.mk.injEq] at h
    obtain ⟨h1, h2⟩ := h
    subst h1 h2
    exact ⟨Nat.le_refl _, rfl⟩
  | succ m ih =>
    intro fuel nonterm Nonterminals S Nonterminals1 S1 h hlt
    obtain ⟨f, rfl⟩ : ∃ f, fuel = f + 1 := ⟨fuel - 1, by omega⟩
    simp only [afterAssignments] at h
    split at h
    · simp at h
    · rename_i hcond
      have hadv := two_tokens_advance S "=" (by decide) hcond
      have h4 : (Tokent (Tokent (Tokent (Tokent S).2).2).2).2.toks.length < S.toks.length :=
        Nat.lt_of_le_of_lt (Nat.le_trans (Tokent_length_le _) (Tokent_length_le _)) hadv
      split at h
      · simp at h
      · rename_i value hv
        split at h
        · simp at h
        · rename_i nt hl
          split at h
          · simp at h
          · rename_i hdot
            obtain ⟨hle, heq⟩ := ih f _ _ _ _ _ h (by omega)
            refine ⟨by omega, ?_⟩
            rw [parseAssignments]
            simp only []
            rw [if_neg hcond, hv]
            simp only []
            rw [hl]
            simp only []
            rw [if_neg hdot, heq]
            congr 1
            omega

/-- The block loop on a context section that starts with `j` complete blocks: it goes on
after them. -/
theorem parseContextLoop_afterBlocks (ParseFloat : String → Nat) (j : Nat) :
    ∀ (fuel : Nat) (Nonterminals : Table) (S : Scanner) (Nonterminals1 : Table) (S1 : Scanner),
      afterBlocks ParseFloat j Nonterminals S = some (Nonterminals1, S1) →
      S.toks.length < fuel →
      S1.toks.length + j ≤ S.toks.length
        ∧ parseContextLoop ParseFloat fuel Nonterminals S
          = parseContextLoop ParseFloat (fuel - j) Nonterminals1 S1 := by
  induction j with
  | zero =>
    intro fuel Nonterminals S Nonterminals1 S1 h _
    simp only [afterBlocks, Option.some.injEq, Prod.mk.injEq] at h
    obtain ⟨h1, h2⟩ := h
    subst h1 h2
    exact ⟨Nat.le_refl _, rfl⟩
  | succ m ih =>
    intro fuel Nonterminals S Nonterminals1 S1 h hlt
    obtain ⟨f, rfl⟩ : ∃ f, fuel = f + 1 := ⟨fuel - 1, by omega⟩
    simp only [afterBlocks] at h
    split at h
    · simp at h
    · rename_i hcond
      have hadv := two_tokens_advance S ":" (by decide) hcond
      split at h
      · simp at h
      · rename_i T2 S2 ha
        obtain ⟨-, hle2⟩ := parseAssignments_budget ParseFloat
          ((Tokent (Tokent S).2).2.toks.length + 1) (Tokent S).1.2 Nonterminals
          (Tokent (Tokent S).2).2 (Nat.lt_succ_self _)
        have hS2 := hle2 T2 S2 ha
        obtain ⟨hle, heq⟩ := ih f _ _ _ _ h (by omega)
        refine ⟨by omega, ?_⟩
        rw [parseContextLoop]
        simp only []
        rw [if_neg hcond, ha]
        simp only []
        rw [heq]
        congr 1
        omega

/-- C12 (as amended). For every context section that starts with `j` complete blocks:
when the next header lets the parser enter a block and, after `k` assignments of that
block that are stored, there comes an assignment that neither starts with an identifier
nor has `=` as its second token, or whose literal is not of category `String`, `Char`,
`Int` or `Float`, then `parseContext` stops with a fatal error ("Invalid context for
non-terminal ..." or "Invalid context") and returns no symbol table; when the next header
is neither an identifier nor followed by `:`, `parseContext` does not fail: it returns
the symbol table as the `j` blocks left it. -/
theorem parseContext_malformed (ParseFloat : String → Nat) (Nonterminals : Table)
    (S : Scanner) (j : Nat) (Nonterminals0 : Table) (S0 : Scanner)
    (hj : afterBlocks ParseFloat j Nonterminals S = some (Nonterminals0, S0)) :
    (∀ k Nonterminals1 S1,
        ¬ ((Tokent S0).1.1 ≠ "Ident" ∧ (Tokent (Tokent S0).2).1.2 ≠ ":") →
        afterAssignments ParseFloat k (Tokent S0).1.2 Nonterminals0 (Tokent (Tokent S0).2).2
          = some (Nonterminals1, S1) →
        Refused S1 →
        parseContext ParseFloat Nonterminals S
            = .error (.exit ("Invalid context for non-terminal " ++ (Tokent S0).1.2 ++ "\n"))
          ∨ parseContext ParseFloat Nonterminals S = .error (.exit "Invalid context\n"))
      ∧ (((Tokent S0).1.1 ≠ "Ident" ∧ (Tokent (Tokent S0).2).1.2 ≠ ":") →
          parseContext ParseFloat Nonterminals S
            = .ok (Nonterminals0, (Tokent (Tokent S0).2).2)) := by
  obtain ⟨hle, hloop⟩ := parseContextLoop_afterBlocks ParseFloat j (S.toks.length + 1)
    Nonterminals S Nonterminals0 S0 hj (Nat.lt_succ_self _)
  obtain ⟨f, hf⟩ : ∃ f, S.toks.length + 1 - j = f + 1 := ⟨S.toks.length - j, by omega⟩
  unfold parseContext
  rw [hloop, hf]
  constructor
  · intro k Nonterminals1 S1 hhead hk href
    obtain ⟨hle1, hassign⟩ := parseAssignments_afterAssignments ParseFloat k
      ((Tokent (Tokent S0).2).2.toks.length + 1) (Tokent S0).1.2 Nonterminals0
      (Tokent (Tokent S0).2).2 Nonterminals1 S1 hk (Nat.lt_succ_self _)
    obtain ⟨g, hg⟩ : ∃ g, (Tokent (Tokent S0).2).2.toks.length + 1 - k = g + 1 :=
      ⟨(Tokent (Tokent S0).2).2.toks.length - k, by omega⟩
    rw [hg] at hassign
    rw [parseContextLoop]
    simp only []
    rw [if_neg hhead, hassign]
    rcases parseAssignments_refused ParseFloat g (Tokent S0).1.2 Nonterminals1 S1 href with
      h1 | h1
    · left; rw [h1]
    · right; rw [h1]
  · intro hhead
    rw [parseContextLoop]
    simp only []
    rw [if_pos hhead]

/-- C12, witness: in `A : v = "1" . B : w = 2 , u = x .` the literal of the second
assignment of the second block is an identifier, and `parseContext` stops with "Invalid
context"; in `A : v = "1" . "x" ; u = "2" .` the second header is neither an identifier
nor followed by `:`, and `parseContext` returns with the binding of the first block
stored. -/
theorem parseContext_malformed_witness :
    (parseContext noFloat tableAB streamCtxBad
          = .error (.exit ("Invalid context for non-terminal " ++ "B" ++ "\n"))
        ∨ parseContext noFloat tableAB streamCtxBad = .error (.exit "Invalid context\n"))
      ∧ parseContext noFloat tableAB streamCtxBad = .error (.exit "Invalid context\n")
      ∧ ∃ Nonterminals0,
          parseContext noFloat tableAB streamCtxEnds
              = .ok (Nonterminals0, { toks := [ident "u", punct "=", strTok "2", punct "."] })
            ∧ (Nonterminals0.get "A").context.lookup "v" = some (Value.str "\"1\"") :=
  ⟨(parseContext_malformed noFloat tableAB streamCtxBad 1
      (tableAB.replace "A" { mkNT "A" 0 with context := bind1 "v" "\"1\"" })
      { toks := [ident "B", punct ":", ident "w", punct "=", { toktype := "Int", text := "2" },
                 punct ",", ident "u", punct "=", ident "x", punct "."] }
      (by rfl)).1 1
      ((tableAB.replace "A" { mkNT "A" 0 with context := bind1 "v" "\"1\"" }).replace "B"
        { mkNT "B" 1 with context := (∅ : Context).insert "w" (Value.int 2) })
      { toks := [ident "u", punct "=", ident "x", punct "."] }
      (by decide) (by rfl) (Or.inr ⟨by decide, by decide, by decide, by decide⟩),
   by rfl,
   ⟨tableAB.replace "A" { mkNT "A" 0 with context := bind1 "v" "\"1\"" },
    (parseContext_malformed noFloat tableAB streamCtxEnds 1
      (tableAB.replace "A" { mkNT "A" 0 with context := bind1 "v" "\"1\"" })
      { toks := [strTok "x", punct ";", ident "u", punct "=", strTok "2", punct "."] }
      (by rfl)).2 ⟨by decide, by decide⟩,
    by rfl⟩⟩

/-- C12, counterexample. With `A` declared, `parseContext` accepts the context section
`A ; v = "1" .`, in which the nonterminal name `A` is not followed by `:`, and the
context section `A : v ; "1" .`, in which the name `v` of the assignment is not followed
by `=`: in both cases it returns without error and with the binding `v = "1"` stored for
`A`. -/
theorem parseContext_accepts_malformed :
    (∃ Nonterminals1 S1,
        parseContext noFloat tableDangling streamCtxNoColon = .ok (Nonterminals1, S1)
          ∧ (Nonterminals1.get "A").context.lookup "v" = some (Value.str "\"1\""))
      ∧ (∃ Nonterminals1 S1,
          parseContext noFloat tableDangling streamCtxNoEq = .ok (Nonterminals1, S1)
            ∧ (Nonterminals1.get "A").context.lookup "v" = some (Value.str "\"1\"")) :=
  ⟨⟨_, _, by rfl, by rfl⟩, ⟨_, _, by rfl, by rfl⟩⟩

/-! ## Built-in `Range` -/

theorem wrap64_of_int64 (x : Int) (h1 : minInt64 ≤ x) (h2 : x ≤ maxInt64) : wrap64 x = x := by
  unfold wrap64
  unfold minInt64 at h1
  unfold maxInt64 at h2
  omega

theorem Int63n_spec (Rnd : Rand) (n : Int) (hn : 0 < n) :
    ∃ r Rnd1, Rnd.Int63n n = some (r, Rnd1) ∧ 0 ≤ r ∧ r < n := by
  refine ⟨(Rnd 0 : Int) % n, fun i => Rnd (i + 1), ?_, Int.emod_nonneg _ (by omega),
    Int.emod_lt_of_pos _ hn⟩
  unfold Rand.Int63n
  rw [if_neg (by omega)]

/-- C13 (as amended). For all `int64` values `min < max` and every pseudorandom source
bound in the scope: when the difference `max - min` is itself an `int64` (it does not
overflow), `Range(scope, min, max)` returns a value `v` with `min <= v < max`; when
`max - min` overflows, the wrapped difference is negative, `Int63n` panics and `Range`
returns no value. -/
theorem Range_two_arguments (scope : Scope) (Rnd : Rand) (min max : Int)
    (hscope : scope.lookup "_random" = some (ScopeValue.rand Rnd))
    (hmin : minInt64 ≤ min) (hmax : max ≤ maxInt64) (hlt : min < max) :
    (max - min ≤ maxInt64 →
        ∃ v Rnd1, Range scope [Value.int min, Value.int max] = .ok (v, Rnd1)
          ∧ min ≤ v ∧ v < max)
      ∧ (maxInt64 < max - min →
        wrap64 (max - min) < 0
          ∧ Range scope [Value.int min, Value.int max] = .error .int63n) := by
  constructor
  · intro hdiff
    have hw : wrap64 (max - min) = max - min :=
      wrap64_of_int64 _ (by unfold minInt64; omega) hdiff
    obtain ⟨r, Rnd1, hr, h0, h1⟩ := Int63n_spec Rnd (max - min) (by omega)
    have hv : wrap64 (r + min) = r + min :=
      wrap64_of_int64 _ (by omega) (by omega)
    refine ⟨r + min, Rnd1, ?_, by omega, by omega⟩
    simp only [Range, hscope, rangeBounds, asInt64, hw, hr, hv]
  · intro hdiff
    have hneg : wrap64 (max - min) < 0 := by
      unfold wrap64
      unfold minInt64 at hmin
      unfold maxInt64 at hmax hdiff
      omega
    refine ⟨hneg, ?_⟩
    have hn : Rnd.Int63n (wrap64 (max - min)) = none := by
      unfold Rand.Int63n
      rw [if_pos (by omega)]
    simp only [Range, hscope, rangeBounds, asInt64, hn]

/-- C13, witness: `range(5, 10)` with a source whose next raw draw is 7 returns 7, and
`range(-2, 9223372036854775807)`, whose difference overflows, returns no value. -/
theorem Range_two_arguments_witness :
    (Range (scopeOf (constRand 7)) [Value.int 5, Value.int 10] = .ok (7, constRand 7)
      ∧ ∃ v Rnd1, Range (scopeOf (constRand 7)) [Value.int 5, Value.int 10] = .ok (v, Rnd1)
          ∧ 5 ≤ v ∧ v < 10)
      ∧ (wrap64 (9223372036854775807 - -2) < 0
        ∧ Range (scopeOf (constRand 7)) [Value.int (-2), Value.int 9223372036854775807]
          = .error .int63n) :=
  ⟨⟨by rfl,
    (Range_two_arguments (scopeOf (constRand 7)) (constRand 7) 5 10 (by rfl) (by decide)
      (by decide) (by decide)).1 (by decide)⟩,
   (Range_two_arguments (scopeOf (constRand 7)) (constRand 7) (-2) 9223372036854775807
      (by rfl) (by decide) (by decide) (by decide)).2 (by decide)⟩

/-- C13, counterexample. For `min` the least `int64` and `max = 0`, two `int64` values
with `min < max`, the difference `max - min` wraps around to a negative number,
`Int63n` panics and `Range` returns no value. -/
theorem Range_two_arguments_overflow :
    minInt64 < 0
      ∧ wrap64 (0 - minInt64) = minInt64
      ∧ ∀ Rnd : Rand, Range (scopeOf Rnd) [Value.int minInt64, Value.int 0] = .error .int63n :=
  ⟨by decide, by decide, fun _ => by rfl⟩

/-- C14. For every `int64` value `max > 0` and every pseudorandom source bound in the
scope, `Range(scope, max)` returns a value `v` with `0 <= v < max`. -/
theorem Range_one_argument (scope : Scope) (Rnd : Rand) (max : Int)
    (hscope : scope.lookup "_random" = some (ScopeValue.rand Rnd))
    (hpos : 0 < max) (hmax : max ≤ maxInt64) :
    ∃ v Rnd1, Range scope [Value.int max] = .ok (v, Rnd1) ∧ 0 ≤ v ∧ v < max := by
  have hw : wrap64 (max - 0) = max := by
    rw [Int.sub_zero]
    exact wrap64_of_int64 _ (by unfold minInt64; omega) hmax
  obtain ⟨r, Rnd1, hr, h0, h1⟩ := Int63n_spec Rnd max hpos
  have hv : wrap64 (r + 0) = r := by
    rw [Int.add_zero]
    exact wrap64_of_int64 _ (by unfold minInt64; omega) (by omega)
  refine ⟨r, Rnd1, ?_, h0, h1⟩
  simp only [Range, hscope, rangeBounds, asInt64, hw, hr, hv]

/-- C14, witness: `range(10)` with a source whose next raw draw is 27. -/
theorem Range_one_argument_witness :
    Range (scopeOf (constRand 27)) [Value.int 10] = .ok (7, constRand 27)
      ∧ ∃ v Rnd1, Range (scopeOf (constRand 27)) [Value.int 10] = .ok (v, Rnd1)
          ∧ 0 ≤ v ∧ v < 10 :=
  ⟨by rfl,
   Range_one_argument (scopeOf (constRand 27)) (constRand 27) 10 (by rfl) (by decide)
     (by decide)⟩

/-- C15. For every argument list whose length is neither 1 nor 2, `Range` returns no
value: whatever the scope, it panics, and when the scope holds the pseudorandom source
the panic is the usage error "Atleast one argument expected for range-form". -/
theorem Range_usage_error (scope : Scope) (args : List Value)
    (h1 : args.length ≠ 1) (h2 : args.length ≠ 2) :
    (∃ e, Range scope args = .error e)
      ∧ (∀ Rnd, scope.lookup "_random" = some (ScopeValue.rand Rnd) →
          Range scope args
            = .error (.usage "Atleast one argument expected for range-form\n")) := by
  have hb : rangeBounds args
      = .error (.usage "Atleast one argument expected for range-form\n") := by
    match args, h1, h2 with
    | [], _, _ => rfl
    | [_], h1, _ => simp at h1
    | [_, _], _, h2 => simp at h2
    | _ :: _ :: _ :: _, _, _ => rfl
  have hr : ∀ Rnd, scope.lookup "_random" = some (ScopeValue.rand Rnd) →
      Range scope args = .error (.usage "Atleast one argument expected for range-form\n") := by
    intro Rnd hs
    simp only [Range, hs, hb]
  refine ⟨?_, hr⟩
  cases hs : scope.lookup "_random" with
  | none => exact ⟨.typeAssertion, by simp only [Range, hs]⟩
  | some sv =>
    cases sv with
    | rand Rnd => exact ⟨_, hr Rnd hs⟩
    | other v => exact ⟨.typeAssertion, by simp only [Range, hs]⟩

/-- C15, witness: no argument, and three arguments. -/
theorem Range_usage_error_witness :
    ((∃ e, Range (scopeOf (constRand 0)) [] = .error e)
        ∧ (∀ Rnd, (scopeOf (constRand 0)).lookup "_random" = some (ScopeValue.rand Rnd) →
            Range (scopeOf (constRand 0)) []
              = .error (.usage "Atleast one argument expected for range-form\n")))
      ∧ Range (scopeOf (constRand 0)) [Value.int 1, Value.int 2, Value.int 3]
        = .error (.usage "Atleast one argument expected for range-form\n") :=
  ⟨Range_usage_error (scopeOf (constRand 0)) [] (by decide) (by decide),
   (Range_usage_error (scopeOf (constRand 0)) [Value.int 1, Value.int 2, Value.int 3]
      (by decide) (by decide)).2 (constRand 0) (by rfl)⟩

/-! ## Generation: alternative selection -/

theorem lit_const (s : String) : ConstLeaf (lit s) s := fun c => ⟨c, rfl⟩

theorem join_empty_single (s : String) : String.join ["", s] = s := by
  apply String.ext
  simp [String.data_join]

/-- C16. Let the nonterminal `nt` have `N >= 1` alternatives, each a single leaf that
produces a constant string, `strs` being the strings in the order of the alternatives.
For every random source and every context `Generate` returns, and what it returns is the
string of the alternative whose index it drew, one of the `N` strings; when `N = 1` it
is that one string. -/
theorem Generate_selects (heap : Heap) (Nonterminals : Table) (nt : NonTerminal)
    (strs : List String)
    (halts : List.Forall₂ (fun rule s => ∃ t, rule = [Node.terminal t] ∧ ConstLeaf t s)
      (heap.rules nt.any) strs)
    (hne : strs ≠ []) :
    (∀ fuel context (Rnd : Rand), ∃ i Rnd1 out context1,
        Rnd.Intn (heap.rules nt.any).length = some (i, Rnd1)
          ∧ strs[i]? = some out
          ∧ out ∈ strs
          ∧ Generate heap Nonterminals (fuel + 1) context Rnd nt = .ok (out, context1, Rnd1))
      ∧ (∀ x, strs = [x] → ∀ fuel context (Rnd : Rand), ∃ context1 Rnd1,
          Generate heap Nonterminals (fuel + 1) context Rnd nt = .ok (x, context1, Rnd1)) := by
  have hlen : (heap.rules nt.any).length = strs.length := halts.length_eq
  have hpos : 0 < strs.length := List.length_pos.mpr hne
  have main : ∀ fuel context (Rnd : Rand), ∃ i Rnd1 out context1,
      Rnd.Intn (heap.rules nt.any).length = some (i, Rnd1)
        ∧ strs[i]? = some out
        ∧ out ∈ strs
        ∧ Generate heap Nonterminals (fuel + 1) context Rnd nt = .ok (out, context1, Rnd1) := by
    intro fuel context Rnd
    have hi : Rnd 0 % strs.length < strs.length := Nat.mod_lt _ hpos
    have hi1 : Rnd 0 % strs.length < (heap.rules nt.any).length := by rw [hlen]; exact hi
    have hintn : Rnd.Intn (heap.rules nt.any).length
        = some (Rnd 0 % strs.length, fun i => Rnd (i + 1)) := by
      unfold Rand.Intn
      rw [if_neg (by omega), hlen]
    obtain ⟨t, hrule, hconst⟩ :=
      (List.forall₂_iff_get.mp halts).2 (Rnd 0 % strs.length) hi1 hi
    obtain ⟨c1, hg⟩ := hconst
      (mergeDefaults (Nonterminals.get nt.name).context context)
    have hr : (heap.rules nt.any)[Rnd 0 % strs.length]? = some [Node.terminal t] := by
      rw [List.getElem?_eq_getElem hi1]
      exact congrArg some hrule
    refine ⟨_, _, strs.get ⟨_, hi⟩, deleteKeys (Nonterminals.get nt.name).context.keys
      (deleteKeys [""] c1), hintn, by simp [List.getElem?_eq_getElem hi], List.get_mem _ _ _, ?_⟩
    simp only [Generate, hintn, hr, expandNodes, expandNode, initState, hg, finish,
      List.length_singleton, List.replicate_one, List.singleton_append,
      join_empty_single]
  refine ⟨main, ?_⟩
  intro x hx fuel context Rnd
  obtain ⟨i, Rnd1, out, context1, -, -, hmem, hgen⟩ := main fuel context Rnd
  rw [hx] at hmem
  simp only [List.mem_singleton] at hmem
  subst hmem
  exact ⟨context1, Rnd1, hgen⟩

/-- C16, witness: `A : "x" | "y" | "z" .` with a source that draws 4, so that `Generate`
returns `"y"`, and `A : "x" .`, for which it returns `"x"`. -/
theorem Generate_selects_witness :
    Generate heapXYZ tableDangling 1 ∅ (constRand 4) (mkNT "A" 0) = .ok ("y", ∅, constRand 4)
      ∧ (∀ fuel context (Rnd : Rand), ∃ i Rnd1 out context1,
          Rnd.Intn (heapXYZ.rules (mkNT "A" 0).any).length = some (i, Rnd1)
            ∧ ["x", "y", "z"][i]? = some out
            ∧ out ∈ ["x", "y", "z"]
            ∧ Generate heapXYZ tableDangling (fuel + 1) context Rnd (mkNT "A" 0)
              = .ok (out, context1, Rnd1))
      ∧ (∀ fuel context (Rnd : Rand), ∃ context1 Rnd1,
          Generate heapX tableDangling (fuel + 1) context Rnd (mkNT "A" 0)
            = .ok ("x", context1, Rnd1)) :=
  ⟨by rfl,
   (Generate_selects heapXYZ tableDangling (mkNT "A" 0) ["x", "y", "z"]
     (List.Forall₂.cons ⟨_, rfl, lit_const "x"⟩
       (List.Forall₂.cons ⟨_, rfl, lit_const "y"⟩
         (List.Forall₂.cons ⟨_, rfl, lit_const "z"⟩ List.Forall₂.nil)))
     (by simp)).1,
   (Generate_selects heapX tableDangling (mkNT "A" 0) ["x"]
     (List.Forall₂.cons ⟨_, rfl, lit_const "x"⟩ List.Forall₂.nil) (by simp)).2 "x" rfl⟩

/-! ## Generation: failures -/

theorem Embedded.trans {heap : Heap} {a b c : NonTerminal} (hab : Embedded heap a b)
    (hbc : Embedded heap b c) : Embedded heap a c := by
  induction hbc with
  | self => exact hab
  | step nd nd1 rule _ hr hn ih => exact Embedded.step nd nd1 rule ih hr hn

/-- A grammar whose table entries have an alternative each, and whose rules, in every
cell of the heap, hold only leaves and nonterminals with an alternative, meets the
condition on the symbol table. -/
theorem closedTable_of_cells (Nonterminals : Table) (heap : Heap)
    (hentries : ∀ e ∈ Nonterminals.entries, heap.rules e.2.any ≠ [])
    (hcells : ∀ cell ∈ heap, ∀ rule ∈ cell, ∀ node ∈ rule,
      match node with
      | .terminal _ => True
      | .nonterminal nd => heap.rules nd.any ≠ []
      | .ref _ => False) :
    ClosedTable Nonterminals heap := by
  intro e he nd hemb
  have hne : heap.rules nd.any ≠ [] := by
    induction hemb with
    | self => exact hentries e he
    | step nd0 nd1 rule _ hr hn _ =>
      obtain ⟨cell, hcell, hrc⟩ := mem_heap_of_mem_rules heap nd0.any rule hr
      exact hcells cell hcell rule hrc _ hn
  refine ⟨hne, fun rule hr s hs => ?_⟩
  obtain ⟨cell, hcell, hrc⟩ := mem_heap_of_mem_rules heap nd.any rule hr
  exact hcells cell hcell rule hrc _ hs

/-- The node loop over a rule without unresolved reference fails only by the failure of
a nested call on a nonterminal node of the rule or of a leaf generator of the rule. -/
theorem expandNodes_failures (gen : Context → Rand → NonTerminal → GenResult)
    (P : Failure → Prop) (rule : List Node)
    (hgen : ∀ c r nd e, Node.nonterminal nd ∈ rule → gen c r nd = .error e → P e)
    (hrule : ∀ s, Node.ref s ∉ rule) :
    ∀ (st : LoopState) (e : Failure), expandNodes gen rule st = .error e →
      P e ∨ (e = .leafPanic ∧ ∃ t, Node.terminal t ∈ rule ∧ ∃ c, t.generator c = none) := by
  induction rule with
  | nil => intro st e h; simp [expandNodes] at h
  | cons node rest ih =>
    intro st e h
    simp only [expandNodes] at h
    cases hn : expandNode gen st node with
    | ok st2 =>
      rw [hn] at h
      rcases ih (fun c r nd e hnd hg => hgen c r nd e (List.mem_cons_of_mem _ hnd) hg)
          (fun s hs => hrule s (List.mem_cons_of_mem _ hs)) st2 e h with h1 | ⟨h1, t, ht, hc⟩
      · exact Or.inl h1
      · exact Or.inr ⟨h1, t, List.mem_cons_of_mem _ ht, hc⟩
    | error e1 =>
      rw [hn] at h
      simp only [Except.error.injEq] at h
      subst h
      cases node with
      | terminal t =>
        simp only [expandNode] at hn
        cases hg : t.generator st.context with
        | none =>
          simp only [hg, Except.error.injEq] at hn
          exact Or.inr ⟨hn.symm, t, List.mem_cons_self _ _, st.context, hg⟩
        | some p => simp [hg] at hn
      | nonterminal nd =>
        simp only [expandNode, expandNonTerminal] at hn
        cases hg : gen st.context st.Rnd nd with
        | error e2 =>
          simp only [hg, Except.error.injEq] at hn
          subst hn
          exact Or.inl (hgen _ _ _ _ (List.mem_cons_self _ _) hg)
        | ok p => simp [hg] at hn
      | ref s => exact absurd (List.mem_cons_self _ _) (hrule s)

/-- When every nonterminal that a call on `nt` can come to expand is well formed, the
call fails only because the budget is used up or because a leaf generator of one of those
nonterminals has panicked. -/
theorem failures_of_embedded (heap : Heap) (Nonterminals : Table) (fuel : Nat) :
    ∀ (context : Context) (Rnd : Rand) (nt : NonTerminal) (e : Failure),
      (∀ nd, Embedded heap nt nd → WellFormed heap nd) →
      Generate heap Nonterminals fuel context Rnd nt = .error e →
      e = .outOfFuel
        ∨ (e = .leafPanic
          ∧ ∃ nd, Embedded heap nt nd ∧ ∃ rule ∈ heap.rules nd.any, ∃ t,
              Node.terminal t ∈ rule ∧ ∃ c, t.generator c = none) := by
  induction fuel with
  | zero =>
    intro context Rnd nt e _ h
    simp only [Generate, Except.error.injEq] at h
    exact Or.inl h.symm
  | succ n ih =>
    intro context Rnd nt e hwf h
    have hne := (hwf nt Embedded.self).1
    have hpos : 0 < (heap.rules nt.any).length := List.length_pos.mpr hne
    have hi : Rnd 0 % (heap.rules nt.any).length < (heap.rules nt.any).length :=
      Nat.mod_lt _ hpos
    have hintn : Rnd.Intn (heap.rules nt.any).length
        = some (Rnd 0 % (heap.rules nt.any).length, fun i => Rnd (i + 1)) := by
      unfold Rand.Intn
      rw [if_neg (by omega)]
    simp only [Generate, hintn, List.getElem?_eq_getElem hi] at h
    have hmem : (heap.rules nt.any)[Rnd 0 % (heap.rules nt.any).length] ∈ heap.rules nt.any :=
      List.getElem_mem hi
    cases hl : expandNodes (Generate heap Nonterminals n)
        ((heap.rules nt.any)[Rnd 0 % (heap.rules nt.any).length])
        (initState (Nonterminals.get nt.name).context context (fun i => Rnd (i + 1))
          ((heap.rules nt.any)[Rnd 0 % (heap.rules nt.any).length])) with
    | ok st => simp [hl] at h
    | error e1 =>
      simp only [hl, Except.error.injEq] at h
      subst h
      rcases expandNodes_failures (Generate heap Nonterminals n)
          (fun e => e = .outOfFuel
            ∨ (e = .leafPanic
              ∧ ∃ nd, Embedded heap nt nd ∧ ∃ rule ∈ heap.rules nd.any, ∃ t,
                  Node.terminal t ∈ rule ∧ ∃ c, t.generator c = none)) _
          (fun c r nd1 e hnd hg => by
            have hemb : Embedded heap nt nd1 := Embedded.step nt nd1 _ Embedded.self hmem hnd
            rcases ih c r nd1 e (fun nd h1 => hwf nd (hemb.trans h1)) hg with
              h1 | ⟨h1, nd, h2, h3⟩
            · exact Or.inl h1
            · exact Or.inr ⟨h1, nd, hemb.trans h2, h3⟩)
          ((hwf nt Embedded.self).2 _ hmem) _ _ hl with h1 | ⟨h1, t, ht, hc⟩
      · exact h1
      · exact Or.inr ⟨h1, nt, Embedded.self, _, hmem, t, ht, hc⟩

/-- The node loop has the same outcome with every function for the nested calls that
agrees with `gen` wherever `gen` does not run out of budget, unless the loop itself runs
out of budget. -/
theorem expandNodes_mono_result (gen gen1 : Context → Rand → NonTerminal → GenResult)
    (hmono : ∀ c r nd res, gen c r nd = res → res ≠ .error .outOfFuel → gen1 c r nd = res)
    (rule : List Node) : ∀ (st : LoopState) (res : Except Failure LoopState),
      expandNodes gen rule st = res → res ≠ .error .outOfFuel →
      expandNodes gen1 rule st = res := by
  have hnt : ∀ (st : LoopState) (nd : NonTerminal) (res : Except Failure LoopState),
      expandNonTerminal gen st nd = res → res ≠ .error .outOfFuel →
      expandNonTerminal gen1 st nd = res := by
    intro st nd res h hres
    unfold expandNonTerminal at h ⊢
    cases hg : gen st.context st.Rnd nd with
    | error e =>
      rw [hg] at h
      have he : e ≠ .outOfFuel := by
        intro he
        subst he
        exact hres h.symm
      rw [hmono _ _ _ _ hg (by simpa using he)]
      exact h
    | ok r =>
      rw [hg] at h
      rw [hmono _ _ _ _ hg (by simp)]
      exact h
  have hnode : ∀ (st : LoopState) (node : Node) (res : Except Failure LoopState),
      expandNode gen st node = res → res ≠ .error .outOfFuel →
      expandNode gen1 st node = res := by
    intro st node res h hres
    cases node with
    | terminal t => exact h
    | nonterminal nd => exact hnt st nd res h hres
    | ref s => exact hnt st _ res h hres
  induction rule with
  | nil => intro st res h _; exact h
  | cons node rest ih =>
    intro st res h hres
    simp only [expandNodes] at h ⊢
    cases hn : expandNode gen st node with
    | error e =>
      rw [hn] at h
      have he : (Except.error e : Except Failure LoopState) ≠ .error .outOfFuel := by
        intro he
        exact hres (h.symm.trans he)
      rw [hnode st node _ hn he]
      exact h
    | ok st2 =>
      rw [hn] at h
      rw [hnode st node _ hn (by simp)]
      exact ih st2 res h hres

/-- An outcome of `Generate` other than a used-up budget is its outcome with every larger
budget too. -/
theorem Generate_fuel_mono_result (heap : Heap) (Nonterminals : Table) (fuel : Nat) :
    ∀ (fuel1 : Nat) (context : Context) (Rnd : Rand) (nt : NonTerminal) (res : GenResult),
      fuel ≤ fuel1 → Generate heap Nonterminals fuel context Rnd nt = res →
      res ≠ .error .outOfFuel →
      Generate heap Nonterminals fuel1 context Rnd nt = res := by
  induction fuel with
  | zero =>
    intro fuel1 context Rnd nt res _ h hres
    exact absurd h.symm hres
  | succ n ih =>
    intro fuel1 context Rnd nt res hle h hres
    obtain ⟨m, rfl⟩ : ∃ m, fuel1 = m + 1 := ⟨fuel1 - 1, by omega⟩
    simp only [Generate] at h ⊢
    cases hi : Rnd.Intn (heap.rules nt.any).length with
    | none => rw [hi] at h; exact h
    | some p =>
      obtain ⟨i, Rnd0⟩ := p
      rw [hi] at h
      simp only [] at h ⊢
      cases hr : (heap.rules nt.any)[i]? with
      | none => rw [hr] at h; exact h
      | some rule =>
        rw [hr] at h
        simp only [] at h ⊢
        have hloop : expandNodes (Generate heap Nonterminals n) rule
              (initState (Nonterminals.get nt.name).context context Rnd0 rule)
            ≠ .error .outOfFuel := by
          intro hl
          rw [hl] at h
          exact hres h.symm
        rw [expandNodes_mono_result (Generate heap Nonterminals n)
          (Generate heap Nonterminals m)
          (fun c r nd res1 hg hne => ih m c r nd res1 (by omega) hg hne) rule _ _ rfl hloop]
        exact h

/-- C18 (as amended). Let every nonterminal of the symbol table, and every nonterminal
embedded in the rules of one, have at least one alternative and only leaves and resolved
nonterminals as rule nodes, and let `Generate` be called on such a nonterminal with an
allocated context.  Then `Generate` never fails by a random draw over an empty range, by
an out-of-range rule index or by expanding a node that is neither leaf nor nonterminal:
with whatever budget of nested calls it stops without a result, either a leaf generator
of a nonterminal it can come to expand has panicked or the budget is used up.  And either
no budget is enough, the recursion being without end, or from some budget on the call has
one and the same outcome, a result or the panic of a leaf generator. -/
theorem Generate_failures (heap : Heap) (Nonterminals : Table)
    (hclosed : ClosedTable Nonterminals heap) (nt : NonTerminal)
    (hnt : ∃ e ∈ Nonterminals.entries, Embedded heap e.2 nt)
    (context : Context) (Rnd : Rand) :
    (∀ fuel e, Generate heap Nonterminals fuel context Rnd nt = .error e →
        (e ≠ .intnEmpty ∧ e ≠ .indexOutOfRange)
          ∧ (e = .outOfFuel
            ∨ (e = .leafPanic
              ∧ ∃ nd, Embedded heap nt nd ∧ ∃ rule ∈ heap.rules nd.any, ∃ t,
                  Node.terminal t ∈ rule ∧ ∃ c, t.generator c = none)))
      ∧ ((∀ fuel, Generate heap Nonterminals fuel context Rnd nt = .error .outOfFuel)
        ∨ ∃ fuel0 res, ((∃ r, res = .ok r) ∨ res = .error .leafPanic)
            ∧ ∀ fuel, fuel0 ≤ fuel →
                Generate heap Nonterminals fuel context Rnd nt = res) := by
  obtain ⟨e0, he0, hemb0⟩ := hnt
  have hwf : ∀ nd, Embedded heap nt nd → WellFormed heap nd :=
    fun nd h => hclosed e0 he0 nd (hemb0.trans h)
  have key := fun fuel e => failures_of_embedded heap Nonterminals fuel context Rnd nt e hwf
  refine ⟨fun fuel e h => ⟨?_, key fuel e h⟩, ?_⟩
  · rcases key fuel e h with h1 | ⟨h1, -⟩ <;> subst h1 <;> exact ⟨by decide, by decide⟩
  · by_cases hall : ∀ fuel, Generate heap Nonterminals fuel context Rnd nt = .error .outOfFuel
    · exact Or.inl hall
    · right
      obtain ⟨fuel0, hne⟩ := not_forall.mp hall
      refine ⟨fuel0, Generate heap Nonterminals fuel0 context Rnd nt, ?_, fun fuel hle =>
        Generate_fuel_mono_result heap Nonterminals fuel0 fuel context Rnd nt _ hle rfl hne⟩
      cases hg : Generate heap Nonterminals fuel0 context Rnd nt with
      | ok r => exact Or.inl ⟨r, rfl⟩
      | error e =>
        rcases key fuel0 e hg with h1 | ⟨h1, -⟩
        · subst h1; exact absurd hg hne
        · subst h1; exact Or.inr rfl

theorem entries_tableLoop (e : Sigma fun _ : String => NonTerminal)
    (he : e ∈ tableLoop.entries) : e = ⟨"A", mkNT "A" 0⟩ := by
  have h : tableLoop.entries = [⟨"A", mkNT "A" 0⟩] := rfl
  rw [h] at he
  exact List.mem_singleton.mp he

theorem closedTable_heapFail : ClosedTable tableLoop heapFail := by
  apply closedTable_of_cells
  · intro e he
    rw [entries_tableLoop e he]
    simp [heapFail, Heap.rules, mkNT]
  · intro cell hc rule hr node hn
    simp only [heapFail, List.mem_singleton] at hc
    subst hc
    simp only [List.mem_singleton] at hr
    subst hr
    simp only [List.mem_cons, List.mem_singleton, List.not_mem_nil, or_false] at hn
    rcases hn with rfl | rfl <;> trivial

theorem closedTable_heapLoop : ClosedTable tableLoop heapLoop := by
  apply closedTable_of_cells
  · intro e he
    rw [entries_tableLoop e he]
    simp [heapLoop, Heap.rules, mkNT]
  · intro cell hc rule hr node hn
    simp only [heapLoop, List.mem_singleton] at hc
    subst hc
    simp only [List.mem_singleton] at hr
    subst hr
    simp only [List.mem_singleton] at hn
    subst hn
    simp [heapLoop, Heap.rules, mkNT]

/-- C18 (as amended), witness: in `A : "x" F .` the generator of the leaf `F` panics, and
that is the outcome of `Generate` with every budget of at least one call. -/
theorem Generate_failures_witness :
    Generate heapFail tableLoop 1 ∅ (constRand 0) (mkNT "A" 0) = .error .leafPanic
      ∧ (∀ fuel e, Generate heapFail tableLoop fuel ∅ (constRand 0) (mkNT "A" 0) = .error e →
          (e ≠ .intnEmpty ∧ e ≠ .indexOutOfRange)
            ∧ (e = .outOfFuel
              ∨ (e = .leafPanic
                ∧ ∃ nd, Embedded heapFail (mkNT "A" 0) nd ∧ ∃ rule ∈ heapFail.rules nd.any,
                    ∃ t, Node.terminal t ∈ rule ∧ ∃ c, t.generator c = none)))
      ∧ ((∀ fuel, Generate heapFail tableLoop fuel ∅ (constRand 0) (mkNT "A" 0)
            = .error .outOfFuel)
        ∨ ∃ fuel0 res, ((∃ r, res = .ok r) ∨ res = .error .leafPanic)
            ∧ ∀ fuel, fuel0 ≤ fuel →
                Generate heapFail tableLoop fuel ∅ (constRand 0) (mkNT "A" 0) = res) :=
  ⟨by rfl,
   Generate_failures heapFail tableLoop closedTable_heapFail (mkNT "A" 0)
     ⟨⟨"A", mkNT "A" 0⟩, List.mem_singleton_self _, Embedded.self⟩ ∅ (constRand 0)⟩

/-- C18, counterexample. The grammar `A : A .` meets the condition of the claim: its one
nonterminal has an alternative, and the one node of that rule is a resolved nonterminal.
It has no leaf, so no failure can come from a leaf generator.  Yet `Generate` called on
`A` does not return: whatever the context and the random source, every budget of nested
calls is used up, since each call of `Generate` on `A` calls `Generate` on `A` again. -/
theorem Generate_unbounded_recursion :
    ClosedTable tableLoop heapLoop
      ∧ (∀ cell ∈ heapLoop, ∀ rule ∈ cell, ∀ t, Node.terminal t ∉ rule)
      ∧ ∀ fuel (context : Context) (Rnd : Rand),
          Generate heapLoop tableLoop fuel context Rnd (mkNT "A" 0) = .error .outOfFuel := by
  refine ⟨closedTable_heapLoop, ?_, ?_⟩
  · intro cell hc rule hr t ht
    simp only [heapLoop, List.mem_singleton] at hc
    subst hc
    simp only [List.mem_singleton] at hr
    subst hr
    simp at ht
  · intro fuel
    induction fuel with
    | zero => intro context Rnd; rfl
    | succ n ih =>
      intro context Rnd
      have hintn : Rnd.Intn (heapLoop.rules (mkNT "A" 0).any).length
          = some (0, fun i => Rnd (i + 1)) := by
        have hlen : (heapLoop.rules (mkNT "A" 0).any).length = 1 := rfl
        rw [hlen]
        unfold Rand.Intn
        rw [if_neg (by omega), Nat.mod_one]
      have hr : (heapLoop.rules (mkNT "A" 0).any)[0]?
          = some [Node.nonterminal (mkNT "A" 0)] := rfl
      simp only [Generate, hintn, hr, expandNodes, expandNode, expandNonTerminal, ih]

/-! ## Generation: determinism -/

theorem SameMap.insert {c1 c2 : Context} (h : SameMap c1 c2) (k : String) (v : Value) :
    SameMap (c1.insert k v) (c2.insert k v) := by
  intro x
  by_cases hx : x = k
  · subst hx; rw [AList.lookup_insert, AList.lookup_insert]
  · rw [AList.lookup_insert_ne hx, AList.lookup_insert_ne hx]; exact h x

theorem SameMap.mem_keys {c1 c2 : Context} (h : SameMap c1 c2) (k : String) :
    k ∈ c1.keys ↔ k ∈ c2.keys := by
  rw [← AList.mem_keys, ← AList.mem_keys, ← AList.lookup_isSome, ← AList.lookup_isSome, h k]

theorem SameMap.deleteKeys {c1 c2 : Context} (h : SameMap c1 c2) (keys1 keys2 : List String)
    (hk : ∀ k, k ∈ keys1 ↔ k ∈ keys2) :
    SameMap (deleteKeys keys1 c1) (deleteKeys keys2 c2) := by
  intro x
  rw [lookup_deleteKeys, lookup_deleteKeys]
  by_cases hx : x ∈ keys1
  · rw [if_pos hx, if_pos ((hk x).mp hx)]
  · rw [if_neg hx, if_neg (fun h2 => hx ((hk x).mpr h2))]; exact h x

theorem SameMap.mergeDefaults {d1 d2 c1 c2 : Context} (hd : SameMap d1 d2)
    (hc : SameMap c1 c2) : SameMap (mergeDefaults d1 c1) (mergeDefaults d2 c2) := by
  intro x
  cases h1 : d1.lookup x with
  | none =>
    have h2 : d2.lookup x = none := by rw [← hd x]; exact h1
    rw [lookup_mergeDefaults_of_not_mem x d1 c1 (by
        rw [← AList.mem_keys]; exact AList.lookup_eq_none.mp h1),
      lookup_mergeDefaults_of_not_mem x d2 c2 (by
        rw [← AList.mem_keys]; exact AList.lookup_eq_none.mp h2)]
    exact hc x
  | some v =>
    have h2 : d2.lookup x = some v := by rw [← hd x]; exact h1
    rw [lookup_mergeDefaults_of_mem x v d1 c1 h1, lookup_mergeDefaults_of_mem x v d2 c2 h2]

/-- The node loop is deterministic when the nested calls and the leaves of the rule
are. -/
theorem expandNodes_deterministic (gen1 gen2 : Context → Rand → NonTerminal → GenResult)
    (hgen : ∀ c1 c2 r nd, SameMap c1 c2 → SameResult (gen1 c1 r nd) (gen2 c2 r nd))
    (rule : List Node)
    (hdet : ∀ t, Node.terminal t ∈ rule → Generator.Deterministic t.generator) :
    ∀ st1 st2, SameState st1 st2 →
      SameLoopResult (expandNodes gen1 rule st1) (expandNodes gen2 rule st2) := by
  have hnt : ∀ (st1 st2 : LoopState) (nd : NonTerminal), SameState st1 st2 →
      SameLoopResult (expandNonTerminal gen1 st1 nd) (expandNonTerminal gen2 st2 nd) := by
    intro st1 st2 nd hst
    obtain ⟨hc, hr, ht, hn⟩ := hst
    have h := hgen st1.context st2.context st1.Rnd nd hc
    unfold expandNonTerminal
    rw [← hr]
    cases h1 : gen1 st1.context st1.Rnd nd with
    | error e1 =>
      cases h2 : gen2 st2.context st1.Rnd nd with
      | error e2 => rw [h1, h2] at h; exact h
      | ok p2 => rw [h1, h2] at h; exact h.elim
    | ok p1 =>
      cases h2 : gen2 st2.context st1.Rnd nd with
      | error e2 => rw [h1, h2] at h; exact h.elim
      | ok p2 =>
        rw [h1, h2] at h
        obtain ⟨s1, d1, r1⟩ := p1
        obtain ⟨s2, d2, r2⟩ := p2
        obtain ⟨hs, hd, hrr⟩ := h
        subst hs
        exact ⟨hd.insert _ _, hrr, by simp only [ht], by simp only [hn]⟩
  induction rule with
  | nil => intro st1 st2 hst; exact hst
  | cons node rest ih =>
    intro st1 st2 hst
    have hstep : SameLoopResult (expandNode gen1 st1 node) (expandNode gen2 st2 node) := by
      cases node with
      | terminal t =>
        have h := hdet t (List.mem_cons_self _ _) st1.context st2.context hst.1
        simp only [expandNode]
        cases h1 : t.generator st1.context with
        | none =>
          cases h2 : t.generator st2.context with
          | none => rfl
          | some p2 => rw [h1, h2] at h; exact h.elim
        | some p1 =>
          cases h2 : t.generator st2.context with
          | none => rw [h1, h2] at h; exact h.elim
          | some p2 =>
            rw [h1, h2] at h
            obtain ⟨s1, d1⟩ := p1
            obtain ⟨s2, d2⟩ := p2
            obtain ⟨hs, hd⟩ := h
            subst hs
            exact ⟨hd, hst.2.1, by simp only [hst.2.2.1], hst.2.2.2⟩
      | nonterminal nd => exact hnt st1 st2 nd hst
      | ref s => exact hnt st1 st2 _ hst
    simp only [expandNodes]
    cases h1 : expandNode gen1 st1 node with
    | error e1 =>
      cases h2 : expandNode gen2 st2 node with
      | error e2 => rw [h1, h2] at hstep; exact hstep
      | ok q2 => rw [h1, h2] at hstep; exact hstep.elim
    | ok q1 =>
      cases h2 : expandNode gen2 st2 node with
      | error e2 => rw [h1, h2] at hstep; exact hstep.elim
      | ok q2 =>
        rw [h1, h2] at hstep
        exact ih (fun t ht => hdet t (List.mem_cons_of_mem _ ht)) q1 q2 hstep

/-- Two runs of `Generate` with the same budget agree in their result. -/
theorem Generate_deterministic_fuel (heap : Heap) (Nonterminals1 Nonterminals2 : Table)
    (hdet : LeavesDeterministic heap) (hT : SameDefaults Nonterminals1 Nonterminals2)
    (fuel : Nat) : ∀ (c1 c2 : Context) (Rnd : Rand) (nt : NonTerminal), SameMap c1 c2 →
      SameResult (Generate heap Nonterminals1 fuel c1 Rnd nt)
        (Generate heap Nonterminals2 fuel c2 Rnd nt) := by
  induction fuel with
  | zero => intro c1 c2 Rnd nt _; rfl
  | succ n ih =>
    intro c1 c2 Rnd nt hc
    simp only [Generate]
    cases hi : Rnd.Intn (heap.rules nt.any).length with
    | none => rfl
    | some p =>
      obtain ⟨i, Rnd0⟩ := p
      simp only []
      cases hr : (heap.rules nt.any)[i]? with
      | none => rfl
      | some rule =>
        simp only []
        obtain ⟨cell, hcell, hrc⟩ := mem_heap_of_mem_rules heap nt.any rule (List.getElem?_mem hr)
        have hloop := expandNodes_deterministic (Generate heap Nonterminals1 n)
          (Generate heap Nonterminals2 n) (fun a b r nd hab => ih a b r nd hab) rule
          (fun t ht => hdet cell hcell rule hrc t ht)
          (initState (Nonterminals1.get nt.name).context c1 Rnd0 rule)
          (initState (Nonterminals2.get nt.name).context c2 Rnd0 rule)
          ⟨SameMap.mergeDefaults (hT nt.name) hc, rfl, rfl, rfl⟩
        cases h1 : expandNodes (Generate heap Nonterminals1 n) rule
            (initState (Nonterminals1.get nt.name).context c1 Rnd0 rule) with
        | error e1 =>
          cases h2 : expandNodes (Generate heap Nonterminals2 n) rule
              (initState (Nonterminals2.get nt.name).context c2 Rnd0 rule) with
          | error e2 => rw [h1, h2] at hloop; exact hloop
          | ok q2 => rw [h1, h2] at hloop; exact hloop.elim
        | ok q1 =>
          cases h2 : expandNodes (Generate heap Nonterminals2 n) rule
              (initState (Nonterminals2.get nt.name).context c2 Rnd0 rule) with
          | error e2 => rw [h1, h2] at hloop; exact hloop.elim
          | ok q2 =>
            rw [h1, h2] at hloop
            obtain ⟨hctx, hrnd, hterms, hnames⟩ := hloop
            refine ⟨by simp only [finish, hterms], ?_, by simp only [finish, hrnd]⟩
            simp only [finish, hnames]
            exact SameMap.deleteKeys
              (SameMap.deleteKeys hctx _ _ (fun k => Iff.rfl)) _ _
              (fun k => SameMap.mem_keys (hT nt.name) k)

/-- C17. Two runs of `Generate` on the same grammar and start nonterminal, with the same
initial context, with pseudorandom sources in the same state and with leaf generators
that are deterministic functions of the context: when the first run returns `out1`, the
second run returns too, and every result of the second run is the identical output
string `out1`, with the same context and the same state of the pseudorandom source left
behind.  The map iteration order, which Go leaves unspecified, may differ between the
runs: the contexts and the default contexts of the two runs are the same maps, whatever
the order of their entries. -/
theorem Generate_deterministic (heap : Heap) (Nonterminals1 Nonterminals2 : Table)
    (fuel1 : Nat) (c1 c2 : Context) (Rnd1 Rnd2 : Rand) (nt : NonTerminal)
    (out1 : String) (d1 : Context) (r1 : Rand)
    (hdet : LeavesDeterministic heap) (hT : SameDefaults Nonterminals1 Nonterminals2)
    (hc : SameMap c1 c2) (hr : ∀ i, Rnd1 i = Rnd2 i)
    (h1 : Generate heap Nonterminals1 fuel1 c1 Rnd1 nt = .ok (out1, d1, r1)) :
    (∃ d2, Generate heap Nonterminals2 fuel1 c2 Rnd2 nt = .ok (out1, d2, r1) ∧ SameMap d1 d2)
      ∧ (∀ fuel2 out2 d2 r2,
          Generate heap Nonterminals2 fuel2 c2 Rnd2 nt = .ok (out2, d2, r2) →
          out2 = out1 ∧ SameMap d1 d2 ∧ r2 = r1) := by
  have hrnd : Rnd1 = Rnd2 := funext hr
  subst hrnd
  constructor
  · have h := Generate_deterministic_fuel heap Nonterminals1 Nonterminals2 hdet hT
      fuel1 c1 c2 Rnd1 nt hc
    rw [h1] at h
    cases h2 : Generate heap Nonterminals2 fuel1 c2 Rnd1 nt with
    | error e => rw [h2] at h; exact h.elim
    | ok p =>
      rw [h2] at h
      obtain ⟨s2, d2, r2⟩ := p
      obtain ⟨hs, hd, hrr⟩ := h
      subst hs hrr
      exact ⟨d2, rfl, hd⟩
  · intro fuel2 out2 d2 r2 h2
    have g1 := Generate_fuel_mono heap Nonterminals1 fuel1 (max fuel1 fuel2) c1 Rnd1 nt _
      (Nat.le_max_left _ _) h1
    have g2 := Generate_fuel_mono heap Nonterminals2 fuel2 (max fuel1 fuel2) c2 Rnd1 nt _
      (Nat.le_max_right _ _) h2
    have h := Generate_deterministic_fuel heap Nonterminals1 Nonterminals2 hdet hT
      (max fuel1 fuel2) c1 c2 Rnd1 nt hc
    rw [g1, g2] at h
    exact ⟨h.1.symm, h.2.1, h.2.2.symm⟩

theorem lit_deterministic (s : String) : Generator.Deterministic (lit s).generator :=
  fun _ _ h => ⟨rfl, h⟩

theorem probe2_deterministic (a b : String) :
    Generator.Deterministic (probe2 a b).generator := by
  intro c1 c2 h
  simp only [probe2, probe, h a, h b]
  rcases c2.lookup a with _ | (_ | _ | _) <;> rcases c2.lookup b with _ | (_ | _ | _) <;>
    exact ⟨rfl, h⟩

theorem leavesDeterministic_heapDet : LeavesDeterministic heapDet := by
  intro cell hc rule hr t ht
  simp only [heapDet, List.mem_cons, List.mem_singleton, List.not_mem_nil, or_false] at hc
  rcases hc with rfl | rfl
  · simp only [List.mem_cons, List.mem_singleton, List.not_mem_nil, or_false] at hr
    rcases hr with rfl | rfl
    · simp only [List.mem_cons, List.mem_singleton, List.not_mem_nil, or_false,
        Node.terminal.injEq, false_or, reduceCtorEq] at ht
      subst ht; exact probe2_deterministic _ _
    · simp only [List.mem_singleton, Node.terminal.injEq] at ht
      subst ht; exact lit_deterministic _
  · simp only [List.mem_cons, List.mem_singleton, List.not_mem_nil, or_false] at hr
    rcases hr with rfl | rfl
    · simp only [List.mem_singleton, Node.terminal.injEq] at ht
      subst ht; exact lit_deterministic _
    · simp only [List.mem_singleton, Node.terminal.injEq] at ht
      subst ht; exact lit_deterministic _

theorem sameMap_ctxPQ : SameMap ctxPQ ctxQP := by
  intro k
  by_cases hp : k = "p"
  · subst hp; rfl
  · by_cases hq : k = "q"
    · subst hq; rfl
    · simp only [ctxPQ, ctxQP, bind1, AList.lookup_insert_ne hp, AList.lookup_insert_ne hq]

theorem sameDefaults_tableDet : SameDefaults tableDet1 tableDet2 := by
  intro name
  by_cases hB : name = "B"
  · subst hB; intro k; rfl
  · by_cases hA : name = "A"
    · subst hA; exact sameMap_ctxPQ
    · intro k
      simp only [tableDet1, tableDet2, Table.get, AList.lookup_insert_ne hB,
        AList.lookup_insert_ne hA, AList.lookup_empty]

/-- C17, witness: two runs on `A : B L | "z" .`, `B : "y" | "w" .` with a source that
draws 0, one with the default context of `A` held as `q, p` and one with it held as
`p, q`: both return `"y12"`. -/
theorem Generate_deterministic_witness :
    Generate heapDet tableDet1 2 (bind1 "x" "0") (constRand 0) (mkNT "A" 0)
        = .ok ("y12", bind1 "x" "0", constRand 0)
      ∧ Generate heapDet tableDet2 3 (bind1 "x" "0") (constRand 0) (mkNT "A" 0)
        = .ok ("y12", bind1 "x" "0", constRand 0)
      ∧ (∃ d2, Generate heapDet tableDet2 2 (bind1 "x" "0") (constRand 0) (mkNT "A" 0)
            = .ok ("y12", d2, constRand 0) ∧ SameMap (bind1 "x" "0") d2)
      ∧ (∀ fuel2 out2 d2 r2,
          Generate heapDet tableDet2 fuel2 (bind1 "x" "0") (constRand 0) (mkNT "A" 0)
            = .ok (out2, d2, r2) →
          out2 = "y12" ∧ SameMap (bind1 "x" "0") d2 ∧ r2 = constRand 0) :=
  ⟨by rfl, by rfl,
   Generate_deterministic heapDet tableDet1 tableDet2 2 (bind1 "x" "0") (bind1 "x" "0")
     (constRand 0) (constRand 0) (mkNT "A" 0) "y12" (bind1 "x" "0")
     (constRand 0) leavesDeterministic_heapDet sameDefaults_tableDet
     (fun _ => rfl) (fun _ => rfl) (by rfl)⟩

end Monster
